import Mathlib

/-!
# syntaxbench: the benchmark harness and its kernels

A shallow embedding of `src/benchmark/{qsort,matrix,aes,main}.c` and
`syntaxbench.h`.

* C `int` and `uint32_t` values are `Int`/`Nat`; the index arithmetic of the source
  is exact on the sizes the header fixes (750000 items, 512x512 matrices).
* `clock_t` values are `Int`; the subtraction, the multiplication and the addition
  that `main` does on them wrap around at the width of `clock_t`, which the platform
  fixes.
* `float64_t` is an arbitrary type `α` with the comparison `gt a b` (C `a > b`)
  passed as a parameter, so that the same code can be read over a total order
  or over an order with incomparable values.
* A global array is a partial map from indices to cells; an access outside the
  array is the fault `outOfBounds`.
* `exit(EXIT_FAILURE)` inside a kernel is an error result that nothing catches.
-/

namespace Syntaxbench

deriving instance DecidableEq for Except

/-! ## qsort.c -/

/-- Ways a modelled run can stop that are not an `exit` of the program. -/
inductive Fault where
  | outOfBounds
  | outOfFuel
  | uninitialised
  deriving DecidableEq, Repr

/-- A global array such as `qsort_list`: the cell at each index, `none` outside the array. -/
abbrev Mem (α : Type) := Int → Option α

/-- The array whose cells `0 .. l.length - 1` hold the elements of `l`. -/
def Mem.ofList {α : Type} (l : List α) : Mem α :=
  fun i => if 0 ≤ i then l[i.toNat]? else none

/-- The cells `0 .. n - 1` of an array, in order. -/
def Mem.dump {α : Type} (m : Mem α) (n : Nat) : List (Option α) :=
  (List.range n).map (fun k => m (k : Int))

/-- Read `qsort_list[i]`. -/
def rd {α : Type} (m : Mem α) (i : Int) : Except Fault α :=
  match m i with
  | some x => .ok x
  | none => .error .outOfBounds

/-- Write `qsort_list[i] = v`. -/
def wr {α : Type} (m : Mem α) (i : Int) (v : α) : Except Fault (Mem α) :=
  match m i with
  | some _ => .ok (fun j => if j = i then some v else m j)
  | none => .error .outOfBounds

/-- `swap(a, b)`: `c = list[a]; list[a] = list[b]; list[b] = c`. -/
def swap {α : Type} (m : Mem α) (a b : Int) : Except Fault (Mem α) := do
  let c ← rd m a
  let vb ← rd m b
  let m1 ← wr m a vb
  wr m1 b c

/-- The scan of `qsort_impl`:
`for(i = left + 1; i <= right; ++i) if(list[left] > list[i]) swap(i, ++last);`
started at the given `i` and `last`. It returns the final `last` and the array. -/
def scan {α : Type} (gt : α → α → Bool) (left right : Int) :
    Nat → Int → Int → Mem α → Except Fault (Int × Mem α)
  | fuel, i, last, m =>
    if i ≤ right then
      match fuel with
      | 0 => .error .outOfFuel
      | fuel + 1 => do
        let p ← rd m left
        let x ← rd m i
        if gt p x then do
          let m1 ← swap m i (last + 1)
          scan gt left right fuel (i + 1) (last + 1) m1
        else
          scan gt left right fuel (i + 1) last m
    else .ok (last, m)

/-- The statements of `qsort_impl(left, right)` between the test `left >= right` and the
two recursive calls: the swap of the middle element to `left`, the scan, the swap of
the pivot to `last`. It returns `last` and the array. -/
def partition {α : Type} (gt : α → α → Bool) (m : Mem α) (left right : Int) :
    Except Fault (Int × Mem α) := do
  let m1 ← swap m left (Int.tdiv (left + right) 2)
  let (last, m2) ← scan gt left right (right - left).toNat (left + 1) left m1
  let m3 ← swap m2 left last
  pure (last, m3)

/-- The body of `qsort_impl(left, right)` with a bound on the recursion depth.
`(left + right) / 2` is C division, which truncates. -/
def qsort_impl_fuel {α : Type} (gt : α → α → Bool) :
    Nat → Mem α → Int → Int → Except Fault (Mem α)
  | fuel, m, left, right =>
    if left ≥ right then .ok m
    else
      match fuel with
      | 0 => .error .outOfFuel
      | fuel + 1 => do
        let m1 ← swap m left (Int.tdiv (left + right) 2)
        let (last, m2) ← scan gt left right (right - left).toNat (left + 1) left m1
        let m3 ← swap m2 left last
        let m4 ← qsort_impl_fuel gt fuel m3 left (last - 1)
        qsort_impl_fuel gt fuel m4 (last + 1) right

/-- The function `qsort_impl(left, right)`: the recursion depth never exceeds the
length of the range, which is the bound given here. -/
def qsort_impl {α : Type} (gt : α → α → Bool) (m : Mem α) (left right : Int) :
    Except Fault (Mem α) :=
  qsort_impl_fuel gt (right - left).toNat m left right

/-- How `benchmark_qsort` can stop: a fault, or the message
`Quicksort failed at byte i [prev/cur]` followed by `exit(EXIT_FAILURE)`. -/
inductive QsortStop (α : Type) where
  | fault (f : Fault)
  | failed (i : Nat) (prev cur : α)
  deriving DecidableEq, Repr

/-- Lift a fault of an array access into a stop of the kernel. -/
def liftFault {α β : Type} : Except Fault β → Except (QsortStop α) β
  | .ok b => .ok b
  | .error f => .error (.fault f)

/-- Read the local `prev`, which has no value before its first assignment. -/
def rdPrev {α : Type} : Option α → Except (QsortStop α) α
  | some p => .ok p
  | none => .error (.fault .uninitialised)

/-- The scan after the sort in `benchmark_qsort`, over `n` items:
`for(i = 0; i < n; ++i) { if(i != 0 && prev > list[i]) fail; prev = list[i]; }`
started at the given `i` and `prev`. -/
def check_loop {α : Type} (gt : α → α → Bool) (n : Nat) (m : Mem α) :
    Nat → Nat → Option α → Except (QsortStop α) Unit
  | fuel, i, prev =>
    if i < n then
      match fuel with
      | 0 => .error (.fault .outOfFuel)
      | fuel + 1 => do
        if i ≠ 0 then do
          let p ← rdPrev prev
          let cur ← liftFault (rd m (i : Int))
          if gt p cur then
            throw (.failed i p cur)
        let cur ← liftFault (rd m (i : Int))
        check_loop gt n m fuel (i + 1) (some cur)
    else .ok ()

/-- The self-check of `benchmark_qsort` on an array of `n` items. -/
def check_sorted {α : Type} (gt : α → α → Bool) (n : Nat) (m : Mem α) :
    Except (QsortStop α) Unit :=
  check_loop gt n m n 0 none

/-- The kernel `benchmark_qsort`; `data` is the content of `qsort_list` after the
`fread`, and its length stands for `QSORT_ITEMS`. -/
def benchmark_qsort {α : Type} (gt : α → α → Bool) (data : List α) :
    Except (QsortStop α) (Mem α) := do
  let m ← liftFault (qsort_impl gt (Mem.ofList data) 0 ((data.length : Int) - 1))
  check_sorted gt data.length m
  pure m

/-! ## matrix.c -/

/-- The innermost loop of `benchmark_matrix`: `result = 0` followed by
`for(k = 0; k < MATRIX_B; ++k) result += A[k + i * MATRIX_B] * B[j + k * MATRIX_A];`. -/
def matrix_dot {R : Type} [Zero R] [Add R] [Mul R] (MATRIX_A MATRIX_B : Nat)
    (A B : Nat → R) (i j : Nat) : R :=
  (List.range MATRIX_B).foldl
    (fun result k => result + A (k + i * MATRIX_B) * B (j + k * MATRIX_A)) 0

/-- The loops of `benchmark_matrix`; `A` and `B` are the arrays after the two
`fread`s, `C` is the array `C` as the previous trial left it. The result is `C`. -/
def benchmark_matrix {R : Type} [Zero R] [Add R] [Mul R] (MATRIX_A MATRIX_B : Nat)
    (A B C : Nat → R) : Nat → R :=
  (List.range MATRIX_A).foldl
    (fun C i =>
      (List.range MATRIX_A).foldl
        (fun C j => Function.update C (j + i * MATRIX_A) (matrix_dot MATRIX_A MATRIX_B A B i j))
        C)
    C

/-- The loops of `benchmark_matrix` with the local `result` as part of the state: it
holds whatever it held before until `result = 0` is executed. The result is the pair
of `C` and `result`. -/
def benchmark_matrix_acc {R : Type} [Zero R] [Add R] [Mul R] (MATRIX_A MATRIX_B : Nat)
    (A B C : Nat → R) (result : R) : (Nat → R) × R :=
  (List.range MATRIX_A).foldl
    (fun s i =>
      (List.range MATRIX_A).foldl
        (fun s j =>
          let result : R := 0
          let result := (List.range MATRIX_B).foldl
            (fun result k => result + A (k + i * MATRIX_B) * B (j + k * MATRIX_A)) result
          (Function.update s.1 (j + i * MATRIX_A) result, result))
        s)
    (C, result)

/-! ## aes.c -/

/-- The cipher of `aes256.h`, which is not part of the sources: three operations
on a context, each returning a status byte, and the status that means success. -/
structure Cipher (Ctx Key Blk : Type) where
  AES_SUCCESS : Nat
  aes256_init : Ctx → Key → Nat × Ctx
  aes256_encrypt_ecb : Ctx → Blk → Nat × Ctx × Blk
  aes256_decrypt_ecb : Ctx → Blk → Nat × Ctx × Blk

/-- The calls `benchmark_aes` makes, in the order it makes them. -/
inductive AesOp where
  | init
  | fread
  | memcpy (i : Nat)
  | encrypt (i : Nat)
  | decrypt (i : Nat)
  | memcmp (i : Nat)
  deriving DecidableEq, Repr

/-- The four messages of `benchmark_aes`, each followed by `exit(EXIT_FAILURE)`. -/
inductive AesFailure where
  | init_failed
  | encryption_failed
  | decryption_failed
  | failed_at_block (i : Nat)
  deriving DecidableEq, Repr

/-- The globals of aes.c and the calls made so far. -/
structure AesState (Ctx Blk : Type) where
  aes_ctx : Ctx
  plaintext : Nat → Blk
  ciphertext : Nat → Blk
  ops : List AesOp

/-- One round of the block loop of `benchmark_aes`, for block `i`. -/
def aes_block {Ctx Key Blk : Type} [DecidableEq Blk] (c : Cipher Ctx Key Blk) (i : Nat)
    (s : AesState Ctx Blk) : Except (AesFailure × AesState Ctx Blk) (AesState Ctx Blk) :=
  let s1 : AesState Ctx Blk :=
    { s with ciphertext := Function.update s.ciphertext i (s.plaintext i),
             ops := s.ops ++ [.memcpy i] }
  let e := c.aes256_encrypt_ecb s1.aes_ctx (s1.ciphertext i)
  let s2 : AesState Ctx Blk :=
    { s1 with aes_ctx := e.2.1, ciphertext := Function.update s1.ciphertext i e.2.2,
              ops := s1.ops ++ [.encrypt i] }
  if e.1 ≠ c.AES_SUCCESS then .error (.encryption_failed, s2)
  else
    let d := c.aes256_decrypt_ecb s2.aes_ctx (s2.ciphertext i)
    let s3 : AesState Ctx Blk :=
      { s2 with aes_ctx := d.2.1, ciphertext := Function.update s2.ciphertext i d.2.2,
                ops := s2.ops ++ [.decrypt i] }
    if d.1 ≠ c.AES_SUCCESS then .error (.decryption_failed, s3)
    else
      let s4 : AesState Ctx Blk := { s3 with ops := s3.ops ++ [.memcmp i] }
      if s4.ciphertext i ≠ s4.plaintext i then .error (.failed_at_block i, s4)
      else .ok s4

/-- The block loop `for(i = ...; i < AES_BYTES / sizeof(aes256_blk_t); ++i)`, with
`count` rounds left, the next one for block `i`. -/
def aes_loop {Ctx Key Blk : Type} [DecidableEq Blk] (c : Cipher Ctx Key Blk) :
    Nat → Nat → AesState Ctx Blk → Except (AesFailure × AesState Ctx Blk) (AesState Ctx Blk)
  | 0, _, s => .ok s
  | count + 1, i, s => do
    let s1 ← aes_block c i s
    aes_loop c count (i + 1) s1

/-- One trial of `benchmark_aes` over `blocks = AES_BYTES / sizeof(aes256_blk_t)`
blocks; `data` is what the `fread` puts into `plaintext`. -/
def benchmark_aes {Ctx Key Blk : Type} [DecidableEq Blk] (c : Cipher Ctx Key Blk)
    (aes_key : Key) (blocks : Nat) (data : Nat → Blk) (s : AesState Ctx Blk) :
    Except (AesFailure × AesState Ctx Blk) (AesState Ctx Blk) :=
  let r := c.aes256_init s.aes_ctx aes_key
  let s1 : AesState Ctx Blk := { s with aes_ctx := r.2, ops := s.ops ++ [.init] }
  if r.1 ≠ c.AES_SUCCESS then .error (.init_failed, s1)
  else
    let s2 : AesState Ctx Blk := { s1 with plaintext := data, ops := s1.ops ++ [.fread] }
    aes_loop c blocks 0 s2

/-! ## syntaxbench.h and main.c -/

/-- What a kernel does to the input stream while it runs. -/
inductive KernelEvent where
  | fread (items : Nat)
  deriving DecidableEq, Repr

/-- A kernel `void (*benchmark_t)(FILE *input)`: from the state of the input stream
(and of whatever else the kernel owns) to the events of the call and either the
state after it or the failure the kernel exits with. -/
abbrev benchmark_t (σ ε : Type) := σ → List KernelEvent × Except ε σ

/-- A row of the registry. -/
structure benchmark_data_t (σ ε : Type) where
  benchmark : benchmark_t σ ε
  name : String
  iterations : Nat

def ITERATIONS_MATRIX : Nat := 100
def ITERATIONS_CRC32 : Nat := 100
def ITERATIONS_AES : Nat := 100
def ITERATIONS_QSORT : Nat := 100
def MATRIX_A : Nat := 512
def MATRIX_B : Nat := 512
def CRC32_BYTES : Nat := 67108864
def AES_BYTES : Nat := 8388608
def QSORT_ITEMS : Nat := 750000

/-- The table `benchmarks[]` of syntaxbench.h over the four kernels. -/
def benchmarks {σ ε : Type} (benchmark_matrix benchmark_crc32 benchmark_aes
    benchmark_qsort : benchmark_t σ ε) : List (benchmark_data_t σ ε) :=
  [ ⟨benchmark_matrix, "Matrix multiplication (512x512)", ITERATIONS_MATRIX⟩,
    ⟨benchmark_crc32, "CRC32 (67108864 bytes)", ITERATIONS_CRC32⟩,
    ⟨benchmark_aes, "AES (8388608 bytes)", ITERATIONS_AES⟩,
    ⟨benchmark_qsort, "Quicksort (750000 items)", ITERATIONS_QSORT⟩ ]

/-- The record `benchmark_result_t`; a value of `clock_t` is an integer of its range. -/
structure benchmark_result_t where
  time_total : Int
  time_min : Int
  time_max : Int
  deriving DecidableEq, Repr

/-- What the run does that can be seen from outside, in order. `call i j` marks the
call `benchmark->benchmark(input)` of trial `j` of entry `i`; `fatal` is the message
and `exit(EXIT_FAILURE)` of a kernel; `result` is the five lines printed for an
entry, the average being `time_total / (float64_t) iterations`. -/
inductive Event (ε : Type) where
  | open_failed
  | running (n : Nat)
  | running_benchmark (name : String)
  | fseek (offset : Nat)
  | progress (j iterations : Nat)
  | clock (t : Int)
  | call (i j : Nat)
  | kernel (e : KernelEvent)
  | fatal (failure : ε)
  | fclose
  | results_header
  | result (name : String) (iterations : Nat) (r : benchmark_result_t)
  deriving DecidableEq

/-- What the platform supplies to `main`: whether `fopen` succeeds (and the stream
it returns), the values of the successive calls of `rand()` after `srand(0)` and of
`clock()`, the constant `CLOCKS_PER_SEC`, `fseek` on the stream, and the width in bits
of the type `clock_t` of `<time.h>`. -/
structure Env (σ : Type) where
  fopen : Option σ
  rand : Nat → Nat
  clock : Nat → Int
  CLOCKS_PER_SEC : Int
  fseek : σ → Nat → σ
  clock_t_bits : Nat

/-- The variables of `main` between two statements: the stream, how many values of
`rand()` and `clock()` were consumed, the output so far, the array `results`. -/
structure HState (σ ε : Type) where
  input : σ
  rands : Nat
  clocks : Nat
  out : List (Event ε)
  results : Nat → benchmark_result_t

/-- How a run ends: `main` returns a code, or a kernel calls `exit(EXIT_FAILURE)`. -/
inductive Status (ε : Type) where
  | returned (code : Int)
  | exited (failure : ε)
  deriving DecidableEq

/-- A finished run: everything it did, and how it ended. -/
structure Run (ε : Type) where
  out : List (Event ε)
  status : Status ε
  deriving DecidableEq

/-- The largest value of `clock_t`, a signed integer type of `<time.h>` (which is not
part of the sources) whose width in bits is left to the platform. -/
def clock_t_max (bits : Nat) : Int := 2 ^ (bits - 1) - 1

/-- The smallest value of `clock_t` for a width of `bits` bits. -/
def clock_t_min (bits : Nat) : Int := -(2 ^ (bits - 1))

/-- The value that an operation on `clock_t` stores when its exact result is `x`: `x`
itself when it is a value of the type, and otherwise the value of the type that differs
from `x` by a multiple of the number of values (the arithmetic wraps around). -/
def clock_t_wrap (bits : Nat) (x : Int) : Int :=
  (x - clock_t_min bits) % (clock_t_max bits - clock_t_min bits + 1) + clock_t_min bits

/-- The lines `if(CLOCKS_PER_SEC != 1000000) time_diff *= (1000000 / CLOCKS_PER_SEC);`,
the product being computed in `clock_t`. -/
def normalise (bits : Nat) (CLOCKS_PER_SEC time_diff : Int) : Int :=
  if CLOCKS_PER_SEC ≠ 1000000 then
    clock_t_wrap bits (time_diff * (Int.tdiv 1000000 CLOCKS_PER_SEC))
  else time_diff

/-- The three updates of `*result` that end an iteration, the sum being computed in
`clock_t`. -/
def record (bits : Nat) (r : benchmark_result_t) (time_diff : Int) : benchmark_result_t :=
  let r1 := { r with time_total := clock_t_wrap bits (r.time_total + time_diff) }
  let r2 := if time_diff < r1.time_min then { r1 with time_min := time_diff } else r1
  if time_diff > r2.time_max then { r2 with time_max := time_diff } else r2

/-- The three assignments that start an entry. -/
def reset : benchmark_result_t :=
  { time_total := 0, time_min := 2147483647, time_max := -2147483648 }

/-- The body of the loop over `j`: one trial of entry `i`. An error is the output
up to the `exit` of the kernel, and the failure. -/
def trial {σ ε : Type} (env : Env σ) (benchmark : benchmark_data_t σ ε) (i j : Nat)
    (st : HState σ ε) : Except (Run ε) (HState σ ε) :=
  let offset := env.rand st.rands % 134217728
  let input := env.fseek st.input offset
  let time_start := env.clock st.clocks
  let out := st.out ++ [.fseek offset, .progress j benchmark.iterations,
    .clock time_start, .call i j]
  let k := benchmark.benchmark input
  let out := out ++ k.1.map Event.kernel
  match k.2 with
  | .error failure => .error { out := out ++ [.fatal failure], status := .exited failure }
  | .ok input =>
    let time_end := env.clock (st.clocks + 1)
    let time_diff := clock_t_wrap env.clock_t_bits (time_end - time_start)
    let time_diff := normalise env.clock_t_bits env.CLOCKS_PER_SEC time_diff
    .ok { input := input, rands := st.rands + 1, clocks := st.clocks + 2,
          out := out ++ [.clock time_end],
          results := Function.update st.results i
            (record env.clock_t_bits (st.results i) time_diff) }

/-- The loop `for(j = ...; j < benchmark->iterations; ++j)` with `count` trials
left, the next one being trial `j`. -/
def run_trials {σ ε : Type} (env : Env σ) (benchmark : benchmark_data_t σ ε) (i : Nat) :
    Nat → Nat → HState σ ε → Except (Run ε) (HState σ ε)
  | 0, _, st => .ok st
  | count + 1, j, st => do
    let st1 ← trial env benchmark i j st
    run_trials env benchmark i count (j + 1) st1

/-- The start of the body of the first loop over `i`: reset `results[i]` and print
the name of the entry. -/
def start_entry {σ ε : Type} (benchmark : benchmark_data_t σ ε) (i : Nat)
    (st : HState σ ε) : HState σ ε :=
  { st with results := Function.update st.results i reset,
            out := st.out ++ [.running_benchmark benchmark.name] }

/-- The body of the first loop over `i`: reset `results[i]`, then all its trials. -/
def run_entry {σ ε : Type} (env : Env σ) (benchmark : benchmark_data_t σ ε) (i : Nat)
    (st : HState σ ε) : Except (Run ε) (HState σ ε) :=
  run_trials env benchmark i benchmark.iterations 0 (start_entry benchmark i st)

/-- The first loop over `i`, over the entries that are left, the next one being
entry `i`. -/
def run_entries {σ ε : Type} (env : Env σ) :
    List (benchmark_data_t σ ε) → Nat → HState σ ε → Except (Run ε) (HState σ ε)
  | [], _, st => .ok st
  | benchmark :: rest, i, st => do
    let st1 ← run_entry env benchmark i st
    run_entries env rest (i + 1) st1

/-- The second loop over `i`: the lines printed for the entries that are left. -/
def report {σ ε : Type} (results : Nat → benchmark_result_t) :
    List (benchmark_data_t σ ε) → Nat → List (Event ε)
  | [], _ => []
  | benchmark :: rest, i =>
    .result benchmark.name benchmark.iterations (results i) :: report results rest (i + 1)

/-- The function `main` over a registry `table`; the static array `results` starts
zeroed. -/
def main {σ ε : Type} (env : Env σ) (table : List (benchmark_data_t σ ε)) : Run ε :=
  match env.fopen with
  | none => { out := [.open_failed], status := .returned 1 }
  | some input =>
    let st : HState σ ε :=
      { input := input, rands := 0, clocks := 0, out := [.running table.length],
        results := fun _ => ⟨0, 0, 0⟩ }
    match run_entries env table 0 st with
    | .error r => r
    | .ok st1 =>
      { out := st1.out ++ [.fclose, .results_header] ++ report st1.results table 0,
        status := .returned 0 }

/-! ## Vocabulary of the statements -/

/-- A permutation of the indices that moves nothing outside `[a, b]`. -/
def FixesOutside (σ : Equiv.Perm Int) (a b : Int) : Prop :=
  ∀ j, (j < a ∨ b < j) → σ j = j

/-- Every index of `[a, b]` is a cell of the array. -/
def ValidOn {α : Type} (m : Mem α) (a b : Int) : Prop :=
  ∀ k, a ≤ k → k ≤ b → (m k).isSome = true

/-- No element of `[a, b]` is greater than a later one. -/
def SortedOn {α : Type} (gt : α → α → Bool) (m : Mem α) (a b : Int) : Prop :=
  ∀ i j x y, a ≤ i → i < j → j ≤ b → m i = some x → m j = some y → gt x y = false

/-- The comparison `>` of a total order, up to elements that compare equal: it is
asymmetric and its complement `<=` is transitive. -/
def StrictWeak {α : Type} (gt : α → α → Bool) : Prop :=
  (∀ a b, gt a b = true → gt b a = false) ∧
  (∀ a b c, gt a b = false → gt b c = false → gt a c = false)

/-- What the sort needs of the comparison `>`: it is asymmetric, and an element that
a pivot is greater than is not greater than an element that the pivot is not greater
than. A total order has it, and so has a comparison that is false whenever one of the
two values is a NaN. -/
def Sortable {α : Type} (gt : α → α → Bool) : Prop :=
  (∀ a b, gt a b = true → gt b a = false) ∧
  (∀ p x y, gt p x = true → gt p y = false → gt x y = false)

/-- C `a > b` on values some of which are NaN: `none` is a NaN, and the comparison is
false as soon as one of the two values is a NaN. -/
def gt_nan {β : Type} [LinearOrder β] (a b : Option β) : Bool :=
  match a, b with
  | some x, some y => decide (x > y)
  | _, _ => false

/-- The pair of cells `i - 1`, `i` of `m` is out of order: `m[i-1] > m[i]`. -/
def OutOfOrder {α : Type} (gt : α → α → Bool) (m : Mem α) (i : Nat) : Prop :=
  ∃ x y, m ((i : Int) - 1) = some x ∧ m (i : Int) = some y ∧ gt x y = true

/-- The elapsed value recorded by trial `t` of a loop over `j` that starts when `c0`
values of `clock()` have been consumed: trial `t` takes the values `c0 + 2t` and
`c0 + 2t + 1`. -/
def elapsed {σ : Type} (env : Env σ) (c0 t : Nat) : Int :=
  normalise env.clock_t_bits env.CLOCKS_PER_SEC
    (clock_t_wrap env.clock_t_bits (env.clock (c0 + 2 * t + 1) - env.clock (c0 + 2 * t)))

/-- The kernel calls of an output, in order, as pairs (entry, trial). -/
def calls {ε : Type} : List (Event ε) → List (Nat × Nat)
  | [] => []
  | .call i j :: rest => (i, j) :: calls rest
  | _ :: rest => calls rest

/-- The trials a registry asks for, in order, the first entry having index `i`. -/
def trial_ids {σ ε : Type} : List (benchmark_data_t σ ε) → Nat → List (Nat × Nat)
  | [], _ => []
  | benchmark :: rest, i =>
    (List.range benchmark.iterations).map (fun j => (i, j)) ++ trial_ids rest (i + 1)

/-- No kernel failure in an output. -/
def NoFatal {ε : Type} (evs : List (Event ε)) : Prop :=
  ∀ f, Event.fatal f ∉ evs

/-- No line of the result report in an output. -/
def NoResult {ε : Type} (evs : List (Event ε)) : Prop :=
  ∀ name iterations r, Event.result name iterations r ∉ evs

/-- Encrypt then decrypt one block `src` under the context `ctx`, whatever the two
statuses are: the status of the encryption, the status of the decryption, the block
after the decryption, the context after the decryption. -/
def round_trip {Ctx Key Blk : Type} (c : Cipher Ctx Key Blk) (ctx : Ctx) (src : Blk) :
    Nat × Nat × Blk × Ctx :=
  let e := c.aes256_encrypt_ecb ctx src
  let d := c.aes256_decrypt_ecb e.2.1 e.2.2
  (e.1, d.1, d.2.2, d.2.1)

/-- The context in which block `i` is processed: `ctx` for block 0, then the context
left by the round trip of the block before. -/
def ctx_at {Ctx Key Blk : Type} (c : Cipher Ctx Key Blk) (data : Nat → Blk) (ctx : Ctx) :
    Nat → Ctx
  | 0 => ctx
  | i + 1 => (round_trip c (ctx_at c data ctx i) (data i)).2.2.2

/-- The first step of block `i` that fails, in the order encrypt, decrypt, compare;
`none` when the three steps pass. -/
def block_failure {Ctx Key Blk : Type} [DecidableEq Blk] (c : Cipher Ctx Key Blk)
    (data : Nat → Blk) (ctx : Ctx) (i : Nat) : Option AesFailure :=
  let r := round_trip c (ctx_at c data ctx i) (data i)
  if r.1 ≠ c.AES_SUCCESS then some .encryption_failed
  else if r.2.1 ≠ c.AES_SUCCESS then some .decryption_failed
  else if r.2.2.1 ≠ data i then some (.failed_at_block i)
  else none

/-- A cipher on numbers that adds the key to encrypt and subtracts it to decrypt. -/
def shift_cipher : Cipher Nat Nat Nat where
  AES_SUCCESS := 0
  aes256_init := fun _ key => (0, key)
  aes256_encrypt_ecb := fun ctx b => (0, ctx, b + ctx)
  aes256_decrypt_ecb := fun ctx b => (0, ctx, b - ctx)

/-- The same cipher with a decryption that is wrong on one value. -/
def broken_cipher : Cipher Nat Nat Nat where
  AES_SUCCESS := 0
  aes256_init := fun _ key => (0, key)
  aes256_encrypt_ecb := fun ctx b => (0, ctx, b + ctx)
  aes256_decrypt_ecb := fun ctx b => (0, ctx, if b = 13 then 13 else b - ctx)

/-- The globals of aes.c before a trial, over numbers. -/
def aes_start : AesState Nat Nat :=
  { aes_ctx := 0, plaintext := fun _ => 0, ciphertext := fun _ => 0, ops := [] }

/-- The state a trial ends in, whether it completes or not. -/
def aes_state {Ctx Blk : Type} :
    Except (AesFailure × AesState Ctx Blk) (AesState Ctx Blk) → AesState Ctx Blk
  | .ok s => s
  | .error e => e.2

/-- What a part of a run did: the output `evs` it added holds no failure and no
result line, and the calls in it are `ids`. -/
def Quiet {ε : Type} (evs : List (Event ε)) (ids : List (Nat × Nat)) : Prop :=
  NoFatal evs ∧ NoResult evs ∧ calls evs = ids

/-- A part of a run stopped by the kernel of trial `(e, t)`: the output that was added
is quiet up to the call, which is followed by the events of the kernel and its failure. -/
def Stopped {ε : Type} (r : Run ε) (out0 : List (Event ε)) (ids : List (Nat × Nat)) : Prop :=
  ∃ (evs : List (Event ε)) (e t : Nat) (kevs : List KernelEvent) (f : ε)
      (rest : List (Nat × Nat)),
    r.out = out0 ++ evs ++ Event.call e t :: (kevs.map Event.kernel ++ [Event.fatal f]) ∧
    r.status = .exited f ∧ NoFatal evs ∧ NoResult evs ∧ ids = calls evs ++ (e, t) :: rest

/-! ## Example inputs -/

/-- A platform whose clock ticks 1000 times a second and reads `k * k` at the `k`-th
call, with a stream that counts the kernel calls made on it and a `clock_t` of 64 bits. -/
def demo_env : Env Nat :=
  { fopen := some 0, rand := fun k => 1000 * k + 7, clock := fun k => (k : Int) * k,
    CLOCKS_PER_SEC := 1000, fseek := fun s _ => s, clock_t_bits := 64 }

/-- The same platform without the input file. -/
def closed_env : Env Nat :=
  { demo_env with fopen := none }

/-- A platform whose clock ticks once a second and advances by 5000000000000 ticks
during every kernel call. -/
def slow_env : Env Nat :=
  { demo_env with clock := fun k => (((k + 1) / 2 : Nat) : Int) * 5000000000000,
                  CLOCKS_PER_SEC := 1 }

/-- A platform whose clock ticks 2000000 times a second and advances by 5 ticks during
every kernel call. -/
def fine_env : Env Nat :=
  { demo_env with clock := fun k => (((k + 1) / 2 : Nat) : Int) * 5,
                  CLOCKS_PER_SEC := 2000000 }

/-- A kernel that reads and never fails. -/
def steady : benchmark_t Nat Unit :=
  fun s => ([.fread 8], .ok (s + 1))

/-- A kernel that fails its self-check on the third call made on the stream. -/
def flaky : benchmark_t Nat Unit :=
  fun s => ([.fread 8], if s = 2 then .error () else .ok (s + 1))

/-- A registry of two entries whose kernels never fail. -/
def steady_table : List (benchmark_data_t Nat Unit) :=
  [⟨steady, "first", 2⟩, ⟨steady, "second", 1⟩]

/-- A registry of three entries, the second of which fails in its first trial. -/
def flaky_table : List (benchmark_data_t Nat Unit) :=
  [⟨steady, "first", 2⟩, ⟨flaky, "second", 2⟩, ⟨steady, "third", 1⟩]

/-- The variables of `main` when the first loop starts, for the example platform. -/
def demo_start : HState Nat Unit :=
  { input := 0, rands := 0, clocks := 0, out := [], results := fun _ => ⟨0, 0, 0⟩ }

/-- The state a loop ends in, `demo_start` when a kernel stopped the run. -/
def end_state : Except (Run Unit) (HState Nat Unit) → HState Nat Unit
  | .ok st => st
  | .error _ => demo_start

/-- The seeks and the kernel calls of an output, in order: `some offset` for a seek,
`none` for a call. -/
def seeks_calls {ε : Type} : List (Event ε) → List (Option Nat)
  | [] => []
  | .fseek offset :: rest => some offset :: seeks_calls rest
  | .call _ _ :: rest => none :: seeks_calls rest
  | _ :: rest => seeks_calls rest

/-- One seek followed by one call, `n` times over, the seeks going to
`rand() % 134217728` for the values of `rand()` from the `k`-th on. -/
def seek_schedule {σ : Type} (env : Env σ) : Nat → Nat → List (Option Nat)
  | _, 0 => []
  | k, n + 1 => some (env.rand k % 134217728) :: none :: seek_schedule env (k + 1) n

/-- A kernel that returns on every state of the stream. -/
def NeverFails {σ ε : Type} (k : benchmark_t σ ε) : Prop :=
  ∀ s, ∃ s1, (k s).2 = .ok s1

/-- The kernel `benchmark_qsort` as a row of the registry. `fread` gives what the call
`fread(qsort_list, QSORT_ITEMS, sizeof(float64_t), input)` leaves in the array and the
stream after it; the call is the first statement of the kernel. -/
def qsort_kernel {σ α : Type} (gt : α → α → Bool) (fread : σ → List α × σ) :
    benchmark_t σ (QsortStop α) :=
  fun s =>
    let r := fread s
    ([.fread 8],
      match benchmark_qsort gt r.1 with
      | .ok _ => .ok r.2
      | .error e => .error e)

/-- The output at the end of a trial, whether the kernel returned or not. -/
def trial_out {σ ε : Type} : Except (Run ε) (HState σ ε) → List (Event ε)
  | .ok st => st.out
  | .error r => r.out

/-- A stream of three items for the quicksort kernel. -/
def three_items (s : Nat) : List Int × Nat := ([3, 1, 2], s + 1)

/-- The variables of `main` before a trial, for a kernel that can fail in `ε`. -/
def blank_start (ε : Type) : HState Nat ε :=
  { input := 0, rands := 0, clocks := 0, out := [], results := fun _ => ⟨0, 0, 0⟩ }

/-- The input stream together with the globals of aes.c. -/
structure AesWorld (S Ctx Blk : Type) where
  stream : S
  aes : AesState Ctx Blk

/-- The reads of the input among the calls of a trial of `benchmark_aes`. -/
def aes_reads : List AesOp → List KernelEvent
  | [] => []
  | .fread :: rest => .fread 1 :: aes_reads rest
  | _ :: rest => aes_reads rest

/-- The kernel `benchmark_aes` as a row of the registry. `fread` gives what the call
`fread(plaintext, AES_BYTES, 1, input)` leaves in `plaintext` and the stream after it;
`fail` is the way the failure is reported to the run. -/
def aes_kernel {S Ctx Key Blk ε : Type} [DecidableEq Blk] (c : Cipher Ctx Key Blk)
    (aes_key : Key) (blocks : Nat) (fread : S → (Nat → Blk) × S) (fail : AesFailure → ε) :
    benchmark_t (AesWorld S Ctx Blk) ε :=
  fun w =>
    let r := fread w.stream
    match benchmark_aes c aes_key blocks r.1 w.aes with
    | .ok a => (aes_reads (a.ops.drop w.aes.ops.length), .ok { stream := r.2, aes := a })
    | .error e => (aes_reads (e.2.ops.drop w.aes.ops.length), .error (fail e.1))

/-- The number of calls of `aes256_init` made so far. -/
def init_count {S Ctx Blk : Type} (w : AesWorld S Ctx Blk) : Nat :=
  w.aes.ops.count .init

/-- A cipher whose initialisation fails. -/
def dead_cipher : Cipher Nat Nat Nat where
  AES_SUCCESS := 0
  aes256_init := fun ctx _ => (1, ctx)
  aes256_encrypt_ecb := fun ctx b => (0, ctx, b + ctx)
  aes256_decrypt_ecb := fun ctx b => (0, ctx, b - ctx)

/-- A kernel that reads and leaves the globals of aes.c alone. -/
def idle : benchmark_t (AesWorld Nat Nat Nat) AesFailure :=
  fun w => ([.fread 8], .ok w)

/-- A stream whose blocks are the numbers from the position on. -/
def counting (s : Nat) : (Nat → Nat) × Nat := (fun i => s + i, s + 2)

/-- A platform for the registry with the AES kernel: the stream starts at 0 with the
globals of aes.c untouched. -/
def aes_env : Env (AesWorld Nat Nat Nat) :=
  { fopen := some ⟨0, aes_start⟩, rand := fun k => k, clock := fun k => (k : Int),
    CLOCKS_PER_SEC := 1000000, fseek := fun w offset => { w with stream := offset },
    clock_t_bits := 64 }

/-- The variables of `main` when the first loop starts on `aes_env`. -/
def aes_run_start : HState (AesWorld Nat Nat Nat) AesFailure :=
  { input := ⟨0, aes_start⟩, rands := 0, clocks := 0, out := [.running 4],
    results := fun _ => ⟨0, 0, 0⟩ }

/-- The array `m` cut down to the cells `a .. b`: every other index is outside it. -/
def window {α : Type} (m : Mem α) (a b : Int) : Mem α :=
  fun k => if a ≤ k ∧ k ≤ b then m k else none

/-- Every cell of `m` is a cell of `m1`, with the same content. -/
def Extends {α : Type} (m m1 : Mem α) : Prop :=
  ∀ k x, m k = some x → m1 k = some x

/-- A step took `m` to `r` and the larger array `m1` to `r1`: `r1` still extends `r`,
the cells of `m1` that are no cells of `m` are as they were, and `r` has the cells of
`m`. -/
def Framed {α : Type} (m m1 r r1 : Mem α) : Prop :=
  Extends r r1 ∧ (∀ k, m k = none → r1 k = m1 k) ∧ (∀ k, r k = none ↔ m k = none)

/-! ## qsort.c: the sort -/

theorem swap_eq {α : Type} (m : Mem α) (a b : Int) (ha : (m a).isSome) (hb : (m b).isSome) :
    swap m a b = .ok (fun j => m (Equiv.swap a b j)) := by
  obtain ⟨x, hx⟩ := Option.isSome_iff_exists.1 ha
  obtain ⟨y, hy⟩ := Option.isSome_iff_exists.1 hb
  have : (if a = a then some y else m a) = some y := by simp
  simp only [swap, rd, wr, hx, hy, bind, Except.bind]
  by_cases hab : b = a
  · subst hab
    simp only [if_true]
    congr 1
    funext j
    by_cases hj : j = b
    · subst hj; simp; rw [hx] at hy; exact hy.symm ▸ hx.symm
    · simp [hj]
  · simp only [hab, if_false, hy]
    congr 1
    funext j
    by_cases hj : j = b
    · subst hj; simp [hx]
    · by_cases hj2 : j = a
      · subst hj2; simp [hj, hy]
      · simp [hj, hj2, Equiv.swap_apply_of_ne_of_ne hj2 hj]

theorem FixesOutside.one (a b : Int) : FixesOutside 1 a b := fun _ _ => rfl

theorem FixesOutside.mul {σ τ : Equiv.Perm Int} {a b : Int} (h1 : FixesOutside σ a b)
    (h2 : FixesOutside τ a b) : FixesOutside (σ * τ) a b := by
  intro j hj
  rw [Equiv.Perm.mul_apply, h2 j hj, h1 j hj]

theorem FixesOutside.mono {σ : Equiv.Perm Int} {a b c d : Int} (h : FixesOutside σ a b)
    (hc : c ≤ a) (hd : b ≤ d) : FixesOutside σ c d := by
  intro j hj
  apply h
  omega

theorem FixesOutside.swap {a b x y : Int} (hx1 : a ≤ x) (hx2 : x ≤ b) (hy1 : a ≤ y)
    (hy2 : y ≤ b) : FixesOutside (Equiv.swap x y) a b := by
  intro j hj
  apply Equiv.swap_apply_of_ne_of_ne <;> omega

theorem FixesOutside.mem {σ : Equiv.Perm Int} {a b : Int} (h : FixesOutside σ a b) (k : Int)
    (hk1 : a ≤ k) (hk2 : k ≤ b) : a ≤ σ k ∧ σ k ≤ b := by
  by_contra hc
  have hout : σ k < a ∨ b < σ k := by omega
  have h1 : σ (σ k) = σ k := h _ hout
  have h2 : σ k = k := σ.injective h1
  omega

theorem ValidOn.perm {α : Type} {m : Mem α} {a b : Int} (hv : ValidOn m a b)
    {σ : Equiv.Perm Int} {c d : Int} (h : FixesOutside σ c d) (hc : a ≤ c) (hd : d ≤ b) :
    ValidOn (fun j => m (σ j)) a b := by
  intro k hk1 hk2
  by_cases hin : c ≤ k ∧ k ≤ d
  · have := h.mem k hin.1 hin.2
    exact hv _ (by omega) (by omega)
  · show (m (σ k)).isSome = true
    rw [h k (by omega)]
    exact hv k hk1 hk2

theorem scan_spec {α : Type} (gt : α → α → Bool) (left right : Int) (p : α) (fuel : Nat) :
    ∀ (i last : Int) (m : Mem α), ValidOn m left right → m left = some p →
      left < i → i ≤ right + 1 → left ≤ last → last < i →
      (right + 1 - i).toNat ≤ fuel →
      (∀ k x, left < k → k ≤ last → m k = some x → gt p x = true) →
      (∀ k x, last < k → k < i → m k = some x → gt p x = false) →
      ∃ (last1 : Int) (σ : Equiv.Perm Int),
        scan gt left right fuel i last m = .ok (last1, fun j => m (σ j)) ∧
        FixesOutside σ (left + 1) right ∧ last ≤ last1 ∧ last1 ≤ right ∧
        (∀ k x, left < k → k ≤ last1 → m (σ k) = some x → gt p x = true) ∧
        (∀ k x, last1 < k → k ≤ right → m (σ k) = some x → gt p x = false) := by
  induction fuel with
  | zero =>
    intro i last m hv hp hi1 hi2 hl1 hl2 hfuel hlo hhi
    have hir : ¬ i ≤ right := by omega
    refine ⟨last, 1, ?_, FixesOutside.one _ _, le_refl _, by omega, ?_, ?_⟩
    · rw [scan]; simp [hir]
    · intro k x h1 h2 h3; exact hlo k x h1 h2 h3
    · intro k x h1 h2 h3; exact hhi k x h1 (by omega) h3
  | succ n ih =>
    intro i last m hv hp hi1 hi2 hl1 hl2 hfuel hlo hhi
    by_cases hir : i ≤ right
    · obtain ⟨x, hx⟩ := Option.isSome_iff_exists.1 (hv i (by omega) hir)
      rw [scan]
      simp only [hir, if_true, rd, hp, hx, bind, Except.bind]
      cases hg : gt p x
      · simp only [Bool.false_eq_true, if_false]
        obtain ⟨last1, σ, h1, h2, h3, h4, h5, h6⟩ :=
          ih (i + 1) last m hv hp (by omega) (by omega) hl1 (by omega) (by omega) hlo
            (by
              intro k y hk1 hk2 hk3
              by_cases hki : k = i
              · subst hki; rw [hx] at hk3; cases hk3; exact hg
              · exact hhi k y hk1 (by omega) hk3)
        exact ⟨last1, σ, h1, h2, h3, h4, h5, h6⟩
      · simp only [if_true]
        rw [swap_eq m i (last + 1) (hv i (by omega) hir) (hv (last + 1) (by omega) (by omega))]
        simp only
        have hfix : FixesOutside (Equiv.swap i (last + 1)) (left + 1) right :=
          FixesOutside.swap (by omega) hir (by omega) (by omega)
        obtain ⟨last1, σ, h1, h2, h3, h4, h5, h6⟩ :=
          ih (i + 1) (last + 1) (fun j => m (Equiv.swap i (last + 1) j))
            (hv.perm hfix (by omega) (le_refl _))
            (by simp only; rw [hfix left (by omega)]; exact hp)
            (by omega) (by omega) (by omega) (by omega) (by omega)
            (by
              intro k y hk1 hk2 hk3
              simp only at hk3
              by_cases hkl : k = last + 1
              · subst hkl
                rw [Equiv.swap_apply_right, hx] at hk3; cases hk3; exact hg
              · rw [Equiv.swap_apply_of_ne_of_ne (by omega) hkl] at hk3
                exact hlo k y hk1 (by omega) hk3)
            (by
              intro k y hk1 hk2 hk3
              simp only at hk3
              by_cases hki : k = i
              · subst hki
                rw [Equiv.swap_apply_left] at hk3
                exact hhi _ y (by omega) (by omega) hk3
              · rw [Equiv.swap_apply_of_ne_of_ne hki (by omega)] at hk3
                exact hhi k y (by omega) (by omega) hk3)
        refine ⟨last1, Equiv.swap i (last + 1) * σ, ?_, hfix.mul h2, by omega, h4, ?_, ?_⟩
        · rw [h1]; rfl
        · intro k y hk1 hk2 hk3; exact h5 k y hk1 hk2 hk3
        · intro k y hk1 hk2 hk3; exact h6 k y hk1 hk2 hk3
    · refine ⟨last, 1, ?_, FixesOutside.one _ _, le_refl _, by omega, ?_, ?_⟩
      · rw [scan]; simp [hir]
      · intro k x h1 h2 h3; exact hlo k x h1 h2 h3
      · intro k x h1 h2 h3; exact hhi k x h1 (by omega) h3

theorem tdiv_two_mem {left right : Int} (h : left < right) :
    left ≤ Int.tdiv (left + right) 2 ∧ Int.tdiv (left + right) 2 ≤ right := by
  rcases le_or_lt 0 (left + right) with hs | hs
  · rw [Int.tdiv_eq_ediv hs (by decide)]
    omega
  · have h2 : Int.tdiv (left + right) 2 = -((-(left + right)) / 2) := by
      rw [← Int.tdiv_eq_ediv (by omega) (by decide), Int.neg_tdiv, neg_neg]
    rw [h2]
    omega

theorem qsort_fuel_spec {α : Type} (gt : α → α → Bool) (fuel : Nat) :
    ∀ (m : Mem α) (left right : Int), ValidOn m left right → (right - left).toNat ≤ fuel →
      ∃ σ : Equiv.Perm Int,
        qsort_impl_fuel gt fuel m left right = .ok (fun j => m (σ j)) ∧
        FixesOutside σ left right ∧
        (Sortable gt → SortedOn gt (fun j => m (σ j)) left right) := by
  induction fuel with
  | zero =>
    intro m left right _ hfuel
    have hlr : left ≥ right := by omega
    refine ⟨1, ?_, FixesOutside.one _ _, ?_⟩
    · rw [qsort_impl_fuel]; simp [hlr]
    · intro _ i j x y h1 h2 h3; omega
  | succ n ih =>
    intro m left right hv hfuel
    by_cases hlr : left ≥ right
    · refine ⟨1, ?_, FixesOutside.one _ _, ?_⟩
      · rw [qsort_impl_fuel]; simp [hlr]
      · intro _ i j x y h1 h2 h3; omega
    · have hlt : left < right := by omega
      obtain ⟨hmid1, hmid2⟩ := tdiv_two_mem hlt
      have hf1 : FixesOutside (Equiv.swap left (Int.tdiv (left + right) 2)) left right :=
        FixesOutside.swap (le_refl _) (by omega) hmid1 hmid2
      have hv1 := hv.perm hf1 (le_refl _) (le_refl _)
      obtain ⟨p, hp⟩ := Option.isSome_iff_exists.1 (hv1 left (le_refl _) (by omega))
      obtain ⟨last, σ2, hs, hf2, hl1, hl2, hlo, hhi⟩ :=
        scan_spec gt left right p (right - left).toNat (left + 1) left _ hv1 hp
          (by omega) (by omega) (le_refl _) (by omega) (by omega)
          (by intro k x h1 h2; omega) (by intro k x h1 h2; omega)
      have hv2 := hv1.perm hf2 (by omega) (le_refl _)
      have hf3 : FixesOutside (Equiv.swap left last) left right :=
        FixesOutside.swap (le_refl _) (by omega) hl1 hl2
      have hv3 := hv2.perm hf3 (le_refl _) (le_refl _)
      obtain ⟨σ4, hq4, hf4, hs4⟩ := ih _ left (last - 1)
        (fun k h1 h2 => hv3 k h1 (by omega)) (by omega)
      have hv4 := hv3.perm hf4 (le_refl _) (by omega)
      obtain ⟨σ5, hq5, hf5, hs5⟩ := ih _ (last + 1) right
        (fun k h1 h2 => hv4 k (by omega) h2) (by omega)
      refine ⟨Equiv.swap left (Int.tdiv (left + right) 2) * σ2 * Equiv.swap left last * σ4 * σ5,
        ?_, ?_, ?_⟩
      · rw [qsort_impl_fuel]
        simp only [hlr, if_false, bind, Except.bind]
        rw [swap_eq m _ _ (hv left (le_refl _) (by omega)) (hv _ hmid1 hmid2)]
        simp only [hs]
        rw [swap_eq _ left last (hv2 left (le_refl _) (by omega)) (hv2 last hl1 hl2)]
        simp only [hq4, hq5]
        rfl
      · exact ((((hf1.mul (hf2.mono (by omega) (le_refl _))).mul hf3).mul
          (hf4.mono (le_refl _) (by omega))).mul (hf5.mono (by omega) (le_refl _)))
      · intro hsw
        obtain ⟨hasym, hcross⟩ := hsw
        -- the array after the partition, and what the two recursive calls keep
        have h3last : ∀ x, m (Equiv.swap left (Int.tdiv (left + right) 2)
            (σ2 (Equiv.swap left last last))) = some x → x = p := by
          intro x hx
          have hp1 : m (Equiv.swap left (Int.tdiv (left + right) 2) left) = some p := hp
          rw [Equiv.swap_apply_right left last, hf2 left (by omega), hp1] at hx
          cases hx; rfl
        have h3lo : ∀ k x, left ≤ k → k < last →
            m (Equiv.swap left (Int.tdiv (left + right) 2)
              (σ2 (Equiv.swap left last k))) = some x → gt p x = true := by
          intro k x hk1 hk2 hx
          by_cases hkl : k = left
          · subst hkl
            rw [Equiv.swap_apply_left k last] at hx
            exact hlo last x (by omega) (le_refl _) hx
          · have e : Equiv.swap left last k = k := Equiv.swap_apply_of_ne_of_ne hkl (by omega)
            rw [e] at hx
            exact hlo k x (by omega) (by omega) hx
        have h3hi : ∀ k x, last < k → k ≤ right →
            m (Equiv.swap left (Int.tdiv (left + right) 2)
              (σ2 (Equiv.swap left last k))) = some x → gt p x = false := by
          intro k x hk1 hk2 hx
          have e : Equiv.swap left last k = k :=
            Equiv.swap_apply_of_ne_of_ne (by omega) (by omega)
          rw [e] at hx
          exact hhi k x hk1 hk2 hx
        have h5lo : ∀ k x, left ≤ k → k < last →
            m (Equiv.swap left (Int.tdiv (left + right) 2)
              (σ2 (Equiv.swap left last (σ4 (σ5 k))))) = some x → gt p x = true := by
          intro k x hk1 hk2 hx
          rw [hf5 k (by omega)] at hx
          have := hf4.mem k hk1 (by omega)
          exact h3lo _ x this.1 (by omega) hx
        have h5last : ∀ x, m (Equiv.swap left (Int.tdiv (left + right) 2)
            (σ2 (Equiv.swap left last (σ4 (σ5 last))))) = some x → x = p := by
          intro x hx
          rw [hf5 last (by omega), hf4 last (by omega)] at hx
          exact h3last x hx
        have h5hi : ∀ k x, last < k → k ≤ right →
            m (Equiv.swap left (Int.tdiv (left + right) 2)
              (σ2 (Equiv.swap left last (σ4 (σ5 k))))) = some x → gt p x = false := by
          intro k x hk1 hk2 hx
          have := hf5.mem k (by omega) hk2
          rw [hf4 (σ5 k) (by omega)] at hx
          exact h3hi _ x (by omega) this.2 hx
        intro i j x y hi hij hj hx hy
        simp only [Equiv.Perm.mul_apply] at hx hy
        rcases lt_trichotomy j last with hjl | hjl | hjl
        · -- both in the left part
          rw [hf5 i (by omega)] at hx
          rw [hf5 j (by omega)] at hy
          exact hs4 ⟨hasym, hcross⟩ i j x y hi hij (by omega) hx hy
        · subst hjl
          have hy2 := h5last y hy
          subst hy2
          exact hasym _ _ (h5lo i x hi hij hx)
        · rcases lt_trichotomy i last with hil | hil | hil
          · exact hcross p x y (h5lo i x hi hil hx) (h5hi j y hjl hj hy)
          · subst hil
            have hx2 := h5last x hx
            subst hx2
            exact h5hi j y hjl hj hy
          · exact hs5 ⟨hasym, hcross⟩ i j x y (by omega) hij hj hx hy

theorem StrictWeak.sortable {α : Type} {gt : α → α → Bool} (h : StrictWeak gt) :
    Sortable gt :=
  ⟨h.1, fun p x y hpx hpy => h.2 x p y (h.1 p x hpx) hpy⟩

theorem strictWeak_linearOrder {α : Type} [LinearOrder α] :
    StrictWeak (fun a b : α => decide (a > b)) := by
  constructor
  · intro a b h
    simp only [gt_iff_lt, decide_eq_true_eq, decide_eq_false_iff_not, not_lt] at h ⊢
    exact le_of_lt h
  · intro a b c h1 h2
    simp only [gt_iff_lt, decide_eq_false_iff_not, not_lt] at h1 h2 ⊢
    exact le_trans h1 h2

theorem ofList_cell {α : Type} (l : List α) (k : Nat) : Mem.ofList l (k : Int) = l[k]? := by
  simp [Mem.ofList]

theorem validOn_ofList {α : Type} (l : List α) :
    ValidOn (Mem.ofList l) 0 ((l.length : Int) - 1) := by
  intro k hk1 hk2
  obtain ⟨n, rfl⟩ := Int.eq_ofNat_of_zero_le hk1
  rw [ofList_cell]
  have : n < l.length := by omega
  simp [this]

theorem qsort_impl_spec {α : Type} (gt : α → α → Bool) (m : Mem α) (left right : Int)
    (hv : ValidOn m left right) :
    ∃ σ : Equiv.Perm Int,
      qsort_impl gt m left right = .ok (fun j => m (σ j)) ∧
      FixesOutside σ left right ∧
      (Sortable gt → SortedOn gt (fun j => m (σ j)) left right) :=
  qsort_fuel_spec gt _ m left right hv (le_refl _)

/-- C1: over a total order, `qsort_impl(0, n-1)` on an array of length `n` returns, and
in the array it leaves every element is at least its predecessor; the array
`[3, 1, 2]` becomes `[1, 2, 3]`. -/
theorem qsort_impl_sorted :
    (∀ (α : Type) [LinearOrder α] (l : List α),
      ∃ m : Mem α,
        qsort_impl (fun a b => decide (a > b)) (Mem.ofList l) 0 ((l.length : Int) - 1) = .ok m ∧
        ∀ i : Nat, 1 ≤ i → i < l.length →
          ∃ x y, m ((i : Int) - 1) = some x ∧ m (i : Int) = some y ∧ x ≤ y) ∧
    (qsort_impl (fun a b : ℚ => decide (a > b)) (Mem.ofList [3, 1, 2]) 0 2).map
      (fun m => m.dump 3) = .ok [some 1, some 2, some 3] := by
  refine ⟨?_, by decide⟩
  intro α _ l
  obtain ⟨σ, h1, h2, h3⟩ :=
    qsort_impl_spec (fun a b : α => decide (a > b)) (Mem.ofList l) 0 ((l.length : Int) - 1)
      (validOn_ofList l)
  refine ⟨_, h1, ?_⟩
  intro i hi1 hi2
  have hv := (validOn_ofList l).perm h2 (le_refl _) (le_refl _)
  obtain ⟨x, hx⟩ := Option.isSome_iff_exists.1 (hv ((i : Int) - 1) (by omega) (by omega))
  obtain ⟨y, hy⟩ := Option.isSome_iff_exists.1 (hv (i : Int) (by omega) (by omega))
  refine ⟨x, y, hx, hy, ?_⟩
  have := h3 strictWeak_linearOrder.sortable ((i : Int) - 1) i x y (by omega) (by omega) (by omega) hx hy
  simpa using this

theorem qsort_impl_sorted_witness :
    ∃ m : Mem ℚ,
      qsort_impl (fun a b => decide (a > b)) (Mem.ofList [3, 1, 2]) 0 2 = .ok m ∧
      ∃ x y, m 1 = some x ∧ m 2 = some y ∧ x ≤ y := by
  obtain ⟨m, h1, h2⟩ := qsort_impl_sorted.1 ℚ [3, 1, 2]
  exact ⟨m, h1, h2 2 (by decide) (by decide)⟩

/-! ## qsort.c: the self-check -/

theorem check_loop_spec {α : Type} (gt : α → α → Bool) (n : Nat) (m : Mem α)
    (hv : ∀ k : Nat, k < n → (m (k : Int)).isSome = true) (fuel : Nat) :
    ∀ (i : Nat) (prev : Option α), n - i ≤ fuel → (i ≠ 0 → prev = m ((i : Int) - 1)) →
      (check_loop gt n m fuel i prev = .ok () ∧
        ∀ k, i ≤ k → k < n → k ≠ 0 → ¬ OutOfOrder gt m k) ∨
      (∃ k x y, check_loop gt n m fuel i prev = .error (.failed k x y) ∧
        i ≤ k ∧ k < n ∧ k ≠ 0 ∧ m ((k : Int) - 1) = some x ∧ m (k : Int) = some y ∧
        gt x y = true ∧ ∀ j, i ≤ j → j < k → j ≠ 0 → ¬ OutOfOrder gt m j) := by
  induction fuel with
  | zero =>
    intro i prev hf _
    left
    have : ¬ i < n := by omega
    refine ⟨?_, fun k h1 h2 => by omega⟩
    rw [check_loop]; simp [this]
  | succ f ih =>
    intro i prev hf hprev
    by_cases hin : i < n
    · obtain ⟨cur, hcur⟩ := Option.isSome_iff_exists.1 (hv i hin)
      have hnext : i + 1 ≠ 0 → some cur = m (((i + 1 : Nat) : Int) - 1) := by
        intro _; rw [← hcur]; congr 1; omega
      have hrun : ∀ q, check_loop gt n m (f + 1) i q =
          (if i ≠ 0 then
            (match q with
              | some p => if gt p cur = true then .error (.failed i p cur)
                          else check_loop gt n m f (i + 1) (some cur)
              | none => .error (.fault .uninitialised))
          else check_loop gt n m f (i + 1) (some cur)) := by
        intro q
        rw [check_loop]
        simp only [hin, if_true, rd, hcur, liftFault, bind, Except.bind]
        by_cases hi0 : i = 0
        · simp [hi0, pure, Except.pure]
        · cases q with
          | none => simp [hi0, rdPrev]
          | some p =>
            cases hg : gt p cur <;> simp [hi0, rdPrev, hg, throw, throwThe, MonadExceptOf.throw, pure, Except.pure]
      rw [hrun]
      by_cases hi0 : i = 0
      · simp only [hi0, ne_eq, not_true_eq_false, if_false]
        rcases ih (i + 1) (some cur) (by omega) hnext with ⟨h1, h2⟩ | ⟨k, x, y, h1, h2, h3⟩
        · left
          subst hi0
          exact ⟨h1, fun k hk1 hk2 hk3 => h2 k (by omega) hk2 hk3⟩
        · right
          subst hi0
          exact ⟨k, x, y, h1, by omega, h3.1, h3.2.1, h3.2.2.1, h3.2.2.2.1, h3.2.2.2.2.1,
            fun j hj1 hj2 hj3 => h3.2.2.2.2.2 j (by omega) hj2 hj3⟩
      · obtain ⟨p, hp⟩ : ∃ p, m ((i : Int) - 1) = some p :=
          Option.isSome_iff_exists.1 (by
            have := hv (i - 1) (by omega)
            have e : (((i - 1 : Nat)) : Int) = (i : Int) - 1 := by omega
            rwa [e] at this)
        have hq : prev = some p := by rw [hprev hi0, hp]
        subst hq
        simp only [hi0, ne_eq, not_false_eq_true, if_true]
        cases hg : gt p cur
        · simp only [Bool.false_eq_true, if_false]
          have hok : ¬ OutOfOrder gt m i := by
            rintro ⟨x, y, hx, hy, hxy⟩
            rw [hp] at hx; rw [hcur] at hy; cases hx; cases hy
            rw [hg] at hxy; cases hxy
          rcases ih (i + 1) (some cur) (by omega) hnext with ⟨h1, h2⟩ | ⟨k, x, y, h1, h2, h3⟩
          · left
            refine ⟨h1, fun k hk1 hk2 hk3 => ?_⟩
            by_cases hki : k = i
            · subst hki; exact hok
            · exact h2 k (by omega) hk2 hk3
          · right
            refine ⟨k, x, y, h1, by omega, h3.1, h3.2.1, h3.2.2.1, h3.2.2.2.1, h3.2.2.2.2.1,
              fun j hj1 hj2 hj3 => ?_⟩
            by_cases hji : j = i
            · subst hji; exact hok
            · exact h3.2.2.2.2.2 j (by omega) hj2 hj3
        · right
          simp only [if_true]
          exact ⟨i, p, cur, rfl, le_refl _, hin, hi0, hp, hcur, hg, fun j h1 h2 => by omega⟩
    · left
      refine ⟨?_, fun k h1 h2 => by omega⟩
      rw [check_loop]; simp [hin]

/-- C2: the scan after the sort, on any array `m` of `n` items. It completes exactly
when no index `i` in `[1, n-1]` has `m[i-1] > m[i]`, it stops with the failure message
exactly when there is one, and the message carries the least such index with the two
values `m[i-1]` and `m[i]`. -/
theorem check_sorted_spec {α : Type} (gt : α → α → Bool) (n : Nat) (m : Mem α)
    (hv : ∀ k : Nat, k < n → (m (k : Int)).isSome = true) :
    (check_sorted gt n m = .ok () ↔ ¬ ∃ i, 1 ≤ i ∧ i < n ∧ OutOfOrder gt m i) ∧
    ((∃ i x y, check_sorted gt n m = .error (.failed i x y)) ↔
      ∃ i, 1 ≤ i ∧ i < n ∧ OutOfOrder gt m i) ∧
    (∀ i x y, check_sorted gt n m = .error (.failed i x y) →
      1 ≤ i ∧ i < n ∧ m ((i : Int) - 1) = some x ∧ m (i : Int) = some y ∧ gt x y = true ∧
      ∀ j, 1 ≤ j → j < i → ¬ OutOfOrder gt m j) := by
  have key := check_loop_spec gt n m hv n 0 none (by omega) (fun h => absurd rfl h)
  unfold check_sorted
  rcases key with ⟨h1, h2⟩ | ⟨k, x, y, h1, _, h3, h4, h5, h6, h7, h8⟩
  · have hno : ¬ ∃ i, 1 ≤ i ∧ i < n ∧ OutOfOrder gt m i := by
      rintro ⟨i, hi1, hi2, h⟩
      exact h2 i (by omega) hi2 (by omega) h
    refine ⟨⟨fun _ => hno, fun _ => h1⟩, ⟨?_, fun h => absurd h hno⟩, ?_⟩
    · rintro ⟨i, x, y, h⟩; rw [h1] at h; cases h
    · intro i x y h; rw [h1] at h; cases h
  · have hyes : ∃ i, 1 ≤ i ∧ i < n ∧ OutOfOrder gt m i :=
      ⟨k, by omega, h3, x, y, h5, h6, h7⟩
    refine ⟨⟨fun h => ?_, fun h => absurd hyes h⟩, ⟨fun _ => hyes, fun _ => ⟨k, x, y, h1⟩⟩, ?_⟩
    · rw [h1] at h; cases h
    · intro i a b h
      rw [h1] at h
      cases h
      exact ⟨by omega, h3, h5, h6, h7, fun j hj1 hj2 => h8 j (by omega) hj2 (by omega)⟩

theorem check_sorted_spec_witness :
    (∀ k : Nat, k < 4 → (Mem.ofList [1, 3, 2, (0 : Int)] (k : Int)).isSome = true) ∧
    check_sorted (fun a b : Int => decide (a > b)) 4 (Mem.ofList [1, 3, 2, 0]) =
      .error (.failed 2 3 2) ∧
    (1 ≤ 2 ∧ 2 < 4 ∧ Mem.ofList [1, 3, 2, (0 : Int)] (((2 : Nat) : Int) - 1) = some 3 ∧
      Mem.ofList [1, 3, 2, (0 : Int)] ((2 : Nat) : Int) = some 2 ∧
      decide ((3 : Int) > 2) = true ∧
      ∀ j, 1 ≤ j → j < 2 →
        ¬ OutOfOrder (fun a b : Int => decide (a > b)) (Mem.ofList [1, 3, 2, 0]) j) :=
  have hv : ∀ k : Nat, k < 4 → (Mem.ofList [1, 3, 2, (0 : Int)] (k : Int)).isSome = true := by
    intro k hk
    rw [ofList_cell]
    simp [hk]
  ⟨hv, by decide,
   (check_sorted_spec (fun a b : Int => decide (a > b)) 4 (Mem.ofList [1, 3, 2, 0]) hv).2.2
     2 3 2 (by decide)⟩

/-! ## matrix.c -/

theorem matrix_row_at {R : Type} (N i : Nat) (d : Nat → R) (n : Nat) (C : Nat → R) (p : Nat) :
    (List.range n).foldl (fun C j => Function.update C (j + i * N) (d j)) C p =
      if i * N ≤ p ∧ p < i * N + n then d (p - i * N) else C p := by
  induction n with
  | zero =>
    rw [if_neg (by omega)]
    rfl
  | succ n ih =>
    rw [List.range_succ, List.foldl_append, List.foldl_cons, List.foldl_nil]
    by_cases hp : p = n + i * N
    · subst hp
      rw [Function.update_same, if_pos (by omega)]
      congr 1
      omega
    · rw [Function.update_noteq hp, ih]
      by_cases h : i * N ≤ p ∧ p < i * N + n
      · rw [if_pos h, if_pos (by omega)]
      · rw [if_neg h, if_neg (by omega)]

theorem matrix_rows_at {R : Type} (N : Nat) (d : Nat → Nat → R) (r : Nat) (C : Nat → R)
    (i j : Nat) (hj : j < N) :
    (List.range r).foldl
        (fun C i => (List.range N).foldl (fun C j => Function.update C (j + i * N) (d i j)) C)
        C (j + i * N) =
      if i < r then d i j else C (j + i * N) := by
  induction r with
  | zero => simp
  | succ r ih =>
    rw [List.range_succ, List.foldl_append, List.foldl_cons, List.foldl_nil, matrix_row_at, ih]
    rcases lt_trichotomy i r with h | h | h
    · have h1 : (i + 1) * N ≤ r * N := Nat.mul_le_mul_right N h
      rw [Nat.add_mul, Nat.one_mul] at h1
      rw [if_neg (by omega), if_pos h, if_pos (by omega)]
    · subst h
      rw [if_pos ⟨by omega, by omega⟩, if_pos (by omega)]
      congr 1
      omega
    · have h1 : (r + 1) * N ≤ i * N := Nat.mul_le_mul_right N h
      rw [Nat.add_mul, Nat.one_mul] at h1
      rw [if_neg (by omega), if_neg (by omega), if_neg (by omega)]

theorem benchmark_matrix_entry {R : Type} [Zero R] [Add R] [Mul R] (N M : Nat)
    (A B C : Nat → R) (i j : Nat) (hi : i < N) (hj : j < N) :
    benchmark_matrix N M A B C (j + i * N) = matrix_dot N M A B i j := by
  unfold benchmark_matrix
  rw [matrix_rows_at N (matrix_dot N M A B) N C i j hj, if_pos hi]

theorem foldl_add_eq_sum {R : Type} [Semiring R] (f : Nat → R) (n : Nat) :
    (List.range n).foldl (fun acc k => acc + f k) 0 = ∑ k in Finset.range n, f k := by
  induction n with
  | zero => simp
  | succ n ih =>
    rw [List.range_succ, List.foldl_append, List.foldl_cons, List.foldl_nil, ih,
      Finset.sum_range_succ]

/-- C5: for an `N x M` matrix `A` and an `M x N` matrix `B` stored row-major, the kernel
leaves in `C[j + i*N]`, for all `i, j < N`, the sum of `A[i][k] * B[k][j]` accumulated
from 0 in increasing `k`; over exact arithmetic that is the entry `(i, j)` of the
matrix product. -/
theorem benchmark_matrix_product {R : Type} [Semiring R] (N M : Nat) (A B C : Nat → R)
    (i j : Nat) (hi : i < N) (hj : j < N) :
    benchmark_matrix N M A B C (j + i * N) =
      (List.range M).foldl (fun acc k => acc + A (k + i * M) * B (j + k * N)) 0 ∧
    benchmark_matrix N M A B C (j + i * N) =
      ∑ k in Finset.range M, A (k + i * M) * B (j + k * N) ∧
    benchmark_matrix N M A B C (j + i * N) =
      ((Matrix.of fun (a : Fin N) (k : Fin M) => A (k + a * M)) *
        (Matrix.of fun (k : Fin M) (b : Fin N) => B (b + k * N))) ⟨i, hi⟩ ⟨j, hj⟩ := by
  have h := benchmark_matrix_entry N M A B C i j hi hj
  refine ⟨h, ?_, ?_⟩
  · rw [h]; exact foldl_add_eq_sum _ M
  · rw [h, Matrix.mul_apply]
    simp only [Matrix.of_apply]
    rw [← Finset.sum_range (fun k => A (k + i * M) * B (j + k * N))]
    exact foldl_add_eq_sum _ M

theorem benchmark_matrix_product_witness :
    benchmark_matrix 2 2 (fun p => ([1, 2, 3, 4] : List Int).getD p 0)
        (fun p => ([5, 6, 7, 8] : List Int).getD p 0) (fun _ => 0) (0 + 1 * 2) = 43 ∧
    benchmark_matrix 2 2 (fun p => ([1, 2, 3, 4] : List Int).getD p 0)
        (fun p => ([5, 6, 7, 8] : List Int).getD p 0) (fun _ => 0) (0 + 1 * 2) =
      ∑ k in Finset.range 2, (fun p => ([1, 2, 3, 4] : List Int).getD p 0) (k + 1 * 2) *
        (fun p => ([5, 6, 7, 8] : List Int).getD p 0) (0 + k * 2) :=
  ⟨by decide,
   (benchmark_matrix_product 2 2 (fun p => ([1, 2, 3, 4] : List Int).getD p 0)
      (fun p => ([5, 6, 7, 8] : List Int).getD p 0) (fun _ => 0) 1 0 (by decide)
      (by decide)).2.1⟩

/-! ## aes.c -/

theorem aes_loop_snoc {Ctx Key Blk : Type} [DecidableEq Blk] (c : Cipher Ctx Key Blk)
    (n : Nat) : ∀ (i : Nat) (s : AesState Ctx Blk),
      aes_loop c (n + 1) i s = (aes_loop c n i s >>= fun s1 => aes_block c (i + n) s1) := by
  induction n with
  | zero =>
    intro i s
    simp only [aes_loop, bind, Except.bind, Nat.add_zero]
    cases aes_block c i s <;> rfl
  | succ n ih =>
    intro i s
    rw [aes_loop]
    conv_rhs => rw [aes_loop]
    cases h : aes_block c i s with
    | error e => rfl
    | ok s1 =>
      simp only [bind, Except.bind]
      have := ih (i + 1) s1
      simp only [bind, Except.bind] at this
      rw [this]
      have e : i + 1 + n = i + (n + 1) := by omega
      rw [e]

theorem aes_block_spec {Ctx Key Blk : Type} [DecidableEq Blk] (c : Cipher Ctx Key Blk)
    (data : Nat → Blk) (ctx : Ctx) (i : Nat) (s : AesState Ctx Blk)
    (hctx : s.aes_ctx = ctx_at c data ctx i) (hp : s.plaintext = data) :
    (block_failure c data ctx i = none ∧
      ∃ s1, aes_block c i s = .ok s1 ∧ s1.aes_ctx = ctx_at c data ctx (i + 1) ∧
        s1.plaintext = data ∧ s1.ciphertext i = data i ∧
        (∀ k, k ≠ i → s1.ciphertext k = s.ciphertext k) ∧
        s1.ops = s.ops ++ [.memcpy i, .encrypt i, .decrypt i, .memcmp i]) ∨
    (∃ f s1, block_failure c data ctx i = some f ∧ aes_block c i s = .error (f, s1) ∧
      s1.plaintext = data) := by
  unfold block_failure aes_block
  simp only [round_trip, Function.update_same, hctx, hp, ctx_at]
  by_cases h1 : (c.aes256_encrypt_ecb (ctx_at c data ctx i) (data i)).1 ≠ c.AES_SUCCESS
  · right
    simp only [h1, if_true, ne_eq, not_false_eq_true]
    exact ⟨_, _, rfl, rfl, rfl⟩
  · simp only [h1, if_false, ne_eq, not_false_eq_true]
    by_cases h2 : (c.aes256_decrypt_ecb
        (c.aes256_encrypt_ecb (ctx_at c data ctx i) (data i)).2.1
        (c.aes256_encrypt_ecb (ctx_at c data ctx i) (data i)).2.2).1 ≠ c.AES_SUCCESS
    · right
      simp only [h2, if_true, ne_eq, not_false_eq_true]
      exact ⟨_, _, rfl, rfl, rfl⟩
    · simp only [h2, if_false, ne_eq, not_false_eq_true]
      by_cases h3 : (c.aes256_decrypt_ecb
          (c.aes256_encrypt_ecb (ctx_at c data ctx i) (data i)).2.1
          (c.aes256_encrypt_ecb (ctx_at c data ctx i) (data i)).2.2).2.2 ≠ data i
      · right
        simp only [h3, if_true, ne_eq, not_false_eq_true]
        exact ⟨_, _, rfl, rfl, rfl⟩
      · left
        simp only [h3, if_false, ne_eq, not_false_eq_true, true_and]
        refine ⟨_, rfl, rfl, rfl, ?_, ?_, by simp⟩
        · simpa using h3
        intro k hk
        simp [Function.update_noteq hk]

theorem aes_loop_spec {Ctx Key Blk : Type} [DecidableEq Blk] (c : Cipher Ctx Key Blk)
    (data : Nat → Blk) (ctx : Ctx) (s : AesState Ctx Blk)
    (hctx : s.aes_ctx = ctx) (hp : s.plaintext = data) (n : Nat) :
    (∃ s1, aes_loop c n 0 s = .ok s1 ∧ s1.aes_ctx = ctx_at c data ctx n ∧
      s1.plaintext = data ∧ (∀ k, k < n → s1.ciphertext k = data k) ∧
      ∀ k, k < n → block_failure c data ctx k = none) ∨
    (∃ i f s1, i < n ∧ aes_loop c n 0 s = .error (f, s1) ∧ s1.plaintext = data ∧
      (∀ k, k < i → block_failure c data ctx k = none) ∧
      block_failure c data ctx i = some f) := by
  induction n with
  | zero =>
    left
    exact ⟨s, rfl, hctx, hp, fun k hk => by omega, fun k hk => by omega⟩
  | succ n ih =>
    rw [aes_loop_snoc]
    rcases ih with ⟨s1, h1, h2, h3, h4, h5⟩ | ⟨i, f, s1, hi, h1, h2, h3, h4⟩
    · rw [h1]
      simp only [bind, Except.bind, Nat.zero_add]
      rcases aes_block_spec c data ctx n s1 h2 h3 with
        ⟨hb, s2, g1, g2, g3, g4, g5, _⟩ | ⟨f, s2, hb, g1, g2⟩
      · left
        refine ⟨s2, g1, g2, g3, ?_, ?_⟩
        · intro k hk
          by_cases hkn : k = n
          · subst hkn; exact g4
          · rw [g5 k hkn]; exact h4 k (by omega)
        · intro k hk
          by_cases hkn : k = n
          · subst hkn; exact hb
          · exact h5 k (by omega)
      · right
        exact ⟨n, f, s2, by omega, g1, g2, h5, hb⟩
    · right
      rw [h1]
      exact ⟨i, f, s1, by omega, rfl, h2, h3, h4⟩

theorem block_failure_none {Ctx Key Blk : Type} [DecidableEq Blk] (c : Cipher Ctx Key Blk)
    (data : Nat → Blk) (ctx : Ctx) (i : Nat) :
    block_failure c data ctx i = none ↔
      ((round_trip c (ctx_at c data ctx i) (data i)).1 = c.AES_SUCCESS ∧
       (round_trip c (ctx_at c data ctx i) (data i)).2.1 = c.AES_SUCCESS ∧
       (round_trip c (ctx_at c data ctx i) (data i)).2.2.1 = data i) := by
  unfold block_failure
  simp only
  split
  · rename_i h; simp [h]
  · rename_i h
    split
    · rename_i h2; simp [h2]
    · rename_i h2
      split
      · rename_i h3; simp [h3]
      · rename_i h3
        simp only [ne_eq, not_not] at h h2 h3
        simp [h, h2, h3]

theorem benchmark_aes_spec {Ctx Key Blk : Type} [DecidableEq Blk] (c : Cipher Ctx Key Blk)
    (aes_key : Key) (blocks : Nat) (data : Nat → Blk) (s : AesState Ctx Blk)
    (hinit : (c.aes256_init s.aes_ctx aes_key).1 = c.AES_SUCCESS) :
    (∃ s1, benchmark_aes c aes_key blocks data s = .ok s1 ∧ s1.plaintext = data ∧
      (∀ k, k < blocks → s1.ciphertext k = data k) ∧
      ∀ k, k < blocks →
        block_failure c data (c.aes256_init s.aes_ctx aes_key).2 k = none) ∨
    (∃ i f s1, i < blocks ∧ benchmark_aes c aes_key blocks data s = .error (f, s1) ∧
      s1.plaintext = data ∧
      (∀ k, k < i → block_failure c data (c.aes256_init s.aes_ctx aes_key).2 k = none) ∧
      block_failure c data (c.aes256_init s.aes_ctx aes_key).2 i = some f) := by
  unfold benchmark_aes
  simp only [hinit, ne_eq, not_true_eq_false, if_false]
  rcases aes_loop_spec c data (c.aes256_init s.aes_ctx aes_key).2
      { aes_ctx := (c.aes256_init s.aes_ctx aes_key).2, plaintext := data,
        ciphertext := s.ciphertext, ops := s.ops ++ [.init] ++ [.fread] } rfl rfl blocks with
    ⟨s1, h1, _, h3, h4, h5⟩ | ⟨i, f, s1, hi, h1, h2, h3, h4⟩
  · left; exact ⟨s1, h1, h3, h4, h5⟩
  · right; exact ⟨i, f, s1, hi, h1, h2, h3, h4⟩

/-- C6: a trial of `benchmark_aes` ends with a fatal error exactly when the
initialisation fails or, for some block, the encryption fails, the decryption fails or
the block after the round trip differs from the plaintext block. An initialisation
failure is reported after the call of `aes256_init` alone; otherwise the failure
reported is the first failing step of the first failing block, a compare failure
carrying the index of that block. -/
theorem benchmark_aes_fatal {Ctx Key Blk : Type} [DecidableEq Blk] (c : Cipher Ctx Key Blk)
    (aes_key : Key) (blocks : Nat) (data : Nat → Blk) (s : AesState Ctx Blk) :
    ((∃ f s1, benchmark_aes c aes_key blocks data s = .error (f, s1)) ↔
      ((c.aes256_init s.aes_ctx aes_key).1 ≠ c.AES_SUCCESS ∨
        ∃ i, i < blocks ∧
          ((round_trip c (ctx_at c data (c.aes256_init s.aes_ctx aes_key).2 i) (data i)).1
              ≠ c.AES_SUCCESS ∨
           (round_trip c (ctx_at c data (c.aes256_init s.aes_ctx aes_key).2 i) (data i)).2.1
              ≠ c.AES_SUCCESS ∨
           (round_trip c (ctx_at c data (c.aes256_init s.aes_ctx aes_key).2 i) (data i)).2.2.1
              ≠ data i))) ∧
    ((c.aes256_init s.aes_ctx aes_key).1 ≠ c.AES_SUCCESS →
      ∃ s1, benchmark_aes c aes_key blocks data s = .error (.init_failed, s1) ∧
        s1.ops = s.ops ++ [.init]) ∧
    ((c.aes256_init s.aes_ctx aes_key).1 = c.AES_SUCCESS →
      ∀ i f, i < blocks →
        (∀ k, k < i → block_failure c data (c.aes256_init s.aes_ctx aes_key).2 k = none) →
        block_failure c data (c.aes256_init s.aes_ctx aes_key).2 i = some f →
        ∃ s1, benchmark_aes c aes_key blocks data s = .error (f, s1)) := by
  have hfail : (c.aes256_init s.aes_ctx aes_key).1 ≠ c.AES_SUCCESS →
      ∃ s1, benchmark_aes c aes_key blocks data s = .error (.init_failed, s1) ∧
        s1.ops = s.ops ++ [.init] := by
    intro h
    unfold benchmark_aes
    simp only [h, ne_eq, not_false_eq_true, if_true]
    exact ⟨_, rfl, rfl⟩
  refine ⟨?_, hfail, ?_⟩
  · by_cases hinit : (c.aes256_init s.aes_ctx aes_key).1 = c.AES_SUCCESS
    · rcases benchmark_aes_spec c aes_key blocks data s hinit with
        ⟨s1, h1, _, _, h4⟩ | ⟨i, f, s1, hi, h1, _, _, h4⟩
      · constructor
        · rintro ⟨f, s2, h⟩; rw [h1] at h; cases h
        · rintro (h | ⟨i, hi, h⟩)
          · exact absurd hinit h
          · have := (block_failure_none c data _ i).1 (h4 i hi)
            rcases h with h | h | h
            · exact absurd this.1 h
            · exact absurd this.2.1 h
            · exact absurd this.2.2 h
      · refine ⟨fun _ => Or.inr ⟨i, hi, ?_⟩, fun _ => ⟨f, s1, h1⟩⟩
        by_contra hc
        simp only [not_or, ne_eq, not_not] at hc
        rw [(block_failure_none c data _ i).2 hc] at h4
        cases h4
    · obtain ⟨s1, h1, _⟩ := hfail hinit
      exact ⟨fun _ => Or.inl hinit, fun _ => ⟨_, s1, h1⟩⟩
  · intro hinit i f hi hbefore hat
    rcases benchmark_aes_spec c aes_key blocks data s hinit with
      ⟨s1, _, _, _, h4⟩ | ⟨j, g, s1, hj, h1, _, h3, h4⟩
    · rw [h4 i hi] at hat; cases hat
    · rcases lt_trichotomy i j with h | h | h
      · rw [h3 i h] at hat; cases hat
      · subst h
        rw [hat] at h4
        cases h4
        exact ⟨s1, h1⟩
      · rw [hbefore j h] at h4; cases h4

theorem benchmark_aes_fatal_witness :
    (broken_cipher.aes256_init aes_start.aes_ctx 1).1 = broken_cipher.AES_SUCCESS ∧
    (∀ k, k < 2 → block_failure broken_cipher (fun i => 10 + i)
      (broken_cipher.aes256_init aes_start.aes_ctx 1).2 k = none) ∧
    block_failure broken_cipher (fun i => 10 + i)
      (broken_cipher.aes256_init aes_start.aes_ctx 1).2 2 = some (.failed_at_block 2) ∧
    ∃ s1, benchmark_aes broken_cipher 1 4 (fun i => 10 + i) aes_start =
      .error (.failed_at_block 2, s1) :=
  ⟨by decide, by decide, by decide,
   (benchmark_aes_fatal broken_cipher 1 4 (fun i => 10 + i) aes_start).2.2 (by decide) 2
     (.failed_at_block 2) (by decide) (by decide) (by decide)⟩

/-- C7: when a trial of `benchmark_aes` completes, every block of `ciphertext` equals
the block of `plaintext` with the same index, every block was encrypted and decrypted
with success and came back unchanged, and `plaintext` still holds what was read. -/
theorem benchmark_aes_round_trip {Ctx Key Blk : Type} [DecidableEq Blk]
    (c : Cipher Ctx Key Blk) (aes_key : Key) (blocks : Nat) (data : Nat → Blk)
    (s s1 : AesState Ctx Blk) (h : benchmark_aes c aes_key blocks data s = .ok s1) :
    (∀ i, i < blocks → s1.ciphertext i = s1.plaintext i) ∧
    s1.plaintext = data ∧
    (∀ i, i < blocks →
      (round_trip c (ctx_at c data (c.aes256_init s.aes_ctx aes_key).2 i) (data i)).1
        = c.AES_SUCCESS ∧
      (round_trip c (ctx_at c data (c.aes256_init s.aes_ctx aes_key).2 i) (data i)).2.1
        = c.AES_SUCCESS ∧
      (round_trip c (ctx_at c data (c.aes256_init s.aes_ctx aes_key).2 i) (data i)).2.2.1
        = data i) := by
  by_cases hinit : (c.aes256_init s.aes_ctx aes_key).1 = c.AES_SUCCESS
  · rcases benchmark_aes_spec c aes_key blocks data s hinit with
      ⟨s2, h1, h2, h3, h4⟩ | ⟨i, f, s2, _, h1, _⟩
    · rw [h1] at h
      cases h
      exact ⟨fun i hi => by rw [h3 i hi, h2], h2,
        fun i hi => (block_failure_none c data _ i).1 (h4 i hi)⟩
    · rw [h1] at h; cases h
  · unfold benchmark_aes at h
    simp only [hinit, ne_eq, not_false_eq_true, if_true] at h
    cases h

theorem benchmark_aes_round_trip_witness :
    benchmark_aes shift_cipher 1 4 (fun i => 10 + i) aes_start =
      .ok (aes_state (benchmark_aes shift_cipher 1 4 (fun i => 10 + i) aes_start)) ∧
    ∀ i, i < 4 →
      (aes_state (benchmark_aes shift_cipher 1 4 (fun i => 10 + i) aes_start)).ciphertext i =
      (aes_state (benchmark_aes shift_cipher 1 4 (fun i => 10 + i) aes_start)).plaintext i :=
  ⟨by rfl, (benchmark_aes_round_trip shift_cipher 1 4 (fun i => 10 + i) aes_start
    (aes_state (benchmark_aes shift_cipher 1 4 (fun i => 10 + i) aes_start)) (by rfl)).1⟩

/-! ## main.c: the aggregation -/

theorem clock_t_wrap_id (bits : Nat) (x : Int) (h1 : clock_t_min bits ≤ x)
    (h2 : x ≤ clock_t_max bits) : clock_t_wrap bits x = x := by
  unfold clock_t_wrap
  rw [Int.emod_eq_of_lt (by omega) (by omega)]
  omega

theorem record_total (bits : Nat) (r : benchmark_result_t) (d : Int) :
    (record bits r d).time_total = clock_t_wrap bits (r.time_total + d) := by
  unfold record
  simp only
  split <;> split <;> rfl

theorem record_min (bits : Nat) (r : benchmark_result_t) (d : Int) :
    (record bits r d).time_min = min d r.time_min := by
  unfold record
  simp only
  by_cases h : d < r.time_min
  · rw [if_pos h]; split <;> simp [min_eq_left (le_of_lt h)]
  · rw [if_neg h]; split <;> simp [min_eq_right (not_lt.1 h)]

theorem record_max (bits : Nat) (r : benchmark_result_t) (d : Int) :
    (record bits r d).time_max = max d r.time_max := by
  unfold record
  simp only
  by_cases h : d < r.time_min
  · rw [if_pos h]
    simp only
    by_cases h2 : d > r.time_max
    · rw [if_pos h2]; simp [max_eq_left (le_of_lt h2)]
    · rw [if_neg h2]; simp [max_eq_right (not_lt.1 h2)]
  · rw [if_neg h]
    by_cases h2 : d > r.time_max
    · rw [if_pos h2]; simp [max_eq_left (le_of_lt h2)]
    · rw [if_neg h2]; simp [max_eq_right (not_lt.1 h2)]

theorem foldl_record_total (bits : Nat) (f : Nat → Int) (r : benchmark_result_t) (k : Nat)
    (h : ∀ n, n ≤ k → clock_t_min bits ≤ r.time_total + ((List.range n).map f).sum ∧
      r.time_total + ((List.range n).map f).sum ≤ clock_t_max bits) :
    (((List.range k).map f).foldl (record bits) r).time_total =
      r.time_total + ((List.range k).map f).sum := by
  induction k with
  | zero => simp
  | succ n ih =>
    have h1 := h (n + 1) (le_refl _)
    simp only [List.range_succ, List.map_append, List.map_cons, List.map_nil,
      List.foldl_append, List.foldl_cons, List.foldl_nil, List.sum_append, List.sum_cons,
      List.sum_nil, add_zero] at h1 ⊢
    rw [record_total, ih (fun m hm => h m (by omega)), clock_t_wrap_id _ _ (by omega) (by omega)]
    omega

theorem foldl_record_min_le (bits : Nat) (ds : List Int) (r : benchmark_result_t) :
    (ds.foldl (record bits) r).time_min ≤ r.time_min ∧
    ∀ d ∈ ds, (ds.foldl (record bits) r).time_min ≤ d := by
  induction ds generalizing r with
  | nil => simp
  | cons d ds ih =>
    rw [List.foldl_cons]
    obtain ⟨h1, h2⟩ := ih (record bits r d)
    rw [record_min] at h1
    refine ⟨le_trans h1 (min_le_right _ _), ?_⟩
    intro e he
    rcases List.mem_cons.1 he with rfl | he
    · exact le_trans h1 (min_le_left _ _)
    · exact h2 e he

theorem foldl_record_le_max (bits : Nat) (ds : List Int) (r : benchmark_result_t) :
    r.time_max ≤ (ds.foldl (record bits) r).time_max ∧
    ∀ d ∈ ds, d ≤ (ds.foldl (record bits) r).time_max := by
  induction ds generalizing r with
  | nil => simp
  | cons d ds ih =>
    rw [List.foldl_cons]
    obtain ⟨h1, h2⟩ := ih (record bits r d)
    rw [record_max] at h1
    refine ⟨le_trans (le_max_right _ _) h1, ?_⟩
    intro e he
    rcases List.mem_cons.1 he with rfl | he
    · exact le_trans (le_max_left _ _) h1
    · exact h2 e he

theorem trial_ok {σ ε : Type} {env : Env σ} {b : benchmark_data_t σ ε} {i j : Nat}
    {st st1 : HState σ ε} (h : trial env b i j st = .ok st1) :
    st1.clocks = st.clocks + 2 ∧
    st1.results = Function.update st.results i
      (record env.clock_t_bits (st.results i) (elapsed env st.clocks 0)) := by
  unfold trial at h
  simp only at h
  split at h
  · cases h
  · cases h
    exact ⟨rfl, rfl⟩

theorem elapsed_shift {σ : Type} (env : Env σ) (c0 t : Nat) :
    elapsed env c0 (t + 1) = elapsed env (c0 + 2) t := by
  unfold elapsed
  have e1 : c0 + 2 * (t + 1) + 1 = c0 + 2 + 2 * t + 1 := by omega
  have e2 : c0 + 2 * (t + 1) = c0 + 2 + 2 * t := by omega
  rw [e1, e2]

theorem run_trials_results {σ ε : Type} (env : Env σ) (b : benchmark_data_t σ ε) (i : Nat)
    (count : Nat) : ∀ (j : Nat) (st st1 : HState σ ε),
      run_trials env b i count j st = .ok st1 →
      st1.clocks = st.clocks + 2 * count ∧
      st1.results i = ((List.range count).map (elapsed env st.clocks)).foldl
        (record env.clock_t_bits) (st.results i) ∧
      ∀ k, k ≠ i → st1.results k = st.results k := by
  induction count with
  | zero =>
    intro j st st1 h
    rw [run_trials] at h
    cases h
    simp
  | succ n ih =>
    intro j st st1 h
    rw [run_trials] at h
    cases ht : trial env b i j st with
    | error r => rw [ht] at h; cases h
    | ok st2 =>
      rw [ht] at h
      obtain ⟨hc, hr⟩ := trial_ok ht
      obtain ⟨h1, h2, h3⟩ := ih (j + 1) st2 st1 h
      refine ⟨by omega, ?_, ?_⟩
      · rw [h2, List.range_succ_eq_map, List.map_cons, List.foldl_cons, List.map_map, hr, hc]
        simp only [Function.update_same]
        congr 2
        funext t
        exact (elapsed_shift env st.clocks t).symm
      · intro k hk
        rw [h3 k hk, hr, Function.update_noteq hk]

theorem run_trials_add {σ ε : Type} (env : Env σ) (b : benchmark_data_t σ ε) (i : Nat)
    (k : Nat) : ∀ (c j : Nat) (st : HState σ ε),
      run_trials env b i (k + c) j st =
        (run_trials env b i k j st >>= fun st1 => run_trials env b i c (j + k) st1) := by
  induction k with
  | zero =>
    intro c j st
    simp [run_trials, bind, Except.bind]
  | succ n ih =>
    intro c j st
    have e : n + 1 + c = (n + c) + 1 := by omega
    rw [e, run_trials, run_trials]
    cases ht : trial env b i j st with
    | error r => rfl
    | ok st2 =>
      simp only [bind, Except.bind]
      have := ih c (j + 1) st2
      simp only [bind, Except.bind] at this
      rw [this]
      have e2 : j + 1 + n = j + (n + 1) := by omega
      rw [e2]

/-- C3 (as amended): in the loop over the trials of an entry, after any `k` trials (`k`
at most the iteration count) `time_total` is the sum of the `k` elapsed values recorded
so far, provided that the sum of the first `n` of them is a value of `clock_t` for every
`n` up to `k`; and the loop goes on from that state with the trials that are left. -/
theorem time_total_eq_sum {σ ε : Type} (env : Env σ) (b : benchmark_data_t σ ε) (i : Nat)
    (st : HState σ ε) (k : Nat) (hk : k ≤ b.iterations) (stk : HState σ ε)
    (h : run_trials env b i k 0 (start_entry b i st) = .ok stk)
    (hfit : ∀ n, n ≤ k →
      clock_t_min env.clock_t_bits ≤ ((List.range n).map (elapsed env st.clocks)).sum ∧
      ((List.range n).map (elapsed env st.clocks)).sum ≤ clock_t_max env.clock_t_bits) :
    (stk.results i).time_total = ((List.range k).map (elapsed env st.clocks)).sum ∧
    run_entry env b i st = run_trials env b i (b.iterations - k) k stk := by
  obtain ⟨_, h2, _⟩ := run_trials_results env b i k 0 _ _ h
  have h0 : ((start_entry b i st).results i).time_total = 0 := by simp [start_entry, reset]
  have hc : (start_entry b i st).clocks = st.clocks := rfl
  constructor
  · rw [h2, hc, foldl_record_total, h0, zero_add]
    intro n hn
    rw [h0, zero_add]
    exact hfit n hn
  · unfold run_entry
    have e : b.iterations = k + (b.iterations - k) := by omega
    conv_lhs => rw [e]
    rw [run_trials_add, h]
    simp [bind, Except.bind]

theorem time_total_eq_sum_witness :
    2 ≤ (⟨steady, "first", 2⟩ : benchmark_data_t Nat Unit).iterations ∧
    run_trials demo_env ⟨steady, "first", 2⟩ 0 2 0
        (start_entry ⟨steady, "first", 2⟩ 0 demo_start) =
      .ok (end_state (run_trials demo_env ⟨steady, "first", 2⟩ 0 2 0
        (start_entry ⟨steady, "first", 2⟩ 0 demo_start))) ∧
    (List.range 2).map (elapsed demo_env demo_start.clocks) = [1000, 5000] ∧
    ((end_state (run_trials demo_env ⟨steady, "first", 2⟩ 0 2 0
        (start_entry ⟨steady, "first", 2⟩ 0 demo_start))).results 0).time_total = 6000 ∧
    ((end_state (run_trials demo_env ⟨steady, "first", 2⟩ 0 2 0
        (start_entry ⟨steady, "first", 2⟩ 0 demo_start))).results 0).time_total =
      ((List.range 2).map (elapsed demo_env demo_start.clocks)).sum :=
  ⟨by decide, by rfl, by decide, by decide,
   (time_total_eq_sum demo_env ⟨steady, "first", 2⟩ 0 demo_start 2 (by decide)
      (end_state (run_trials demo_env ⟨steady, "first", 2⟩ 0 2 0
        (start_entry ⟨steady, "first", 2⟩ 0 demo_start))) (by rfl) (by decide)).1⟩

/-- C3 fails as stated: on a platform with a `clock_t` of 64 bits and one tick a second,
two trials of 5000000000000 ticks each are recorded as 5000000000000000000 each; their
sum 10000000000000000000 is no value of `clock_t`, and `time_total` after the two trials
is -8446744073709551616. -/
theorem time_total_overflow :
    run_trials slow_env ⟨steady, "first", 2⟩ 0 2 0
        (start_entry ⟨steady, "first", 2⟩ 0 demo_start) =
      .ok (end_state (run_trials slow_env ⟨steady, "first", 2⟩ 0 2 0
        (start_entry ⟨steady, "first", 2⟩ 0 demo_start))) ∧
    (List.range 2).map (elapsed slow_env demo_start.clocks) =
      [5000000000000000000, 5000000000000000000] ∧
    ((end_state (run_trials slow_env ⟨steady, "first", 2⟩ 0 2 0
        (start_entry ⟨steady, "first", 2⟩ 0 demo_start))).results 0).time_total =
      -8446744073709551616 ∧
    ((end_state (run_trials slow_env ⟨steady, "first", 2⟩ 0 2 0
        (start_entry ⟨steady, "first", 2⟩ 0 demo_start))).results 0).time_total ≠
      ((List.range 2).map (elapsed slow_env demo_start.clocks)).sum :=
  ⟨by rfl, by decide, by decide, by decide⟩

/-- C4: when the loop over the trials of an entry is over, `time_min` is at most and
`time_max` at least every elapsed value recorded for the entry. -/
theorem time_min_max_bound {σ ε : Type} (env : Env σ) (b : benchmark_data_t σ ε) (i : Nat)
    (st st1 : HState σ ε) (h : run_entry env b i st = .ok st1) (t : Nat)
    (ht : t < b.iterations) :
    (st1.results i).time_min ≤ elapsed env st.clocks t ∧
    elapsed env st.clocks t ≤ (st1.results i).time_max := by
  obtain ⟨_, h2, _⟩ := run_trials_results env b i b.iterations 0 _ _ h
  have hmem : elapsed env st.clocks t ∈ (List.range b.iterations).map (elapsed env st.clocks) :=
    List.mem_map.2 ⟨t, List.mem_range.2 ht, rfl⟩
  rw [h2]
  exact ⟨(foldl_record_min_le _ _ _).2 _ hmem, (foldl_record_le_max _ _ _).2 _ hmem⟩

theorem time_min_max_bound_witness :
    run_entry demo_env ⟨steady, "first", 2⟩ 0 demo_start =
      .ok (end_state (run_entry demo_env ⟨steady, "first", 2⟩ 0 demo_start)) ∧
    ((end_state (run_entry demo_env ⟨steady, "first", 2⟩ 0 demo_start)).results 0).time_min
      ≤ elapsed demo_env demo_start.clocks 1 ∧
    elapsed demo_env demo_start.clocks 1 ≤
      ((end_state (run_entry demo_env ⟨steady, "first", 2⟩ 0 demo_start)).results 0).time_max :=
  ⟨by rfl,
   time_min_max_bound demo_env ⟨steady, "first", 2⟩ 0 demo_start
     (end_state (run_entry demo_env ⟨steady, "first", 2⟩ 0 demo_start)) (by rfl) 1 (by decide)⟩

/-- C8 (as amended): for a positive tick rate that divides 1000000 and a tick difference
`d` whose product with `1000000 / CLOCKS_PER_SEC` is a value of `clock_t`, the recorded
elapsed value `e` satisfies `e * CLOCKS_PER_SEC = d * 1000000`. -/
theorem normalise_exact (bits : Nat) (CLOCKS_PER_SEC d : Int) (hpos : 0 < CLOCKS_PER_SEC)
    (hdvd : CLOCKS_PER_SEC ∣ 1000000)
    (hfit : clock_t_min bits ≤ d * (1000000 / CLOCKS_PER_SEC) ∧
      d * (1000000 / CLOCKS_PER_SEC) ≤ clock_t_max bits) :
    normalise bits CLOCKS_PER_SEC d * CLOCKS_PER_SEC = d * 1000000 := by
  unfold normalise
  split
  · rw [Int.tdiv_eq_ediv (by decide) (le_of_lt hpos), clock_t_wrap_id _ _ hfit.1 hfit.2,
      mul_assoc, Int.ediv_mul_cancel hdvd]
  · rename_i h
    simp only [ne_eq, not_not] at h
    rw [h]

theorem normalise_exact_witness :
    (0 : Int) < 1000 ∧ (1000 : Int) ∣ 1000000 ∧
    (clock_t_min 64 ≤ 7 * (1000000 / 1000) ∧ 7 * (1000000 / 1000) ≤ clock_t_max 64) ∧
    normalise 64 1000 7 = 7000 ∧ normalise 64 1000 7 * 1000 = 7 * 1000000 :=
  ⟨by decide, by decide, by decide, by decide,
   normalise_exact 64 1000 7 (by decide) (by decide) (by decide)⟩

/-- C8 fails as stated: with a `clock_t` of 64 bits and one tick a second, the tick
difference 9223372036855 is recorded as -9223372036854551616, the product
9223372036855000000 being no value of `clock_t`. -/
theorem normalise_overflow :
    (0 : Int) < 1 ∧ (1 : Int) ∣ 1000000 ∧
    clock_t_max 64 < 9223372036855 * 1000000 ∧
    normalise 64 1 9223372036855 = -9223372036854551616 ∧
    normalise 64 1 9223372036855 * 1 ≠ 9223372036855 * 1000000 := by
  decide

/-! ## main.c: the run -/

theorem calls_append {ε : Type} (a b : List (Event ε)) : calls (a ++ b) = calls a ++ calls b := by
  induction a with
  | nil => rfl
  | cons e a ih => cases e <;> simp [calls, ih]

theorem calls_kernel {ε : Type} (k : List KernelEvent) :
    calls (k.map (Event.kernel : KernelEvent → Event ε)) = [] := by
  induction k with
  | nil => rfl
  | cons e k ih => simp [calls, ih]

theorem noFatal_append {ε : Type} {a b : List (Event ε)} :
    NoFatal (a ++ b) ↔ NoFatal a ∧ NoFatal b := by
  simp only [NoFatal, List.mem_append, not_or]
  exact ⟨fun h => ⟨fun f => (h f).1, fun f => (h f).2⟩, fun h f => ⟨h.1 f, h.2 f⟩⟩

theorem noResult_append {ε : Type} {a b : List (Event ε)} :
    NoResult (a ++ b) ↔ NoResult a ∧ NoResult b := by
  simp only [NoResult, List.mem_append, not_or]
  exact ⟨fun h => ⟨fun n k r => (h n k r).1, fun n k r => (h n k r).2⟩,
    fun h n k r => ⟨h.1 n k r, h.2 n k r⟩⟩

theorem noFatal_kernel {ε : Type} (k : List KernelEvent) :
    NoFatal (k.map (Event.kernel : KernelEvent → Event ε)) := by
  intro f hf
  simp at hf

theorem noResult_kernel {ε : Type} (k : List KernelEvent) :
    NoResult (k.map (Event.kernel : KernelEvent → Event ε)) := by
  intro n i r hf
  simp at hf

theorem trial_spec {σ ε : Type} (env : Env σ) (b : benchmark_data_t σ ε) (i j : Nat)
    (st : HState σ ε) :
    (∃ st1 evs, trial env b i j st = .ok st1 ∧ st1.out = st.out ++ evs ∧ Quiet evs [(i, j)]) ∨
    (∃ r, trial env b i j st = .error r ∧ Stopped r st.out [(i, j)]) := by
  unfold trial
  simp only
  cases hk : (b.benchmark (env.fseek st.input (env.rand st.rands % 134217728))).2 with
  | error f =>
    right
    refine ⟨_, rfl, [.fseek (env.rand st.rands % 134217728), .progress j b.iterations,
      .clock (env.clock st.clocks)], i, j,
      (b.benchmark (env.fseek st.input (env.rand st.rands % 134217728))).1, f, [], ?_, rfl,
      ?_, ?_, ?_⟩
    · simp
    · intro f hf; simp at hf
    · intro n k r hf; simp at hf
    · simp [calls]
  | ok inp =>
    left
    refine ⟨_, [.fseek (env.rand st.rands % 134217728), .progress j b.iterations,
        .clock (env.clock st.clocks), .call i j] ++
        (b.benchmark (env.fseek st.input (env.rand st.rands % 134217728))).1.map Event.kernel ++
        [.clock (env.clock (st.clocks + 1))], rfl, ?_, ?_, ?_, ?_⟩
    · simp
    · intro f hf; simp at hf
    · intro n k r hf; simp at hf
    · simp [calls_append, calls_kernel, calls]

theorem Quiet.nil {ε : Type} : Quiet ([] : List (Event ε)) [] :=
  ⟨fun _ h => by simp at h, fun _ _ _ h => by simp at h, rfl⟩

theorem Quiet.append {ε : Type} {a b : List (Event ε)} {ia ib : List (Nat × Nat)}
    (ha : Quiet a ia) (hb : Quiet b ib) : Quiet (a ++ b) (ia ++ ib) :=
  ⟨noFatal_append.2 ⟨ha.1, hb.1⟩, noResult_append.2 ⟨ha.2.1, hb.2.1⟩, by
    rw [calls_append, ha.2.2, hb.2.2]⟩

theorem Stopped.extend {ε : Type} {r : Run ε} {out0 a : List (Event ε)}
    {ia ib : List (Nat × Nat)} (ha : Quiet a ia) (h : Stopped r (out0 ++ a) ib)
    (more : List (Nat × Nat)) : Stopped r out0 (ia ++ ib ++ more) := by
  obtain ⟨evs, e, t, kevs, f, rest, h1, h2, h3, h4, h5⟩ := h
  refine ⟨a ++ evs, e, t, kevs, f, rest ++ more, ?_, h2, noFatal_append.2 ⟨ha.1, h3⟩,
    noResult_append.2 ⟨ha.2.1, h4⟩, ?_⟩
  · rw [h1]; simp
  · rw [calls_append, ha.2.2, h5]; simp

theorem Stopped.more {ε : Type} {r : Run ε} {out0 : List (Event ε)}
    {ib : List (Nat × Nat)} (h : Stopped r out0 ib) (more : List (Nat × Nat)) :
    Stopped r out0 (ib ++ more) := by
  have := Stopped.extend (Quiet.nil : Quiet ([] : List (Event ε)) []) (by simpa using h) more
  simpa using this

theorem trial_ids_step (i j n : Nat) :
    (List.range (n + 1)).map (fun t => (i, j + t)) =
      [(i, j)] ++ (List.range n).map (fun t => (i, j + 1 + t)) := by
  rw [List.range_succ_eq_map, List.map_cons, List.map_map]
  simp only [Nat.add_zero, List.singleton_append, List.cons.injEq, true_and]
  apply List.map_congr_left
  intro t _
  simp only [Function.comp, Prod.mk.injEq, true_and]
  omega

theorem run_trials_spec {σ ε : Type} (env : Env σ) (b : benchmark_data_t σ ε) (i : Nat)
    (count : Nat) : ∀ (j : Nat) (st : HState σ ε),
      (∃ st1 evs, run_trials env b i count j st = .ok st1 ∧ st1.out = st.out ++ evs ∧
        Quiet evs ((List.range count).map (fun t => (i, j + t)))) ∨
      (∃ r, run_trials env b i count j st = .error r ∧
        Stopped r st.out ((List.range count).map (fun t => (i, j + t)))) := by
  induction count with
  | zero =>
    intro j st
    left
    exact ⟨st, [], rfl, by simp, Quiet.nil⟩
  | succ n ih =>
    intro j st
    rw [trial_ids_step, run_trials]
    rcases trial_spec env b i j st with ⟨st1, evs, h1, h2, h3⟩ | ⟨r, h1, h2⟩
    · rw [h1]
      simp only [bind, Except.bind]
      rcases ih (j + 1) st1 with ⟨st2, evs2, h4, h5, h6⟩ | ⟨r, h4, h5⟩
      · left
        exact ⟨st2, evs ++ evs2, h4, by rw [h5, h2, List.append_assoc], h3.append h6⟩
      · right
        refine ⟨r, h4, ?_⟩
        rw [h2] at h5
        simpa using Stopped.extend h3 h5 []
    · right
      rw [h1]
      exact ⟨r, rfl, h2.more _⟩

theorem run_entry_spec {σ ε : Type} (env : Env σ) (b : benchmark_data_t σ ε) (i : Nat)
    (st : HState σ ε) :
    (∃ st1 evs, run_entry env b i st = .ok st1 ∧ st1.out = st.out ++ evs ∧
      Quiet evs ((List.range b.iterations).map (fun j => (i, j)))) ∨
    (∃ r, run_entry env b i st = .error r ∧
      Stopped r st.out ((List.range b.iterations).map (fun j => (i, j)))) := by
  have hq : Quiet ([.running_benchmark b.name] : List (Event ε)) [] :=
    ⟨fun _ h => by simp at h, fun _ _ _ h => by simp at h, rfl⟩
  have hids : (List.range b.iterations).map (fun t => (i, 0 + t)) =
      (List.range b.iterations).map (fun j => (i, j)) := by simp
  unfold run_entry
  rcases run_trials_spec env b i b.iterations 0 (start_entry b i st) with
    ⟨st1, evs, h1, h2, h3⟩ | ⟨r, h1, h2⟩
  · left
    rw [hids] at h3
    refine ⟨st1, [.running_benchmark b.name] ++ evs, h1, ?_, by simpa using hq.append h3⟩
    rw [h2]; simp [start_entry]
  · right
    rw [hids] at h2
    refine ⟨r, h1, ?_⟩
    have h3 : Stopped r (st.out ++ [.running_benchmark b.name])
        ((List.range b.iterations).map (fun j => (i, j))) := h2
    simpa using Stopped.extend hq h3 []

theorem run_entries_spec {σ ε : Type} (env : Env σ) (table : List (benchmark_data_t σ ε)) :
    ∀ (i : Nat) (st : HState σ ε),
      (∃ st1 evs, run_entries env table i st = .ok st1 ∧ st1.out = st.out ++ evs ∧
        Quiet evs (trial_ids table i)) ∨
      (∃ r, run_entries env table i st = .error r ∧ Stopped r st.out (trial_ids table i)) := by
  induction table with
  | nil =>
    intro i st
    left
    exact ⟨st, [], rfl, by simp, Quiet.nil⟩
  | cons b rest ih =>
    intro i st
    rw [run_entries, trial_ids]
    rcases run_entry_spec env b i st with ⟨st1, evs, h1, h2, h3⟩ | ⟨r, h1, h2⟩
    · rw [h1]
      simp only [bind, Except.bind]
      rcases ih (i + 1) st1 with ⟨st2, evs2, h4, h5, h6⟩ | ⟨r, h4, h5⟩
      · left
        exact ⟨st2, evs ++ evs2, h4, by rw [h5, h2, List.append_assoc], h3.append h6⟩
      · right
        refine ⟨r, h4, ?_⟩
        rw [h2] at h5
        simpa using Stopped.extend h3 h5 []
    · right
      rw [h1]
      exact ⟨r, rfl, h2.more _⟩

theorem report_quiet {σ ε : Type} (results : Nat → benchmark_result_t)
    (table : List (benchmark_data_t σ ε)) : ∀ i : Nat,
      NoFatal (report results table i : List (Event ε)) ∧
      calls (report results table i : List (Event ε)) = [] := by
  induction table with
  | nil => intro i; exact ⟨fun _ h => by simp [report] at h, rfl⟩
  | cons b rest ih =>
    intro i
    obtain ⟨h1, h2⟩ := ih (i + 1)
    refine ⟨?_, ?_⟩
    · intro f hf
      rw [report] at hf
      rcases List.mem_cons.1 hf with h | h
      · cases h
      · exact h1 f h
    · simp [report, calls, h2]

theorem split_at_last {β : Type} (X : List β) (a b : β) (hb : b ∉ X) :
    ∀ (pre post : List β), X ++ [a] = pre ++ b :: post → pre = X ∧ b = a ∧ post = [] := by
  induction X with
  | nil =>
    intro pre post h
    cases pre with
    | nil => simp at h; exact ⟨rfl, h.1.symm, h.2⟩
    | cons c pre => simp at h
  | cons x X ih =>
    intro pre post h
    cases pre with
    | nil =>
      simp at h
      exact absurd (h.1 ▸ List.mem_cons_self _ _) hb
    | cons c pre =>
      simp only [List.cons_append, List.cons.injEq] at h
      obtain ⟨h1, h2, h3⟩ := ih (fun hm => hb (List.mem_cons_of_mem _ hm)) pre post h.2
      exact ⟨by rw [h.1, h1], h2, h3⟩

theorem main_opened {σ ε : Type} (env : Env σ) (table : List (benchmark_data_t σ ε))
    (input : σ) (hopen : env.fopen = some input) :
    (∃ evs, (main env table).out = evs ∧ (main env table).status = .returned 0 ∧
      NoFatal evs ∧ calls evs = trial_ids table 0) ∨
    Stopped (main env table) [.running table.length] (trial_ids table 0) := by
  have hm : main env table =
      (match run_entries env table 0
          { input := input, rands := 0, clocks := 0, out := [.running table.length],
            results := fun _ => ⟨0, 0, 0⟩ } with
        | .error r => r
        | .ok st1 =>
          { out := st1.out ++ [.fclose, .results_header] ++ report st1.results table 0,
            status := .returned 0 }) := by
    unfold main
    simp only [hopen]
  rcases run_entries_spec env table 0
    { input := input, rands := 0, clocks := 0, out := [.running table.length],
      results := fun _ => ⟨0, 0, 0⟩ } with ⟨st1, evs, h1, h2, h3⟩ | ⟨r, h1, h2⟩
  · left
    rw [h1] at hm
    replace hm : main env table =
        { out := st1.out ++ [.fclose, .results_header] ++ report st1.results table 0,
          status := .returned 0 } := hm
    rw [hm]
    refine ⟨_, rfl, rfl, ?_, ?_⟩
    · rw [h2]
      intro f hf
      simp only [List.mem_append, List.mem_cons, List.mem_singleton, List.not_mem_nil,
        or_false] at hf
      rcases hf with ((h | h) | h | h) | h
      · cases h
      · exact h3.1 f h
      · cases h
      · cases h
      · exact (report_quiet st1.results table 0).1 f h
    · rw [h2, calls_append, calls_append, calls_append, h3.2.2,
        (report_quiet st1.results table 0).2]
      simp [calls]
  · right
    rw [h1] at hm
    replace hm : main env table = r := hm
    rw [hm]
    exact h2

/-- C9: if the input cannot be opened, `main` returns 1, no kernel is called and no
result line is printed; if it opens and no kernel fails, `main` returns 0 and the
kernel calls made are all the trials of the registry, in order. -/
theorem main_exit_code {σ ε : Type} (env : Env σ) (table : List (benchmark_data_t σ ε)) :
    (env.fopen = none →
      (main env table).status = .returned 1 ∧ calls (main env table).out = [] ∧
      NoResult (main env table).out) ∧
    (∀ input, env.fopen = some input → NoFatal (main env table).out →
      (main env table).status = .returned 0 ∧
      calls (main env table).out = trial_ids table 0) := by
  constructor
  · intro h
    unfold main
    rw [h]
    exact ⟨rfl, rfl, fun _ _ _ hm => by simp at hm⟩
  · intro input hopen hnf
    rcases main_opened env table input hopen with ⟨evs, h1, h2, _, h4⟩ | h
    · rw [h1]; exact ⟨h2, h4⟩
    · obtain ⟨evs, e, t, kevs, f, rest, h1, _⟩ := h
      exact absurd (by rw [h1]; simp) (hnf f)

theorem main_exit_code_witness :
    (closed_env.fopen = none ∧ (main closed_env steady_table).status = .returned 1) ∧
    (demo_env.fopen = some 0 ∧ NoFatal (main demo_env steady_table).out ∧
      (main demo_env steady_table).status = .returned 0 ∧
      calls (main demo_env steady_table).out = [(0, 0), (0, 1), (1, 0)]) :=
  have hnf : NoFatal (main demo_env steady_table).out := by
    intro f
    cases f
    decide
  ⟨⟨rfl, ((main_exit_code closed_env steady_table).1 rfl).1⟩,
   rfl, hnf, (main_exit_code demo_env steady_table).2 0 rfl hnf⟩

theorem fatal_is_last {σ ε : Type} (env : Env σ) (table : List (benchmark_data_t σ ε))
    (pre post : List (Event ε)) (f : ε)
    (h : (main env table).out = pre ++ Event.fatal f :: post) :
    post = [] ∧ (main env table).status = .exited f ∧ NoResult (main env table).out ∧
    ∃ (before : List (Event ε)) (e t : Nat) (kevs : List KernelEvent)
      (rest : List (Nat × Nat)),
      pre = before ++ Event.call e t :: kevs.map Event.kernel ∧
      calls (main env table).out = calls before ++ [(e, t)] ∧
      trial_ids table 0 = calls before ++ (e, t) :: rest := by
  cases hopen : env.fopen with
  | none =>
    have : (main env table).out = [.open_failed] := by unfold main; rw [hopen]
    rw [this] at h
    cases pre with
    | nil => simp at h
    | cons c pre => simp at h
  | some input =>
    rcases main_opened env table input hopen with ⟨evs, h1, _, h3, _⟩ | hs
    · exact absurd (by rw [← h1, h]; simp) (h3 f)
    · obtain ⟨evs, e, t, kevs, f0, rest, h1, h2, h3, h4, h5⟩ := hs
      have hX : Event.fatal f ∉
          ([.running table.length] ++ evs ++ Event.call e t :: kevs.map Event.kernel :
            List (Event ε)) := by
        simp only [List.mem_append, List.mem_cons, List.mem_singleton, List.mem_map, not_or]
        refine ⟨⟨by simp, h3 f⟩, by simp, ?_⟩
        rintro ⟨k, _, hk⟩
        cases hk
      have hout : (main env table).out =
          ([.running table.length] ++ evs ++ Event.call e t :: kevs.map Event.kernel) ++
            [Event.fatal f0] := by
        rw [h1]; simp
      obtain ⟨hp, hf, hpost⟩ := split_at_last _ (Event.fatal f0) (Event.fatal f) hX pre post
        (by rw [← hout, h])
      cases hf
      refine ⟨hpost, h2, ?_, [.running table.length] ++ evs, e, t, kevs, rest, hp, ?_, ?_⟩
      · rw [hout]
        intro n k r hm
        simp only [List.mem_append, List.mem_cons, List.mem_singleton, List.mem_map,
          List.not_mem_nil, or_false] at hm
        rcases hm with ((h | h) | h | ⟨k, _, h⟩) | h
        · cases h
        · exact h4 n k r h
        · cases h
        · cases h
        · cases h
      · rw [hout]
        simp [calls_append, calls, calls_kernel]
      · rw [h5]
        simp [calls_append, calls]

/-! ## main.c: the seeds and the correction factor -/

/-- C20: at a tick rate of 2000000, above 1000000, the code multiplies by the quotient
`1000000 / CLOCKS_PER_SEC`, which is 0: the tick difference 5 is recorded as 0 and not
as 5, and an entry whose trial took 5 ticks ends with total, minimum and maximum 0. -/
theorem normalise_finer_clock :
    (2000000 : Int) ≥ 1000000 ∧ normalise 64 2000000 5 = 0 ∧ normalise 64 2000000 5 ≠ 5 ∧
    fine_env.clock 1 - fine_env.clock 0 = 5 ∧ elapsed fine_env 0 0 = 0 ∧
    (end_state (run_entry fine_env ⟨steady, "first", 1⟩ 0 demo_start)).results 0 =
      ⟨0, 0, 0⟩ := by
  decide

/-- C11 (as amended): before the first trial of an entry its result is total 0,
minimum 2147483647 and maximum -2147483648, the extremes of a 32-bit signed integer;
these are the extremes of `clock_t` exactly when `clock_t` is 32 bits wide. An entry
with iteration count 0 ends with that result, calls no kernel and prints its name only. -/
theorem reset_seeds {σ ε : Type} (env : Env σ) (b : benchmark_data_t σ ε) (i : Nat)
    (st : HState σ ε) :
    ((start_entry b i st).results i = reset ∧
      reset.time_total = 0 ∧ reset.time_min = 2147483647 ∧ reset.time_max = -2147483648) ∧
    (∀ bits : Nat, 0 < bits →
      ((reset.time_min = clock_t_max bits ∧ reset.time_max = clock_t_min bits) ↔ bits = 32)) ∧
    (b.iterations = 0 →
      ∃ st1, run_entry env b i st = .ok st1 ∧ st1.results i = reset ∧
        (st1.results i).time_total = 0 ∧
        st1.out = st.out ++ [.running_benchmark b.name] ∧
        calls [(.running_benchmark b.name : Event ε)] = []) := by
  refine ⟨⟨by simp [start_entry], rfl, rfl, rfl⟩, ?_, ?_⟩
  · intro bits hb
    constructor
    · rintro ⟨h, _⟩
      have h2 : (2 : Int) ^ (bits - 1) = 2 ^ 31 := by
        simp only [reset, clock_t_max] at h
        have : (2 : Int) ^ 31 = 2147483648 := by norm_num
        omega
      have h3 : bits - 1 = 31 := Int.pow_right_injective (by norm_num) h2
      omega
    · rintro rfl
      constructor <;> simp [reset, clock_t_max, clock_t_min]
  · intro h0
    refine ⟨start_entry b i st, ?_, by simp [start_entry], by simp [start_entry, reset], rfl, rfl⟩
    unfold run_entry
    rw [h0]
    rfl

theorem reset_seeds_witness :
    (⟨steady, "idle", 0⟩ : benchmark_data_t Nat Unit).iterations = 0 ∧
    ∃ st1, run_entry demo_env ⟨steady, "idle", 0⟩ 4 demo_start = .ok st1 ∧
      st1.results 4 = reset ∧ (st1.results 4).time_total = 0 ∧
      st1.out = demo_start.out ++ [.running_benchmark "idle"] ∧
      calls [(.running_benchmark "idle" : Event Unit)] = [] :=
  ⟨rfl, (reset_seeds demo_env ⟨steady, "idle", 0⟩ 4 demo_start).2.2 rfl⟩

/-- C11 fails as stated: when `clock_t` is 64 bits wide the seeds are not its extremes;
2147483648 is a value of the type above the seed of the minimum, and once it is recorded
the minimum is still the seed. -/
theorem reset_not_extreme :
    reset.time_min ≠ clock_t_max 64 ∧ reset.time_max ≠ clock_t_min 64 ∧
    reset.time_min < 2147483648 ∧ 2147483648 ≤ clock_t_max 64 ∧
    (record 64 reset 2147483648).time_min = 2147483647 := by
  decide

/-! ## matrix.c: determinism -/

theorem foldl_fst_congr {S T X : Type} (F : S × T → X → S × T) (f : S → X → S)
    (h : ∀ p x, (F p x).1 = f p.1 x) (l : List X) (p : S × T) :
    (l.foldl F p).1 = l.foldl f p.1 := by
  induction l generalizing p with
  | nil => rfl
  | cons x l ih => simp only [List.foldl_cons]; rw [ih, h]

theorem benchmark_matrix_acc_fst {R : Type} [Zero R] [Add R] [Mul R] (N M : Nat)
    (A B C : Nat → R) (r : R) :
    (benchmark_matrix_acc N M A B C r).1 = benchmark_matrix N M A B C := by
  unfold benchmark_matrix_acc benchmark_matrix
  apply foldl_fst_congr
  intro p i
  apply foldl_fst_congr
  intro q j
  rfl

theorem matrix_dot_congr {R : Type} [Zero R] [Add R] [Mul R] (N M : Nat)
    (A1 A2 B1 B2 : Nat → R) (hA : ∀ p, p < N * M → A1 p = A2 p)
    (hB : ∀ p, p < M * N → B1 p = B2 p) (i j : Nat) (hi : i < N) (hj : j < N) :
    matrix_dot N M A1 B1 i j = matrix_dot N M A2 B2 i j := by
  unfold matrix_dot
  have key : ∀ (l : List Nat) (acc : R), (∀ k ∈ l, k < M) →
      l.foldl (fun result k => result + A1 (k + i * M) * B1 (j + k * N)) acc =
      l.foldl (fun result k => result + A2 (k + i * M) * B2 (j + k * N)) acc := by
    intro l
    induction l with
    | nil => intro acc _; rfl
    | cons k l ih =>
      intro acc hl
      have hk : k < M := hl k (List.mem_cons_self _ _)
      have h1 : k + i * M < N * M := by
        have : (i + 1) * M ≤ N * M := Nat.mul_le_mul_right M hi
        rw [Nat.add_mul, Nat.one_mul] at this
        omega
      have h2 : j + k * N < M * N := by
        have : (k + 1) * N ≤ M * N := Nat.mul_le_mul_right N hk
        rw [Nat.add_mul, Nat.one_mul] at this
        omega
      simp only [List.foldl_cons]
      rw [hA _ h1, hB _ h2]
      exact ih _ (fun k hk => hl k (List.mem_cons_of_mem _ hk))
  exact key _ _ (fun k hk => List.mem_range.1 hk)

/-- C12: two runs of `benchmark_matrix` on matrices `A` and `B` with the same entries
leave the same value in each of the `N * N` cells of `C`, whatever `C` and the
accumulator `result` held before each run; each cell is overwritten with its dot product. -/
theorem benchmark_matrix_deterministic {R : Type} [Zero R] [Add R] [Mul R] (N M : Nat)
    (A1 A2 B1 B2 : Nat → R) (hA : ∀ p, p < N * M → A1 p = A2 p)
    (hB : ∀ p, p < M * N → B1 p = B2 p) (C1 C2 : Nat → R) (r1 r2 : R) (p : Nat)
    (hp : p < N * N) :
    (benchmark_matrix_acc N M A1 B1 C1 r1).1 p = (benchmark_matrix_acc N M A2 B2 C2 r2).1 p ∧
    (benchmark_matrix_acc N M A1 B1 C1 r1).1 p = matrix_dot N M A1 B1 (p / N) (p % N) ∧
    benchmark_matrix N M A1 B1 C1 p = (benchmark_matrix_acc N M A1 B1 C1 r1).1 p := by
  have hN : 0 < N := by
    rcases Nat.eq_zero_or_pos N with h | h
    · subst h; simp at hp
    · exact h
  have hi : p / N < N := Nat.div_lt_of_lt_mul hp
  have hj : p % N < N := Nat.mod_lt _ hN
  have hpe : p % N + p / N * N = p := by
    rw [Nat.mul_comm]; exact Nat.mod_add_div p N
  have e1 := benchmark_matrix_entry N M A1 B1 C1 (p / N) (p % N) hi hj
  have e2 := benchmark_matrix_entry N M A2 B2 C2 (p / N) (p % N) hi hj
  rw [hpe] at e1 e2
  rw [benchmark_matrix_acc_fst, benchmark_matrix_acc_fst, e1, e2]
  exact ⟨matrix_dot_congr N M A1 A2 B1 B2 hA hB _ _ hi hj, rfl, rfl⟩

theorem benchmark_matrix_deterministic_witness :
    (∀ p, p < 2 * 2 → (fun p => ([1, 2, 3, 4] : List Int).getD p 0) p =
      (fun p => ([1, 2, 3, 4, 9] : List Int).getD p 0) p) ∧
    (benchmark_matrix_acc 2 2 (fun p => ([1, 2, 3, 4] : List Int).getD p 0)
        (fun p => ([5, 6, 7, 8] : List Int).getD p 0) (fun _ => 0) 0).1 3 =
      (benchmark_matrix_acc 2 2 (fun p => ([1, 2, 3, 4, 9] : List Int).getD p 0)
        (fun p => ([5, 6, 7, 8] : List Int).getD p 0) (fun p => p) 77).1 3 :=
  have hA : ∀ p, p < 2 * 2 → (fun p => ([1, 2, 3, 4] : List Int).getD p 0) p =
      (fun p => ([1, 2, 3, 4, 9] : List Int).getD p 0) p := by decide
  ⟨hA, (benchmark_matrix_deterministic 2 2 _ _ _ _ hA (fun _ _ => rfl) (fun _ => 0)
    (fun p => p) 0 77 3 (by decide)).1⟩

/-! ## qsort.c: the partition -/

theorem partition_spec {α : Type} (gt : α → α → Bool) (m : Mem α) (left right : Int)
    (hlt : left < right) (hv : ValidOn m left right) :
    ∃ (last : Int) (σ : Equiv.Perm Int) (p : α),
      partition gt m left right = .ok (last, fun j => m (σ j)) ∧
      FixesOutside σ left right ∧ left ≤ last ∧ last ≤ right ∧
      m (Int.tdiv (left + right) 2) = some p ∧ m (σ last) = some p ∧
      (∀ k x, left ≤ k → k < last → m (σ k) = some x → gt p x = true) ∧
      (∀ k x, last < k → k ≤ right → m (σ k) = some x → gt p x = false) := by
  obtain ⟨hmid1, hmid2⟩ := tdiv_two_mem hlt
  have hf1 : FixesOutside (Equiv.swap left (Int.tdiv (left + right) 2)) left right :=
    FixesOutside.swap (le_refl _) (by omega) hmid1 hmid2
  have hv1 := hv.perm hf1 (le_refl _) (le_refl _)
  obtain ⟨p, hp⟩ := Option.isSome_iff_exists.1 (hv1 left (le_refl _) (by omega))
  have hp1 : m (Equiv.swap left (Int.tdiv (left + right) 2) left) = some p := hp
  obtain ⟨last, σ2, hs, hf2, hl1, hl2, hlo, hhi⟩ :=
    scan_spec gt left right p (right - left).toNat (left + 1) left _ hv1 hp
      (by omega) (by omega) (le_refl _) (by omega) (by omega)
      (by intro k x h1 h2; omega) (by intro k x h1 h2; omega)
  have hv2 := hv1.perm hf2 (by omega) (le_refl _)
  have hf3 : FixesOutside (Equiv.swap left last) left right :=
    FixesOutside.swap (le_refl _) (by omega) hl1 hl2
  refine ⟨last, Equiv.swap left (Int.tdiv (left + right) 2) * σ2 * Equiv.swap left last, p,
    ?_, (hf1.mul (hf2.mono (by omega) (le_refl _))).mul hf3, hl1, hl2, ?_, ?_, ?_, ?_⟩
  · unfold partition
    simp only [bind, Except.bind]
    rw [swap_eq m _ _ (hv left (le_refl _) (by omega)) (hv _ hmid1 hmid2)]
    simp only [hs]
    rw [swap_eq _ left last (hv2 left (le_refl _) (by omega)) (hv2 last hl1 hl2)]
    rfl
  · rw [Equiv.swap_apply_left] at hp1
    exact hp1
  · simp only [Equiv.Perm.mul_apply]
    rw [Equiv.swap_apply_right left last, hf2 left (by omega)]
    exact hp1
  · intro k x hk1 hk2 hx
    simp only [Equiv.Perm.mul_apply] at hx
    by_cases hkl : k = left
    · subst hkl
      rw [Equiv.swap_apply_left k last] at hx
      exact hlo last x (by omega) (le_refl _) hx
    · have e : Equiv.swap left last k = k := Equiv.swap_apply_of_ne_of_ne hkl (by omega)
      rw [e] at hx
      exact hlo k x (by omega) (by omega) hx
  · intro k x hk1 hk2 hx
    simp only [Equiv.Perm.mul_apply] at hx
    have e : Equiv.swap left last k = k :=
      Equiv.swap_apply_of_ne_of_ne (by omega) (by omega)
    rw [e] at hx
    exact hhi k x hk1 hk2 hx

theorem qsort_impl_fuel_succ {α : Type} (gt : α → α → Bool) (fuel : Nat) (m : Mem α)
    (left right : Int) (h : ¬ left ≥ right) :
    qsort_impl_fuel gt (fuel + 1) m left right =
      (partition gt m left right >>= fun r =>
        qsort_impl_fuel gt fuel r.2 left (r.1 - 1) >>= fun m4 =>
          qsort_impl_fuel gt fuel m4 (r.1 + 1) right) := by
  rw [qsort_impl_fuel]
  simp only [h, if_false, partition, bind, Except.bind]
  cases swap m left (Int.tdiv (left + right) 2) with
  | error e => rfl
  | ok m1 =>
    simp only
    cases scan gt left right (right - left).toNat (left + 1) left m1 with
    | error e => rfl
    | ok r =>
      simp only
      cases swap r.2 left r.1 with
      | error e => rfl
      | ok m3 => rfl

/-- C14 (as amended): for a range `left < right` over a total order, with `p` the
element first at index `(left + right) / 2`, after the scan and the last swap `p` is at
index `last`, every element at `left .. last-1` is strictly less than `p`, and every
element at `last+1 .. right` is at least `p`: the elements equal to `p` stay after it. -/
theorem partition_pivot {α : Type} [LinearOrder α] (m : Mem α) (left right : Int)
    (hlt : left < right) (hv : ValidOn m left right) :
    ∃ (last : Int) (m1 : Mem α) (p : α),
      partition (fun a b => decide (a > b)) m left right = .ok (last, m1) ∧
      m (Int.tdiv (left + right) 2) = some p ∧ left ≤ last ∧ last ≤ right ∧
      m1 last = some p ∧
      (∀ k, left ≤ k → k < last → ∃ x, m1 k = some x ∧ x < p) ∧
      (∀ k, last < k → k ≤ right → ∃ y, m1 k = some y ∧ p ≤ y) := by
  obtain ⟨last, σ, p, h1, h2, h3, h4, h5, h6, h7, h8⟩ :=
    partition_spec (fun a b : α => decide (a > b)) m left right hlt hv
  have hv1 := hv.perm h2 (le_refl _) (le_refl _)
  refine ⟨last, _, p, h1, h5, h3, h4, h6, ?_, ?_⟩
  · intro k hk1 hk2
    obtain ⟨x, hx⟩ := Option.isSome_iff_exists.1 (hv1 k hk1 (by omega))
    exact ⟨x, hx, by simpa using h7 k x hk1 hk2 hx⟩
  · intro k hk1 hk2
    obtain ⟨y, hy⟩ := Option.isSome_iff_exists.1 (hv1 k (by omega) hk2)
    exact ⟨y, hy, by simpa using h8 k y hk1 hk2 hy⟩

theorem partition_pivot_witness :
    (0 : Int) < 3 ∧ ValidOn (Mem.ofList [5, 2, 4, (1 : Int)]) 0 3 ∧
    ∃ (last : Int) (m1 : Mem Int) (p : Int),
      partition (fun a b => decide (a > b)) (Mem.ofList [5, 2, 4, 1]) 0 3 = .ok (last, m1) ∧
      Mem.ofList [5, 2, 4, (1 : Int)] (Int.tdiv (0 + 3) 2) = some p ∧ 0 ≤ last ∧ last ≤ 3 ∧
      m1 last = some p ∧
      (∀ k, 0 ≤ k → k < last → ∃ x, m1 k = some x ∧ x < p) ∧
      (∀ k, last < k → k ≤ 3 → ∃ y, m1 k = some y ∧ p ≤ y) :=
  ⟨by decide, validOn_ofList [5, 2, 4, 1],
   partition_pivot (Mem.ofList [5, 2, 4, 1]) 0 3 (by decide) (validOn_ofList [5, 2, 4, 1])⟩

/-- C14 fails as stated: on the array `[1, 1]` the pivot is 1 and ends at index 0, and
the element at index 1, which is not greater than the pivot, is not in the cells before
the pivot and is not strictly greater than it. -/
theorem partition_keeps_equal_after :
    (partition (fun a b : Int => decide (a > b)) (Mem.ofList [1, 1]) 0 1).map
      (fun r => (r.1, r.2.dump 2)) = .ok (0, [some 1, some 1]) ∧
    Mem.ofList [1, (1 : Int)] (Int.tdiv (0 + 1) 2) = some 1 ∧ ¬ ((1 : Int) > 1) := by
  decide

/-! ## qsort.c: termination -/

theorem rd_error {α : Type} (m : Mem α) (i : Int) (e : Fault) (h : rd m i = .error e) :
    e = .outOfBounds := by
  unfold rd at h
  cases hm : m i with
  | none => rw [hm] at h; cases h; rfl
  | some x => rw [hm] at h; cases h

theorem wr_error {α : Type} (m : Mem α) (i : Int) (v : α) (e : Fault)
    (h : wr m i v = .error e) : e = .outOfBounds := by
  unfold wr at h
  cases hm : m i with
  | none => rw [hm] at h; cases h; rfl
  | some x => rw [hm] at h; cases h

theorem swap_error {α : Type} (m : Mem α) (a b : Int) (e : Fault)
    (h : swap m a b = .error e) : e = .outOfBounds := by
  unfold swap at h
  simp only [bind, Except.bind] at h
  cases ha : rd m a with
  | error e1 => rw [ha] at h; cases h; exact rd_error m a _ ha
  | ok c =>
    rw [ha] at h
    cases hb : rd m b with
    | error e1 => rw [hb] at h; cases h; exact rd_error m b _ hb
    | ok vb =>
      rw [hb] at h
      simp only at h
      cases hw : wr m a vb with
      | error e1 => rw [hw] at h; cases h; exact wr_error m a _ _ hw
      | ok m1 =>
        rw [hw] at h
        exact wr_error m1 b _ _ h

theorem scan_last_bounds {α : Type} (gt : α → α → Bool) (left right : Int) (fuel : Nat) :
    ∀ (i last : Int) (m : Mem α) (last1 : Int) (m1 : Mem α),
      scan gt left right fuel i last m = .ok (last1, m1) →
      last ≤ last1 ∧ (i ≤ right + 1 → last1 - last ≤ right + 1 - i) := by
  induction fuel with
  | zero =>
    intro i last m last1 m1 h
    rw [scan] at h
    by_cases hir : i ≤ right
    · simp [hir] at h
    · simp only [hir, if_false] at h
      cases h
      exact ⟨le_refl _, fun _ => by omega⟩
  | succ n ih =>
    intro i last m last1 m1 h
    rw [scan] at h
    by_cases hir : i ≤ right
    · simp only [hir, if_true, bind, Except.bind] at h
      cases hp : rd m left with
      | error e => rw [hp] at h; cases h
      | ok p =>
        rw [hp] at h
        cases hx : rd m i with
        | error e => rw [hx] at h; cases h
        | ok x =>
          rw [hx] at h
          simp only at h
          cases hg : gt p x
          · simp only [hg, Bool.false_eq_true, if_false] at h
            have := ih _ _ _ _ _ h
            exact ⟨this.1, fun _ => by have := this.2 (by omega); omega⟩
          · simp only [hg, if_true] at h
            cases hs : swap m i (last + 1) with
            | error e => rw [hs] at h; cases h
            | ok m2 =>
              rw [hs] at h
              have := ih _ _ _ _ _ h
              exact ⟨by omega, fun _ => by have := this.2 (by omega); omega⟩
    · simp only [hir, if_false] at h
      cases h
      exact ⟨le_refl _, fun _ => by omega⟩

theorem scan_fuel_enough {α : Type} (gt : α → α → Bool) (left right : Int) (fuel : Nat) :
    ∀ (i last : Int) (m : Mem α), (right + 1 - i).toNat ≤ fuel →
      scan gt left right fuel i last m ≠ .error .outOfFuel := by
  induction fuel with
  | zero =>
    intro i last m hf
    have hir : ¬ i ≤ right := by omega
    rw [scan]
    simp [hir]
  | succ n ih =>
    intro i last m hf
    rw [scan]
    by_cases hir : i ≤ right
    · simp only [hir, if_true, bind, Except.bind]
      cases hp : rd m left with
      | error e =>
        intro he
        cases he
        have := rd_error m left _ hp
        cases this
      | ok p =>
        cases hx : rd m i with
        | error e =>
          intro he
          cases he
          have := rd_error m i _ hx
          cases this
        | ok x =>
          simp only
          cases hg : gt p x
          · simp only [Bool.false_eq_true, if_false]
            exact ih _ _ _ (by omega)
          · simp only [if_true]
            cases hs : swap m i (last + 1) with
            | error e =>
              intro he
              cases he
              have := swap_error m i (last + 1) _ hs
              cases this
            | ok m2 => exact ih _ _ _ (by omega)
    · simp [hir]

theorem partition_cases {α : Type} (gt : α → α → Bool) (m : Mem α) (left right : Int) :
    partition gt m left right = .error .outOfBounds ∨
    ∃ (last : Int) (m1 : Mem α), partition gt m left right = .ok (last, m1) ∧
      left ≤ last ∧ (left ≤ right → last ≤ right) := by
  unfold partition
  simp only [bind, Except.bind]
  cases h1 : swap m left (Int.tdiv (left + right) 2) with
  | error e => left; rw [swap_error _ _ _ _ h1]
  | ok m1 =>
    simp only
    cases h2 : scan gt left right (right - left).toNat (left + 1) left m1 with
    | error e =>
      left
      simp only
      have hne := scan_fuel_enough gt left right (right - left).toNat (left + 1) left m1
        (by omega)
      cases e with
      | outOfBounds => rfl
      | outOfFuel => exact absurd h2 hne
      | uninitialised =>
        exfalso
        have key : ∀ (fuel : Nat) (i last : Int) (m : Mem α),
            scan gt left right fuel i last m ≠ .error .uninitialised := by
          intro fuel
          induction fuel with
          | zero =>
            intro i last m
            rw [scan]
            split <;> simp
          | succ n ih =>
            intro i last m
            rw [scan]
            by_cases hir : i ≤ right
            · simp only [hir, if_true, bind, Except.bind]
              cases hp : rd m left with
              | error e => intro he; cases he; have := rd_error _ _ _ hp; cases this
              | ok p =>
                cases hx : rd m i with
                | error e => intro he; cases he; have := rd_error _ _ _ hx; cases this
                | ok x =>
                  simp only
                  cases hg : gt p x
                  · simp only [Bool.false_eq_true, if_false]; exact ih _ _ _
                  · simp only [if_true]
                    cases hs : swap m i (last + 1) with
                    | error e => intro he; cases he; have := swap_error _ _ _ _ hs; cases this
                    | ok m2 => exact ih _ _ _
            · simp [hir]
        exact key _ _ _ _ h2
    | ok r =>
      obtain ⟨last, m2⟩ := r
      simp only
      have hb := scan_last_bounds gt left right _ _ _ _ _ _ h2
      cases h3 : swap m2 left last with
      | error e => left; rw [swap_error _ _ _ _ h3]
      | ok m3 =>
        right
        exact ⟨last, m3, rfl, hb.1, fun h => by have := hb.2 (by omega); omega⟩

theorem qsort_fuel_enough {α : Type} (gt : α → α → Bool) (fuel : Nat) :
    ∀ (m : Mem α) (left right : Int), (right - left).toNat ≤ fuel →
      qsort_impl_fuel gt fuel m left right = .error .outOfBounds ∨
      ∃ m1, qsort_impl_fuel gt fuel m left right = .ok m1 := by
  induction fuel with
  | zero =>
    intro m left right hf
    right
    have hlr : left ≥ right := by omega
    exact ⟨m, by rw [qsort_impl_fuel]; simp [hlr]⟩
  | succ n ih =>
    intro m left right hf
    by_cases hlr : left ≥ right
    · right
      exact ⟨m, by rw [qsort_impl_fuel]; simp [hlr]⟩
    · rw [qsort_impl_fuel_succ gt n m left right hlr]
      rcases partition_cases gt m left right with h | ⟨last, m1, h, h1, h2⟩
      · left; rw [h]; rfl
      · rw [h]
        simp only [bind, Except.bind]
        rcases ih m1 left (last - 1) (by have := h2 (by omega); omega) with h3 | ⟨m2, h3⟩
        · left; rw [h3]
        · rw [h3]
          simp only
          exact ih m2 (last + 1) right (by omega)

/-- C16: `qsort_impl` returns at once when `left >= right`; otherwise it partitions and
calls itself on `[left, last-1]` and `[last+1, right]` with `left <= last <= right`, two
ranges strictly shorter than `[left, right]`; so for every array and every pair
`(left, right)` the call ends, within a recursion depth of `right - left`: it returns an
array, or it stops at an access outside the array. -/
theorem qsort_impl_terminates {α : Type} (gt : α → α → Bool) (m : Mem α) (left right : Int) :
    (left ≥ right → ∀ fuel, qsort_impl_fuel gt fuel m left right = .ok m) ∧
    (¬ left ≥ right → ∀ fuel, qsort_impl_fuel gt (fuel + 1) m left right =
      (partition gt m left right >>= fun r =>
        qsort_impl_fuel gt fuel r.2 left (r.1 - 1) >>= fun m4 =>
          qsort_impl_fuel gt fuel m4 (r.1 + 1) right)) ∧
    (¬ left ≥ right → ∀ last m1, partition gt m left right = .ok (last, m1) →
      left ≤ last ∧ last ≤ right ∧
      (last - 1 - left).toNat < (right - left).toNat ∧
      (right - (last + 1)).toNat < (right - left).toNat) ∧
    (qsort_impl gt m left right = .error .outOfBounds ∨
      ∃ m1, qsort_impl gt m left right = .ok m1) ∧
    (ValidOn m left right → ∃ m1, qsort_impl gt m left right = .ok m1) := by
  refine ⟨?_, ?_, ?_, ?_, ?_⟩
  · intro h fuel
    cases fuel <;> (rw [qsort_impl_fuel]; simp [h])
  · intro h fuel
    exact qsort_impl_fuel_succ gt fuel m left right h
  · intro h last m1 hp
    rcases partition_cases gt m left right with h1 | ⟨last1, m2, h1, h2, h3⟩
    · rw [h1] at hp; cases hp
    · rw [h1] at hp
      cases hp
      have := h3 (by omega)
      refine ⟨h2, this, by omega, by omega⟩
  · exact qsort_fuel_enough gt _ m left right (le_refl _)
  · intro hv
    obtain ⟨σ, h, _⟩ := qsort_impl_spec gt m left right hv
    exact ⟨_, h⟩

theorem qsort_impl_terminates_witness :
    ((3 : Int) ≥ 0 ∧
      qsort_impl_fuel (fun a b : Int => decide (a > b)) 0 (Mem.ofList [5, 2, 4, 1]) 3 0 =
        .ok (Mem.ofList [5, 2, 4, 1])) ∧
    (ValidOn (Mem.ofList [5, 2, 4, (1 : Int)]) 0 3 ∧
      ∃ m1, qsort_impl (fun a b : Int => decide (a > b)) (Mem.ofList [5, 2, 4, 1]) 0 3 =
        .ok m1) :=
  ⟨⟨by decide,
    (qsort_impl_terminates (fun a b : Int => decide (a > b)) (Mem.ofList [5, 2, 4, 1]) 3 0).1
      (by decide) 0⟩,
   validOn_ofList [5, 2, 4, 1],
   (qsort_impl_terminates (fun a b : Int => decide (a > b))
      (Mem.ofList [5, 2, 4, 1]) 0 3).2.2.2.2 (validOn_ofList [5, 2, 4, 1])⟩

/-! ## qsort.c: permutation -/

theorem dump_eq {α : Type} (m : Mem α) (n : Nat) :
    m.dump n = (List.range n).map (fun k : Nat => m (k : Int)) := by
  unfold Mem.dump
  induction (List.range n) with
  | nil => rfl
  | cons a l ih =>
    simp only [List.map_cons]
    rw [← ih]
    rfl

theorem range_map_perm (n : Nat) (σ : Equiv.Perm Int) (hσ : FixesOutside σ 0 ((n : Int) - 1)) :
    ((List.range n).map (fun k : Nat => (σ (k : Int)).toNat)).Perm (List.range n) := by
  apply (List.perm_ext_iff_of_nodup ?_ (List.nodup_range n)).2
  · intro a
    simp only [List.mem_map, List.mem_range]
    constructor
    · rintro ⟨k, hk, rfl⟩
      have := hσ.mem (k : Int) (by omega) (by omega)
      omega
    · intro ha
      have hinv : FixesOutside σ⁻¹ 0 ((n : Int) - 1) := by
        intro j hj
        have := hσ j hj
        rw [Equiv.Perm.inv_eq_iff_eq]
        exact this.symm
      have := hinv.mem (a : Int) (by omega) (by omega)
      refine ⟨(σ⁻¹ (a : Int)).toNat, by omega, ?_⟩
      have e : (((σ⁻¹ (a : Int)).toNat : Nat) : Int) = σ⁻¹ (a : Int) := by omega
      rw [e, Equiv.Perm.apply_inv_self]
      simp
  · apply List.Nodup.map_on _ (List.nodup_range n)
    intro x hx y hy hxy
    have hx1 := hσ.mem (x : Int) (by omega) (by have := List.mem_range.1 hx; omega)
    have hy1 := hσ.mem (y : Int) (by omega) (by have := List.mem_range.1 hy; omega)
    have : σ (x : Int) = σ (y : Int) := by omega
    have := σ.injective this
    omega

theorem dump_ofList {α : Type} (l : List α) : (Mem.ofList l).dump l.length = l.map some := by
  rw [dump_eq]
  apply List.ext_getElem
  · simp
  · intro k h1 h2
    simp only [List.getElem_map, List.getElem_range]
    rw [ofList_cell]
    simp only [List.length_map, List.length_range] at h1
    simp [h1]

theorem dump_perm {α : Type} (l : List α) (σ : Equiv.Perm Int)
    (hσ : FixesOutside σ 0 ((l.length : Int) - 1)) :
    (Mem.dump (fun j => Mem.ofList l (σ j)) l.length).Perm (l.map some) := by
  have h1 : Mem.dump (fun j => Mem.ofList l (σ j)) l.length =
      ((List.range l.length).map (fun k : Nat => (σ (k : Int)).toNat)).map
        (fun k : Nat => Mem.ofList l (k : Int)) := by
    rw [dump_eq]
    simp only [List.map_map]
    apply List.map_congr_left
    intro k hk
    have := hσ.mem (k : Int) (by omega) (by have := List.mem_range.1 hk; omega)
    simp only [Function.comp]
    congr 1
    omega
  rw [h1, ← dump_ofList l, dump_eq]
  exact (range_map_perm l.length σ hσ).map _

/-- C15: for every array and every comparison, `qsort_impl(0, n-1)` returns, and the
`n` cells it leaves are a permutation of the `n` cells it was given: the same values
with the same multiplicities, none created, dropped or duplicated; nothing outside the
array is touched. -/
theorem qsort_impl_perm {α : Type} (gt : α → α → Bool) (l : List α) :
    ∃ m : Mem α,
      qsort_impl gt (Mem.ofList l) 0 ((l.length : Int) - 1) = .ok m ∧
      (m.dump l.length).Perm (l.map some) ∧
      (m.dump l.length).length = l.length ∧
      ∀ k : Int, (k < 0 ∨ (l.length : Int) ≤ k) → m k = none := by
  obtain ⟨σ, h1, h2, _⟩ :=
    qsort_impl_spec gt (Mem.ofList l) 0 ((l.length : Int) - 1) (validOn_ofList l)
  refine ⟨_, h1, dump_perm l σ h2, by rw [dump_eq]; simp, ?_⟩
  intro k hk
  show Mem.ofList l (σ k) = none
  rw [h2 k (by omega)]
  unfold Mem.ofList
  rcases hk with hk | hk
  · rw [if_neg (by omega)]
  · rw [if_pos (by omega)]
    apply List.getElem?_eq_none
    omega

/-! ## qsort.c: values that do not compare -/

theorem sortable_gt_nan {β : Type} [LinearOrder β] :
    Sortable (gt_nan : Option β → Option β → Bool) := by
  constructor
  · intro a b h
    cases a <;> cases b <;> simp_all [gt_nan]
    exact le_of_lt h
  · intro p x y h1 h2
    cases p <;> cases x <;> cases y <;> simp_all [gt_nan]
    exact le_of_lt (lt_of_lt_of_le h1 h2)

/-- C17: for every array, with values that compare false with everything (NaN)
among the others, `qsort_impl(0, n-1)` returns and leaves no two indices `i < j` with
`a[i] > a[j]`; the scan of `benchmark_qsort` then finds nothing and the kernel returns
the sorted array. -/
theorem qsort_impl_sorted_nan {β : Type} [LinearOrder β] (l : List (Option β)) :
    ∃ m : Mem (Option β),
      qsort_impl gt_nan (Mem.ofList l) 0 ((l.length : Int) - 1) = .ok m ∧
      (∀ i j : Nat, i < j → j < l.length →
        ∃ x y, m (i : Int) = some x ∧ m (j : Int) = some y ∧ gt_nan x y = false) ∧
      check_sorted gt_nan l.length m = .ok () ∧
      benchmark_qsort gt_nan l = .ok m := by
  obtain ⟨σ, h1, h2, h3⟩ :=
    qsort_impl_spec (gt_nan : Option β → Option β → Bool) (Mem.ofList l) 0
      ((l.length : Int) - 1) (validOn_ofList l)
  have hv := (validOn_ofList l).perm h2 (le_refl _) (le_refl _)
  have hs := h3 sortable_gt_nan
  have hpair : ∀ i j : Nat, i < j → j < l.length →
      ∃ x y, (fun k => Mem.ofList l (σ k)) (i : Int) = some x ∧
        (fun k => Mem.ofList l (σ k)) (j : Int) = some y ∧ gt_nan x y = false := by
    intro i j hij hj
    obtain ⟨x, hx⟩ := Option.isSome_iff_exists.1 (hv (i : Int) (by omega) (by omega))
    obtain ⟨y, hy⟩ := Option.isSome_iff_exists.1 (hv (j : Int) (by omega) (by omega))
    exact ⟨x, y, hx, hy, hs i j x y (by omega) (by omega) (by omega) hx hy⟩
  have hcheck : check_sorted gt_nan l.length (fun k => Mem.ofList l (σ k)) = .ok () := by
    unfold check_sorted
    rcases check_loop_spec gt_nan l.length (fun k => Mem.ofList l (σ k))
        (fun k hk => hv (k : Int) (by omega) (by omega)) l.length 0 none (by omega)
        (fun h => absurd rfl h) with ⟨h, _⟩ | ⟨k, x, y, _, _, hk2, hk3, hx, hy, hxy, _⟩
    · exact h
    · exfalso
      have := hs ((k : Int) - 1) k x y (by omega) (by omega) (by omega) hx hy
      rw [this] at hxy
      cases hxy
  refine ⟨_, h1, hpair, hcheck, ?_⟩
  unfold benchmark_qsort
  simp only [h1, liftFault, bind, Except.bind, hcheck]
  rfl

theorem qsort_impl_sorted_nan_witness :
    (benchmark_qsort gt_nan [some 2, none, some (1 : Int), none, some 0]).map
      (fun m => m.dump 5) = .ok [some (some 0), some (some 1), some none, some (some 2), some none] ∧
    ∃ m : Mem (Option Int),
      qsort_impl gt_nan (Mem.ofList [some 2, none, some (1 : Int), none, some 0]) 0
        ((([some 2, none, some (1 : Int), none, some 0] : List (Option Int)).length : Int) - 1)
        = .ok m ∧
      (∀ i j : Nat, i < j →
        j < ([some 2, none, some (1 : Int), none, some 0] : List (Option Int)).length →
        ∃ x y, m (i : Int) = some x ∧ m (j : Int) = some y ∧ gt_nan x y = false) ∧
      check_sorted gt_nan
        ([some 2, none, some (1 : Int), none, some 0] : List (Option Int)).length m = .ok () ∧
      benchmark_qsort gt_nan [some 2, none, some (1 : Int), none, some 0] = .ok m :=
  ⟨by decide, qsort_impl_sorted_nan [some 2, none, some (1 : Int), none, some 0]⟩

/-! ## main.c: the schedule -/

theorem seeks_calls_append {ε : Type} (a b : List (Event ε)) :
    seeks_calls (a ++ b) = seeks_calls a ++ seeks_calls b := by
  induction a with
  | nil => rfl
  | cons e a ih => cases e <;> simp [seeks_calls, ih]

theorem seeks_calls_kernel {ε : Type} (k : List KernelEvent) :
    seeks_calls (k.map (Event.kernel : KernelEvent → Event ε)) = [] := by
  induction k with
  | nil => rfl
  | cons e k ih => simp [seeks_calls, ih]

theorem seek_schedule_add {σ : Type} (env : Env σ) (a : Nat) :
    ∀ (k b : Nat), seek_schedule env k (a + b) =
      seek_schedule env k a ++ seek_schedule env (k + a) b := by
  induction a with
  | zero => intro k b; simp [seek_schedule]
  | succ n ih =>
    intro k b
    have e : n + 1 + b = (n + b) + 1 := by omega
    rw [e, seek_schedule, seek_schedule, ih (k + 1) b]
    have e2 : k + 1 + n = k + (n + 1) := by omega
    rw [e2]
    rfl

theorem trial_shape {σ ε : Type} (env : Env σ) (b : benchmark_data_t σ ε) (i j : Nat)
    (st : HState σ ε) :
    (∃ (st1 : HState σ ε) (input : σ),
      (b.benchmark (env.fseek st.input (env.rand st.rands % 134217728))).2 = .ok input ∧
      trial env b i j st = .ok st1 ∧
      st1.out = st.out ++ [.fseek (env.rand st.rands % 134217728),
          .progress j b.iterations, .clock (env.clock st.clocks), .call i j] ++
        (b.benchmark (env.fseek st.input (env.rand st.rands % 134217728))).1.map Event.kernel ++
        [.clock (env.clock (st.clocks + 1))] ∧
      st1.rands = st.rands + 1 ∧ st1.clocks = st.clocks + 2 ∧ st1.input = input) ∨
    (∃ (r : Run ε) (f : ε),
      (b.benchmark (env.fseek st.input (env.rand st.rands % 134217728))).2 = .error f ∧
      trial env b i j st = .error r ∧ r.status = .exited f ∧
      r.out = st.out ++ [.fseek (env.rand st.rands % 134217728),
          .progress j b.iterations, .clock (env.clock st.clocks), .call i j] ++
        (b.benchmark (env.fseek st.input (env.rand st.rands % 134217728))).1.map Event.kernel ++
        [.fatal f]) := by
  unfold trial
  simp only
  cases hk : (b.benchmark (env.fseek st.input (env.rand st.rands % 134217728))).2 with
  | error f => right; exact ⟨_, f, rfl, rfl, rfl, rfl⟩
  | ok inp => left; exact ⟨_, inp, rfl, rfl, rfl, rfl, rfl, rfl⟩

theorem run_trials_seeks {σ ε : Type} (env : Env σ) (b : benchmark_data_t σ ε) (i : Nat)
    (count : Nat) : ∀ (j : Nat) (st st1 : HState σ ε),
      run_trials env b i count j st = .ok st1 →
      st1.rands = st.rands + count ∧
      seeks_calls st1.out = seeks_calls st.out ++ seek_schedule env st.rands count := by
  induction count with
  | zero =>
    intro j st st1 h
    rw [run_trials] at h
    cases h
    simp [seek_schedule]
  | succ n ih =>
    intro j st st1 h
    rw [run_trials] at h
    rcases trial_shape env b i j st with ⟨st2, inp, _, h2, h3, h4, _, _⟩ | ⟨r, f, _, h2, _, _⟩
    · rw [h2] at h
      obtain ⟨g1, g2⟩ := ih (j + 1) st2 st1 h
      refine ⟨by omega, ?_⟩
      rw [g2, h3, h4, seek_schedule]
      simp [seeks_calls_append, seeks_calls_kernel, seeks_calls]
    · rw [h2] at h
      cases h

theorem run_entries_seeks {σ ε : Type} (env : Env σ) (table : List (benchmark_data_t σ ε)) :
    ∀ (i : Nat) (st st1 : HState σ ε),
      run_entries env table i st = .ok st1 →
      st1.rands = st.rands + (table.map (fun b => b.iterations)).sum ∧
      seeks_calls st1.out = seeks_calls st.out ++
        seek_schedule env st.rands (table.map (fun b => b.iterations)).sum := by
  induction table with
  | nil =>
    intro i st st1 h
    rw [run_entries] at h
    cases h
    simp [seek_schedule]
  | cons b rest ih =>
    intro i st st1 h
    rw [run_entries] at h
    cases h2 : run_entry env b i st with
    | error r => rw [h2] at h; cases h
    | ok st2 =>
      rw [h2] at h
      unfold run_entry at h2
      obtain ⟨g1, g2⟩ := run_trials_seeks env b i b.iterations 0 _ _ h2
      obtain ⟨g3, g4⟩ := ih (i + 1) st2 st1 h
      have e1 : (start_entry b i st).rands = st.rands := rfl
      have e2 : seeks_calls (start_entry b i st).out = seeks_calls st.out := by
        simp [start_entry, seeks_calls_append, seeks_calls]
      rw [e1] at g1 g2
      rw [e2] at g2
      simp only [List.map_cons, List.sum_cons]
      refine ⟨by omega, ?_⟩
      rw [g4, g2, g1, seek_schedule_add, List.append_assoc]

theorem report_seeks {σ ε : Type} (results : Nat → benchmark_result_t)
    (table : List (benchmark_data_t σ ε)) : ∀ i : Nat,
      seeks_calls (report results table i : List (Event ε)) = [] := by
  induction table with
  | nil => intro i; rfl
  | cons b rest ih => intro i; simp [report, seeks_calls, ih]

theorem main_completed {σ ε : Type} (env : Env σ) (table : List (benchmark_data_t σ ε))
    (input : σ) (hopen : env.fopen = some input) (hnf : NoFatal (main env table).out) :
    ∃ st1, run_entries env table 0
        { input := input, rands := 0, clocks := 0, out := [.running table.length],
          results := fun _ => ⟨0, 0, 0⟩ } = .ok st1 ∧
      main env table =
        { out := st1.out ++ [.fclose, .results_header] ++ report st1.results table 0,
          status := .returned 0 } := by
  cases hrun : run_entries env table 0
      { input := input, rands := 0, clocks := 0, out := [.running table.length],
        results := fun _ => ⟨0, 0, 0⟩ } with
  | ok st1 =>
    refine ⟨st1, rfl, ?_⟩
    simp only [main, hopen, hrun]
  | error r =>
    exfalso
    have hm : main env table = r := by simp only [main, hopen, hrun]
    rcases run_entries_spec env table 0
      { input := input, rands := 0, clocks := 0, out := [.running table.length],
        results := fun _ => ⟨0, 0, 0⟩ } with ⟨st1, evs, h1, _, _⟩ | ⟨r1, h1, h2⟩
    · rw [hrun] at h1; cases h1
    · rw [hrun] at h1
      cases h1
      obtain ⟨evs, e, t, kevs, f, rest, g1, _⟩ := h2
      exact absurd (by rw [hm, g1]; simp) (hnf f)

theorem trial_ids_benchmarks {σ ε : Type} (k0 k1 k2 k3 : benchmark_t σ ε) :
    trial_ids (benchmarks k0 k1 k2 k3) 0 =
      (List.range 100).map (fun j => (0, j)) ++ (List.range 100).map (fun j => (1, j)) ++
      (List.range 100).map (fun j => (2, j)) ++ (List.range 100).map (fun j => (3, j)) := by
  simp [benchmarks, trial_ids, ITERATIONS_MATRIX, ITERATIONS_CRC32, ITERATIONS_AES,
    ITERATIONS_QSORT]

theorem seek_schedule_bound {σ : Type} (env : Env σ) (n : Nat) :
    ∀ (k : Nat) (offset : Nat), some offset ∈ seek_schedule env k n → offset < 134217728 := by
  induction n with
  | zero => intro k o h; simp [seek_schedule] at h
  | succ n ih =>
    intro k o h
    rw [seek_schedule] at h
    simp only [List.mem_cons, Option.some.injEq] at h
    rcases h with h | h | h
    · rw [h]; exact Nat.mod_lt _ (by decide)
    · cases h
    · exact ih _ _ h

/-- C18: when the input opens and no kernel fails, the kernel calls of the run are the
100 trials of entry 0 (matrix), then the 100 of entry 1 (CRC32), then the 100 of entry 2
(AES), then the 100 of entry 3 (quicksort), 400 in all; seeks and calls alternate, one
seek before each call, and every seek goes to an offset below 134217728. -/
theorem main_schedule {σ ε : Type} (env : Env σ)
    (benchmark_matrix benchmark_crc32 benchmark_aes benchmark_qsort : benchmark_t σ ε)
    (input : σ) (hopen : env.fopen = some input)
    (hnf : NoFatal (main env (benchmarks benchmark_matrix benchmark_crc32 benchmark_aes
      benchmark_qsort)).out) :
    calls (main env (benchmarks benchmark_matrix benchmark_crc32 benchmark_aes
        benchmark_qsort)).out =
      (List.range 100).map (fun j => (0, j)) ++ (List.range 100).map (fun j => (1, j)) ++
      (List.range 100).map (fun j => (2, j)) ++ (List.range 100).map (fun j => (3, j)) ∧
    (calls (main env (benchmarks benchmark_matrix benchmark_crc32 benchmark_aes
        benchmark_qsort)).out).length = 400 ∧
    seeks_calls (main env (benchmarks benchmark_matrix benchmark_crc32 benchmark_aes
        benchmark_qsort)).out = seek_schedule env 0 400 ∧
    ∀ offset, some offset ∈ seek_schedule env 0 400 → offset < 134217728 := by
  obtain ⟨st1, h1, h2⟩ := main_completed env _ input hopen hnf
  have hc : calls (main env (benchmarks benchmark_matrix benchmark_crc32 benchmark_aes
        benchmark_qsort)).out = trial_ids (benchmarks benchmark_matrix benchmark_crc32
          benchmark_aes benchmark_qsort) 0 := by
    rcases main_opened env _ input hopen with ⟨evs, g1, _, _, g4⟩ | g
    · rw [g1]; exact g4
    · obtain ⟨evs, e, t, kevs, f, rest, g1, _⟩ := g
      exact absurd (by rw [g1]; simp) (hnf f)
  obtain ⟨_, h4⟩ := run_entries_seeks env _ 0 _ _ h1
  refine ⟨by rw [hc, trial_ids_benchmarks], by rw [hc, trial_ids_benchmarks]; simp, ?_,
    seek_schedule_bound env 400 0⟩
  rw [h2]
  simp only [seeks_calls_append, h4, report_seeks]
  simp [seeks_calls, benchmarks, ITERATIONS_MATRIX, ITERATIONS_CRC32, ITERATIONS_AES,
    ITERATIONS_QSORT]

theorem run_trials_ok {σ ε : Type} (env : Env σ) (b : benchmark_data_t σ ε) (i : Nat)
    (hb : NeverFails b.benchmark) (count : Nat) : ∀ (j : Nat) (st : HState σ ε),
      ∃ st1, run_trials env b i count j st = .ok st1 := by
  induction count with
  | zero => intro j st; exact ⟨st, rfl⟩
  | succ n ih =>
    intro j st
    rw [run_trials]
    rcases trial_shape env b i j st with ⟨st2, inp, _, h2, _⟩ | ⟨r, f, h1, _⟩
    · rw [h2]
      exact ih (j + 1) st2
    · obtain ⟨s1, hs⟩ := hb (env.fseek st.input (env.rand st.rands % 134217728))
      rw [hs] at h1
      cases h1

theorem run_entries_ok {σ ε : Type} (env : Env σ) (table : List (benchmark_data_t σ ε))
    (ht : ∀ b ∈ table, NeverFails b.benchmark) : ∀ (i : Nat) (st : HState σ ε),
      ∃ st1, run_entries env table i st = .ok st1 := by
  induction table with
  | nil => intro i st; exact ⟨st, rfl⟩
  | cons b rest ih =>
    intro i st
    rw [run_entries]
    obtain ⟨st2, h2⟩ := run_trials_ok env b i (ht b (List.mem_cons_self _ _)) b.iterations 0
      (start_entry b i st)
    have h3 : run_entry env b i st = .ok st2 := h2
    rw [h3]
    exact ih (fun c hc => ht c (List.mem_cons_of_mem _ hc)) (i + 1) st2

theorem main_noFatal {σ ε : Type} (env : Env σ) (table : List (benchmark_data_t σ ε))
    (ht : ∀ b ∈ table, NeverFails b.benchmark) : NoFatal (main env table).out := by
  cases hopen : env.fopen with
  | none =>
    have : (main env table).out = [.open_failed] := by simp only [main, hopen]
    rw [this]
    intro f hf
    simp at hf
  | some input =>
    rcases main_opened env table input hopen with ⟨evs, h1, _, h3, _⟩ | hs
    · rw [h1]; exact h3
    · exfalso
      obtain ⟨st1, h1⟩ := run_entries_ok env table ht 0
        { input := input, rands := 0, clocks := 0, out := [.running table.length],
          results := fun _ => ⟨0, 0, 0⟩ }
      have hm : (main env table).status = .returned 0 := by simp only [main, hopen, h1]
      obtain ⟨evs, e, t, kevs, f, rest, _, g2, _⟩ := hs
      rw [g2] at hm
      cases hm

theorem steady_neverFails : NeverFails steady := fun s => ⟨s + 1, rfl⟩

theorem main_schedule_witness :
    demo_env.fopen = some 0 ∧
    NoFatal (main demo_env (benchmarks steady steady steady steady)).out ∧
    (calls (main demo_env (benchmarks steady steady steady steady)).out).length = 400 ∧
    seeks_calls (main demo_env (benchmarks steady steady steady steady)).out =
      seek_schedule demo_env 0 400 :=
  have hnf : NoFatal (main demo_env (benchmarks steady steady steady steady)).out :=
    main_noFatal demo_env _ (by
      intro b hb
      simp only [benchmarks, List.mem_cons, List.mem_singleton, List.not_mem_nil,
        or_false] at hb
      rcases hb with rfl | rfl | rfl | rfl <;> exact steady_neverFails)
  ⟨rfl, hnf, (main_schedule demo_env steady steady steady steady 0 rfl hnf).2.1,
    (main_schedule demo_env steady steady steady steady 0 rfl hnf).2.2.1⟩

/-! ## main.c: the timed region -/

/-- C19 (as amended): in every trial the seek is made before the start timestamp is
taken, and what lies between the start timestamp and the end of the trial (the end
timestamp, or the failure of the kernel) is the call of the kernel and the events of
that call, among them every input read of the trial and no seek; the quicksort kernel
makes one read in each of its calls. -/
theorem trial_timed_region {σ ε : Type} (env : Env σ) (b : benchmark_data_t σ ε) (i j : Nat)
    (st : HState σ ε) :
    (∃ last : Event ε,
      trial_out (trial env b i j st) =
        st.out ++ [.fseek (env.rand st.rands % 134217728), .progress j b.iterations,
          .clock (env.clock st.clocks)] ++
        (.call i j ::
          (b.benchmark (env.fseek st.input (env.rand st.rands % 134217728))).1.map
            Event.kernel) ++ [last] ∧
      (last = .clock (env.clock (st.clocks + 1)) ∨ ∃ f, last = .fatal f)) ∧
    (∀ offset, Event.fseek offset ∉
      (.call i j ::
        (b.benchmark (env.fseek st.input (env.rand st.rands % 134217728))).1.map
          Event.kernel : List (Event ε))) ∧
    (∀ (α : Type) (gt : α → α → Bool) (fread : σ → List α × σ) (s : σ),
      (qsort_kernel gt fread s).1 = [.fread 8]) := by
  refine ⟨?_, ?_, fun _ _ _ _ => rfl⟩
  · rcases trial_shape env b i j st with ⟨st1, inp, _, h2, h3, _⟩ | ⟨r, f, _, h2, _, h4⟩
    · refine ⟨.clock (env.clock (st.clocks + 1)), ?_, Or.inl rfl⟩
      rw [h2]
      simp only [trial_out, h3]
      simp
    · refine ⟨.fatal f, ?_, Or.inr ⟨f, rfl⟩⟩
      rw [h2]
      simp only [trial_out, h4]
      simp
  · intro offset h
    simp only [List.mem_cons, List.mem_map] at h
    rcases h with h | ⟨k, _, h⟩
    · cases h
    · cases h

/-- C19 fails as stated: in a trial of the quicksort kernel the read of the input is
made between the start timestamp `clock 0` and the end timestamp `clock 1`. -/
theorem read_inside_timed_region :
    trial_out (trial demo_env
        ⟨qsort_kernel (fun a b : Int => decide (a > b)) three_items,
          "Quicksort (750000 items)", 100⟩ 3 0 (blank_start (QsortStop Int))) =
      [.fseek 7, .progress 0 100, .clock 0, .call 3 0, .kernel (.fread 8), .clock 1] := by
  decide

/-! ## aes.c: the initialisation in a run -/

theorem aes_block_ops {Ctx Key Blk : Type} [DecidableEq Blk] (c : Cipher Ctx Key Blk)
    (i : Nat) (s : AesState Ctx Blk) :
    ∃ rest, (aes_state (aes_block c i s)).ops = s.ops ++ rest ∧ AesOp.init ∉ rest := by
  unfold aes_block
  simp only
  split
  · exact ⟨[.memcpy i, .encrypt i], by simp [aes_state], by simp⟩
  · split
    · exact ⟨[.memcpy i, .encrypt i, .decrypt i], by simp [aes_state], by simp⟩
    · split
      · exact ⟨[.memcpy i, .encrypt i, .decrypt i, .memcmp i], by simp [aes_state], by simp⟩
      · exact ⟨[.memcpy i, .encrypt i, .decrypt i, .memcmp i], by simp [aes_state], by simp⟩

theorem aes_loop_ops {Ctx Key Blk : Type} [DecidableEq Blk] (c : Cipher Ctx Key Blk)
    (n : Nat) : ∀ (i : Nat) (s : AesState Ctx Blk),
      ∃ rest, (aes_state (aes_loop c n i s)).ops = s.ops ++ rest ∧ AesOp.init ∉ rest := by
  induction n with
  | zero => intro i s; exact ⟨[], by simp [aes_loop, aes_state], by simp⟩
  | succ n ih =>
    intro i s
    rw [aes_loop]
    obtain ⟨r1, h1, h2⟩ := aes_block_ops c i s
    cases hb : aes_block c i s with
    | error e =>
      rw [hb] at h1
      exact ⟨r1, h1, h2⟩
    | ok s1 =>
      rw [hb] at h1
      simp only [bind, Except.bind]
      obtain ⟨r2, h3, h4⟩ := ih (i + 1) s1
      refine ⟨r1 ++ r2, ?_, ?_⟩
      · rw [h3]
        simp only [aes_state] at h1
        rw [h1, List.append_assoc]
      · simp only [List.mem_append, not_or]
        exact ⟨h2, h4⟩

theorem benchmark_aes_ops {Ctx Key Blk : Type} [DecidableEq Blk] (c : Cipher Ctx Key Blk)
    (aes_key : Key) (blocks : Nat) (data : Nat → Blk) (s : AesState Ctx Blk) :
    ∃ rest, (aes_state (benchmark_aes c aes_key blocks data s)).ops =
        s.ops ++ AesOp.init :: rest ∧ AesOp.init ∉ rest := by
  unfold benchmark_aes
  simp only
  split
  · exact ⟨[], by simp [aes_state], by simp⟩
  · obtain ⟨r, h1, h2⟩ := aes_loop_ops c blocks 0
      { aes_ctx := (c.aes256_init s.aes_ctx aes_key).2, plaintext := data,
        ciphertext := s.ciphertext, ops := s.ops ++ [.init] ++ [.fread] }
    refine ⟨.fread :: r, ?_, ?_⟩
    · rw [h1]; simp
    · simp only [List.mem_cons, not_or]
      exact ⟨by simp, h2⟩

theorem aes_kernel_count {S Ctx Key Blk ε : Type} [DecidableEq Blk] (c : Cipher Ctx Key Blk)
    (aes_key : Key) (blocks : Nat) (fread : S → (Nat → Blk) × S) (fail : AesFailure → ε)
    (w w1 : AesWorld S Ctx Blk)
    (h : (aes_kernel c aes_key blocks fread fail w).2 = .ok w1) :
    init_count w1 = init_count w + 1 := by
  obtain ⟨rest, h1, h2⟩ := benchmark_aes_ops c aes_key blocks (fread w.stream).1 w.aes
  unfold aes_kernel at h
  simp only at h
  cases hb : benchmark_aes c aes_key blocks (fread w.stream).1 w.aes with
  | error e => rw [hb] at h; cases h
  | ok a =>
    rw [hb] at h
    cases h
    rw [hb] at h1
    simp only [aes_state] at h1
    simp only [init_count, h1, List.count_append, List.count_cons_self,
      List.count_eq_zero_of_not_mem h2]

theorem run_trials_count {σ ε : Type} (env : Env σ) (b : benchmark_data_t σ ε) (i : Nat)
    (μ : σ → Nat) (δ : Nat) (hseek : ∀ s offset, μ (env.fseek s offset) = μ s)
    (hk : ∀ s s1, (b.benchmark s).2 = .ok s1 → μ s1 = μ s + δ) (count : Nat) :
    ∀ (j : Nat) (st st1 : HState σ ε), run_trials env b i count j st = .ok st1 →
      μ st1.input = μ st.input + count * δ := by
  induction count with
  | zero =>
    intro j st st1 h
    rw [run_trials] at h
    cases h
    simp
  | succ n ih =>
    intro j st st1 h
    rw [run_trials] at h
    rcases trial_shape env b i j st with ⟨st2, inp, h1, h2, _, _, _, h6⟩ | ⟨r, f, _, h2, _⟩
    · rw [h2] at h
      have := ih (j + 1) st2 st1 h
      rw [this, h6, hk _ _ h1, hseek, Nat.add_mul]
      omega
    · rw [h2] at h
      cases h

theorem run_entry_count {σ ε : Type} (env : Env σ) (b : benchmark_data_t σ ε) (i : Nat)
    (μ : σ → Nat) (δ : Nat) (hseek : ∀ s offset, μ (env.fseek s offset) = μ s)
    (hk : ∀ s s1, (b.benchmark s).2 = .ok s1 → μ s1 = μ s + δ)
    (st st1 : HState σ ε) (h : run_entry env b i st = .ok st1) :
    μ st1.input = μ st.input + b.iterations * δ :=
  run_trials_count env b i μ δ hseek hk b.iterations 0 (start_entry b i st) st1 h

theorem aes_kernel_init_fails {S Ctx Key Blk ε : Type} [DecidableEq Blk]
    (c : Cipher Ctx Key Blk) (aes_key : Key) (blocks : Nat) (fread : S → (Nat → Blk) × S)
    (fail : AesFailure → ε) (w : AesWorld S Ctx Blk)
    (h : (c.aes256_init w.aes.aes_ctx aes_key).1 ≠ c.AES_SUCCESS) :
    aes_kernel c aes_key blocks fread fail w = ([], .error (fail .init_failed)) := by
  unfold aes_kernel benchmark_aes
  simp only [h, ne_eq, not_false_eq_true, if_true]
  simp [aes_reads]

theorem run_entry_ok_out {σ ε : Type} (env : Env σ) (b : benchmark_data_t σ ε) (i : Nat)
    (hb : NeverFails b.benchmark) (st : HState σ ε) :
    ∃ st1, run_entry env b i st = .ok st1 ∧
      calls st1.out = calls st.out ++ (List.range b.iterations).map (fun j => (i, j)) := by
  obtain ⟨st1, h1⟩ := run_trials_ok env b i hb b.iterations 0 (start_entry b i st)
  have h2 : run_entry env b i st = .ok st1 := h1
  refine ⟨st1, h2, ?_⟩
  rcases run_entry_spec env b i st with ⟨st2, evs, g1, g2, g3⟩ | ⟨r, g1, _⟩
  · rw [h2] at g1
    cases g1
    rw [g2, calls_append, g3.2.2]
  · rw [h2] at g1
    cases g1

theorem run_stops_at_init {S Ctx Key Blk ε : Type} [DecidableEq Blk]
    (env : Env (AesWorld S Ctx Blk)) (c : Cipher Ctx Key Blk) (aes_key : Key) (blocks : Nat)
    (fread : S → (Nat → Blk) × S) (fail : AesFailure → ε)
    (km kc kq : benchmark_t (AesWorld S Ctx Blk) ε)
    (hm : NeverFails km) (hc : NeverFails kc)
    (hfail : ∀ ctx, (c.aes256_init ctx aes_key).1 ≠ c.AES_SUCCESS)
    (st : HState (AesWorld S Ctx Blk) ε) :
    ∃ r, run_entries env (benchmarks km kc (aes_kernel c aes_key blocks fread fail) kq) 0 st =
        .error r ∧
      r.status = .exited (fail .init_failed) ∧
      calls r.out = calls st.out ++ (List.range 100).map (fun j => (0, j)) ++
        (List.range 100).map (fun j => (1, j)) ++ [(2, 0)] := by
  obtain ⟨st1, h1, c1⟩ := run_entry_ok_out env
    ⟨km, "Matrix multiplication (512x512)", ITERATIONS_MATRIX⟩ 0 hm st
  obtain ⟨st2, h2, c2⟩ := run_entry_ok_out env
    ⟨kc, "CRC32 (67108864 bytes)", ITERATIONS_CRC32⟩ 1 hc st1
  have h3 : ∃ r, run_entry env
      ⟨aes_kernel c aes_key blocks fread fail, "AES (8388608 bytes)", ITERATIONS_AES⟩ 2 st2 =
        .error r ∧ r.status = .exited (fail .init_failed) ∧
      calls r.out = calls st2.out ++ [(2, 0)] := by
    unfold run_entry
    have e : ITERATIONS_AES = 99 + 1 := rfl
    simp only [e]
    rw [run_trials]
    rcases trial_shape env
        ⟨aes_kernel c aes_key blocks fread fail, "AES (8388608 bytes)", 99 + 1⟩ 2 0
        (start_entry ⟨aes_kernel c aes_key blocks fread fail, "AES (8388608 bytes)", 99 + 1⟩
          2 st2) with ⟨st3, inp, g1, _⟩ | ⟨r, f, g1, g2, g3, g4⟩
    · dsimp only at g1
      rw [aes_kernel_init_fails _ _ _ _ _ _ (hfail _)] at g1
      cases g1
    · dsimp only at g1 g4
      rw [aes_kernel_init_fails _ _ _ _ _ _ (hfail _)] at g1 g4
      cases g1
      rw [g2]
      refine ⟨r, rfl, g3, ?_⟩
      rw [g4]
      simp [calls_append, calls, start_entry]
  obtain ⟨r, h3, s3, c3⟩ := h3
  refine ⟨r, ?_, s3, ?_⟩
  · simp only [benchmarks, run_entries, h1, h2, h3, bind, Except.bind]
  · rw [c3, c2, c1]
    simp [ITERATIONS_MATRIX, ITERATIONS_CRC32]

theorem complete_run_init_count {S Ctx Key Blk ε : Type} [DecidableEq Blk]
    (env : Env (AesWorld S Ctx Blk)) (c : Cipher Ctx Key Blk) (aes_key : Key) (blocks : Nat)
    (fread : S → (Nat → Blk) × S) (fail : AesFailure → ε)
    (km kc kq : benchmark_t (AesWorld S Ctx Blk) ε)
    (hseek : ∀ w offset, init_count (env.fseek w offset) = init_count w)
    (hm : ∀ w w1, (km w).2 = .ok w1 → init_count w1 = init_count w)
    (hc : ∀ w w1, (kc w).2 = .ok w1 → init_count w1 = init_count w)
    (hq : ∀ w w1, (kq w).2 = .ok w1 → init_count w1 = init_count w)
    (st st1 : HState (AesWorld S Ctx Blk) ε)
    (h : run_entries env (benchmarks km kc (aes_kernel c aes_key blocks fread fail) kq) 0 st =
      .ok st1) :
    init_count st1.input = init_count st.input + 100 := by
  simp only [benchmarks, run_entries, bind, Except.bind] at h
  cases h0 : run_entry env ⟨km, "Matrix multiplication (512x512)", ITERATIONS_MATRIX⟩ 0 st with
  | error r => rw [h0] at h; cases h
  | ok s1 =>
    rw [h0] at h
    simp only at h
    cases h1 : run_entry env ⟨kc, "CRC32 (67108864 bytes)", ITERATIONS_CRC32⟩ 1 s1 with
    | error r => rw [h1] at h; cases h
    | ok s2 =>
      rw [h1] at h
      simp only at h
      cases h2 : run_entry env
          ⟨aes_kernel c aes_key blocks fread fail, "AES (8388608 bytes)", ITERATIONS_AES⟩
          2 s2 with
      | error r => rw [h2] at h; cases h
      | ok s3 =>
        rw [h2] at h
        simp only at h
        cases h3 : run_entry env ⟨kq, "Quicksort (750000 items)", ITERATIONS_QSORT⟩ 3 s3 with
        | error r => rw [h3] at h; cases h
        | ok s4 =>
          rw [h3] at h
          cases h
          have e0 := run_entry_count env _ 0 init_count 0 hseek hm _ _ h0
          have e1 := run_entry_count env _ 1 init_count 0 hseek hc _ _ h1
          have e2 := run_entry_count env _ 2 init_count 1 hseek
            (aes_kernel_count c aes_key blocks fread fail) _ _ h2
          have e3 := run_entry_count env _ 3 init_count 0 hseek hq _ _ h3
          simp only [ITERATIONS_AES] at e2
          omega

theorem idle_neverFails : NeverFails idle := fun w => ⟨w, rfl⟩

theorem dead_cipher_init (ctx : Nat) :
    (dead_cipher.aes256_init ctx 1).1 ≠ dead_cipher.AES_SUCCESS := by
  simp [dead_cipher]

theorem shift_kernel_neverFails (aes_key blocks : Nat) :
    NeverFails (aes_kernel shift_cipher aes_key blocks counting id) := by
  intro w
  unfold aes_kernel
  simp only
  rcases benchmark_aes_spec shift_cipher aes_key blocks (counting w.stream).1 w.aes rfl with
    ⟨s1, h1, _⟩ | ⟨i, f, s1, _, _, _, _, h4⟩
  · rw [h1]
    exact ⟨_, rfl⟩
  · exfalso
    have : block_failure shift_cipher (counting w.stream).1
        (shift_cipher.aes256_init w.aes.aes_ctx aes_key).2 i = none := by
      rw [block_failure_none]
      simp [round_trip, shift_cipher]
    rw [this] at h4
    cases h4

/-- C13 (as amended): `benchmark_aes` initialises the cipher context at the start of
every trial: each trial calls `aes256_init` once, before any other call. A complete run
over the registry therefore initialises it 100 times, once per AES trial. When the
initialisation always fails and the matrix and CRC32 kernels do not fail, the run ends
with the initialisation failure in the first AES trial, after the 200 matrix and CRC32
trials have been executed. -/
theorem aes_init_each_trial {S Ctx Key Blk ε : Type} [DecidableEq Blk]
    (env : Env (AesWorld S Ctx Blk)) (c : Cipher Ctx Key Blk) (aes_key : Key) (blocks : Nat)
    (fread : S → (Nat → Blk) × S) (fail : AesFailure → ε)
    (km kc kq : benchmark_t (AesWorld S Ctx Blk) ε) :
    (∀ data s, ∃ rest,
      (aes_state (benchmark_aes c aes_key blocks data s)).ops = s.ops ++ AesOp.init :: rest ∧
      AesOp.init ∉ rest) ∧
    ((∀ w offset, init_count (env.fseek w offset) = init_count w) →
      (∀ w w1, (km w).2 = .ok w1 → init_count w1 = init_count w) →
      (∀ w w1, (kc w).2 = .ok w1 → init_count w1 = init_count w) →
      (∀ w w1, (kq w).2 = .ok w1 → init_count w1 = init_count w) →
      ∀ st st1,
        run_entries env (benchmarks km kc (aes_kernel c aes_key blocks fread fail) kq) 0 st =
          .ok st1 →
        init_count st1.input = init_count st.input + 100) ∧
    (NeverFails km → NeverFails kc →
      (∀ ctx, (c.aes256_init ctx aes_key).1 ≠ c.AES_SUCCESS) →
      ∀ input, env.fopen = some input →
        (main env (benchmarks km kc (aes_kernel c aes_key blocks fread fail) kq)).status =
          .exited (fail .init_failed) ∧
        calls (main env (benchmarks km kc (aes_kernel c aes_key blocks fread fail) kq)).out =
          (List.range 100).map (fun j => (0, j)) ++ (List.range 100).map (fun j => (1, j)) ++
            [(2, 0)]) := by
  refine ⟨fun data s => benchmark_aes_ops c aes_key blocks data s, ?_, ?_⟩
  · intro hseek hm hc hq st st1 h
    exact complete_run_init_count env c aes_key blocks fread fail km kc kq hseek hm hc hq
      st st1 h
  · intro hm hc hfail input hopen
    obtain ⟨r, h1, h2, h3⟩ := run_stops_at_init env c aes_key blocks fread fail km kc kq hm hc
      hfail
      { input := input, rands := 0, clocks := 0,
        out := [.running (benchmarks km kc (aes_kernel c aes_key blocks fread fail) kq).length],
        results := fun _ => ⟨0, 0, 0⟩ }
    have hmain : main env (benchmarks km kc (aes_kernel c aes_key blocks fread fail) kq) = r := by
      simp only [main, hopen, h1]
    rw [hmain]
    refine ⟨h2, ?_⟩
    rw [h3]
    simp [calls]

theorem aes_init_each_trial_witness :
    NeverFails idle ∧ (∀ ctx, (dead_cipher.aes256_init ctx 1).1 ≠ dead_cipher.AES_SUCCESS) ∧
    aes_env.fopen = some ⟨0, aes_start⟩ ∧
    (main aes_env (benchmarks idle idle (aes_kernel dead_cipher 1 2 counting id) idle)).status =
      .exited .init_failed :=
  have hfail : ∀ ctx, (dead_cipher.aes256_init ctx 1).1 ≠ dead_cipher.AES_SUCCESS :=
    dead_cipher_init
  ⟨idle_neverFails, hfail, rfl,
   ((aes_init_each_trial aes_env dead_cipher 1 2 counting id idle idle idle).2.2
      idle_neverFails idle_neverFails hfail ⟨0, aes_start⟩ rfl).1⟩

/-- C13 fails as stated: in a run of the first loop of `main` that completes, the cipher
context has been initialised 100 times and not once; and in a run where the
initialisation fails, 200 trials have been executed before the failure. -/
theorem aes_init_not_once :
    (∃ st1, run_entries aes_env
        (benchmarks idle idle (aes_kernel shift_cipher 1 2 counting id) idle) 0
        aes_run_start = .ok st1 ∧ init_count st1.input = 100) ∧
    (∃ r, run_entries aes_env
        (benchmarks idle idle (aes_kernel dead_cipher 1 2 counting id) idle) 0
        aes_run_start = .error r ∧ r.status = .exited .init_failed ∧
      (calls r.out).length = 201) := by
  constructor
  · obtain ⟨st1, h1⟩ := run_entries_ok aes_env
      (benchmarks idle idle (aes_kernel shift_cipher 1 2 counting id) idle)
      (by
        intro b hb
        simp only [benchmarks, List.mem_cons, List.mem_singleton, List.not_mem_nil,
          or_false] at hb
        rcases hb with rfl | rfl | rfl | rfl
        · exact idle_neverFails
        · exact idle_neverFails
        · exact shift_kernel_neverFails 1 2
        · exact idle_neverFails)
      0 aes_run_start
    refine ⟨st1, h1, ?_⟩
    have := complete_run_init_count aes_env shift_cipher 1 2 counting id idle idle idle
      (fun w offset => rfl)
      (fun w w1 h => by simp only [idle] at h; cases h; rfl)
      (fun w w1 h => by simp only [idle] at h; cases h; rfl)
      (fun w w1 h => by simp only [idle] at h; cases h; rfl)
      aes_run_start st1 h1
    rw [this]
    rfl
  · obtain ⟨r, h1, h2, h3⟩ := run_stops_at_init aes_env dead_cipher 1 2 counting id
      idle idle idle idle_neverFails idle_neverFails dead_cipher_init aes_run_start
    refine ⟨r, h1, h2, ?_⟩
    rw [h3]
    simp [calls, aes_run_start]

/-! ## Further examples -/

theorem qsort_impl_perm_witness :
    (qsort_impl (fun a b : Int => decide (a > b)) (Mem.ofList [3, 1, 2, 1]) 0 3).map
      (fun m => m.dump 4) = .ok [some 1, some 1, some 2, some 3] ∧
    ∃ m : Mem Int,
      qsort_impl (fun a b : Int => decide (a > b)) (Mem.ofList [3, 1, 2, 1]) 0
        ((([3, 1, 2, 1] : List Int).length : Int) - 1) = .ok m ∧
      (m.dump ([3, 1, 2, 1] : List Int).length).Perm (([3, 1, 2, 1] : List Int).map some) ∧
      (m.dump ([3, 1, 2, 1] : List Int).length).length = ([3, 1, 2, 1] : List Int).length ∧
      ∀ k : Int, (k < 0 ∨ ((([3, 1, 2, 1] : List Int).length : Nat) : Int) ≤ k) → m k = none :=
  ⟨by decide, qsort_impl_perm (fun a b : Int => decide (a > b)) [3, 1, 2, 1]⟩

theorem trial_timed_region_witness :
    ∀ offset, Event.fseek offset ∉
      (.call 3 0 ::
        ((⟨qsort_kernel (fun a b : Int => decide (a > b)) three_items,
            "Quicksort (750000 items)", 100⟩ : benchmark_data_t Nat (QsortStop Int)).benchmark
          (demo_env.fseek (blank_start (QsortStop Int)).input
            (demo_env.rand (blank_start (QsortStop Int)).rands % 134217728))).1.map
          Event.kernel : List (Event (QsortStop Int))) :=
  (trial_timed_region demo_env
    ⟨qsort_kernel (fun a b : Int => decide (a > b)) three_items,
      "Quicksort (750000 items)", 100⟩ 3 0 (blank_start (QsortStop Int))).2.1

/-! ## main.c: extremes that were observed, and the frame of an entry -/

theorem foldl_record_min_mem (bits : Nat) (ds : List Int) (r : benchmark_result_t) :
    (ds.foldl (record bits) r).time_min = r.time_min ∨
      (ds.foldl (record bits) r).time_min ∈ ds := by
  induction ds generalizing r with
  | nil => left; rfl
  | cons d ds ih =>
    rw [List.foldl_cons]
    rcases ih (record bits r d) with h | h
    · rw [h, record_min]
      rcases min_choice d r.time_min with e | e
      · right; rw [e]; exact List.mem_cons_self _ _
      · left; exact e
    · right; exact List.mem_cons_of_mem _ h

theorem foldl_record_max_mem (bits : Nat) (ds : List Int) (r : benchmark_result_t) :
    (ds.foldl (record bits) r).time_max = r.time_max ∨
      (ds.foldl (record bits) r).time_max ∈ ds := by
  induction ds generalizing r with
  | nil => left; rfl
  | cons d ds ih =>
    rw [List.foldl_cons]
    rcases ih (record bits r d) with h | h
    · rw [h, record_max]
      rcases max_choice d r.time_max with e | e
      · right; rw [e]; exact List.mem_cons_self _ _
      · left; exact e
    · right; exact List.mem_cons_of_mem _ h

theorem foldl_record_observed (bits : Nat) (ds : List Int) (hne : ds ≠ [])
    (hlo : ∀ d ∈ ds, -2147483648 ≤ d) (hhi : ∀ d ∈ ds, d ≤ 2147483647) :
    (ds.foldl (record bits) reset).time_min ∈ ds ∧
      (ds.foldl (record bits) reset).time_max ∈ ds := by
  obtain ⟨d0, hd0⟩ := List.exists_mem_of_ne_nil ds hne
  constructor
  · rcases foldl_record_min_mem bits ds reset with h | h
    · have h1 := (foldl_record_min_le bits ds reset).2 d0 hd0
      have h2 := hhi d0 hd0
      have h3 : reset.time_min = 2147483647 := rfl
      have : (ds.foldl (record bits) reset).time_min = d0 := by omega
      rw [this]; exact hd0
    · exact h
  · rcases foldl_record_max_mem bits ds reset with h | h
    · have h1 := (foldl_record_le_max bits ds reset).2 d0 hd0
      have h2 := hlo d0 hd0
      have h3 : reset.time_max = -2147483648 := rfl
      have : (ds.foldl (record bits) reset).time_max = d0 := by omega
      rw [this]; exact hd0
    · exact h

/-- C21: when an entry has at least one trial and all its elapsed values lie in
`[-2147483648, 2147483647]`, the final `time_min` is the minimum of these values and the
final `time_max` their maximum; both are values that were recorded, not the seeds. -/
theorem time_min_max_observed {σ ε : Type} (env : Env σ) (b : benchmark_data_t σ ε) (i : Nat)
    (st st1 : HState σ ε) (h : run_entry env b i st = .ok st1) (hn : 0 < b.iterations)
    (hr : ∀ t, t < b.iterations →
      -2147483648 ≤ elapsed env st.clocks t ∧ elapsed env st.clocks t ≤ 2147483647) :
    List.minimum ((List.range b.iterations).map (elapsed env st.clocks)) =
      ((st1.results i).time_min : WithTop Int) ∧
    List.maximum ((List.range b.iterations).map (elapsed env st.clocks)) =
      ((st1.results i).time_max : WithBot Int) ∧
    (∃ t, t < b.iterations ∧ (st1.results i).time_min = elapsed env st.clocks t) ∧
    (∃ t, t < b.iterations ∧ (st1.results i).time_max = elapsed env st.clocks t) := by
  obtain ⟨_, h2, _⟩ := run_trials_results env b i b.iterations 0 _ _ h
  have hreset : (start_entry b i st).results i = reset := by simp [start_entry]
  have hclk : (start_entry b i st).clocks = st.clocks := rfl
  rw [hreset, hclk] at h2
  have hne : (List.range b.iterations).map (elapsed env st.clocks) ≠ [] := by
    intro he
    have := congrArg List.length he
    simp at this
    omega
  have hlo : ∀ d ∈ (List.range b.iterations).map (elapsed env st.clocks), -2147483648 ≤ d := by
    intro d hd
    obtain ⟨t, ht, rfl⟩ := List.mem_map.1 hd
    exact (hr t (List.mem_range.1 ht)).1
  have hhi : ∀ d ∈ (List.range b.iterations).map (elapsed env st.clocks), d ≤ 2147483647 := by
    intro d hd
    obtain ⟨t, ht, rfl⟩ := List.mem_map.1 hd
    exact (hr t (List.mem_range.1 ht)).2
  obtain ⟨m1, m2⟩ := foldl_record_observed env.clock_t_bits _ hne hlo hhi
  rw [← h2] at m1 m2
  refine ⟨?_, ?_, ?_, ?_⟩
  · rw [List.minimum_eq_coe_iff]
    refine ⟨m1, fun a ha => ?_⟩
    rw [h2]
    exact (foldl_record_min_le _ _ _).2 a ha
  · rw [List.maximum_eq_coe_iff]
    refine ⟨m2, fun a ha => ?_⟩
    rw [h2]
    exact (foldl_record_le_max _ _ _).2 a ha
  · obtain ⟨t, ht, e⟩ := List.mem_map.1 m1
    exact ⟨t, List.mem_range.1 ht, e.symm⟩
  · obtain ⟨t, ht, e⟩ := List.mem_map.1 m2
    exact ⟨t, List.mem_range.1 ht, e.symm⟩

theorem time_min_max_observed_witness :
    run_entry demo_env ⟨steady, "first", 2⟩ 0 demo_start =
      .ok (end_state (run_entry demo_env ⟨steady, "first", 2⟩ 0 demo_start)) ∧
    0 < (⟨steady, "first", 2⟩ : benchmark_data_t Nat Unit).iterations ∧
    ((end_state (run_entry demo_env ⟨steady, "first", 2⟩ 0 demo_start)).results 0).time_min
      = 1000 ∧
    ((end_state (run_entry demo_env ⟨steady, "first", 2⟩ 0 demo_start)).results 0).time_max
      = 5000 ∧
    List.minimum ((List.range 2).map (elapsed demo_env demo_start.clocks)) =
      (((end_state (run_entry demo_env ⟨steady, "first", 2⟩ 0 demo_start)).results 0).time_min
        : WithTop Int) :=
  ⟨by rfl, by decide, by decide, by decide,
   (time_min_max_observed demo_env ⟨steady, "first", 2⟩ 0 demo_start
     (end_state (run_entry demo_env ⟨steady, "first", 2⟩ 0 demo_start)) (by rfl) (by decide)
     (by decide)).1⟩

theorem run_entry_results {σ ε : Type} (env : Env σ) (b : benchmark_data_t σ ε) (i : Nat)
    (st st1 : HState σ ε) (h : run_entry env b i st = .ok st1) :
    st1.clocks = st.clocks + 2 * b.iterations ∧
    st1.results i =
      ((List.range b.iterations).map (elapsed env st.clocks)).foldl
        (record env.clock_t_bits) reset ∧
    ∀ k, k ≠ i → st1.results k = st.results k := by
  obtain ⟨h1, h2, h3⟩ := run_trials_results env b i b.iterations 0 _ _ h
  have hreset : (start_entry b i st).results i = reset := by simp [start_entry]
  have hclk : (start_entry b i st).clocks = st.clocks := rfl
  rw [hreset, hclk] at h2
  rw [hclk] at h1
  refine ⟨h1, h2, fun k hk => ?_⟩
  rw [h3 k hk]
  simp [start_entry, hk]

theorem run_entries_frame {σ ε : Type} (env : Env σ) (table : List (benchmark_data_t σ ε)) :
    ∀ (i : Nat) (st st1 : HState σ ε), run_entries env table i st = .ok st1 →
      ∀ k, (k < i ∨ i + table.length ≤ k) → st1.results k = st.results k := by
  induction table with
  | nil =>
    intro i st st1 h k _
    simp only [run_entries] at h
    cases h
    rfl
  | cons b rest ih =>
    intro i st st1 h k hk
    simp only [run_entries, bind, Except.bind] at h
    cases h1 : run_entry env b i st with
    | error e => rw [h1] at h; cases h
    | ok st2 =>
      rw [h1] at h
      simp only at h
      rw [ih (i + 1) st2 st1 h k (by simp only [List.length_cons] at hk; omega)]
      exact (run_entry_results env b i st st2 h1).2.2 k
        (by simp only [List.length_cons] at hk; omega)

/-- C23: entries share no timing state. The trials of entry `i` change `results[i]`
only: every other `results[j]` is what it was before them; `results[i]` after them is
the fold of the entry's own elapsed values from the reset values, whatever the array
held before; and the entries processed afterwards leave `results[i]` as it is. -/
theorem results_frame {σ ε : Type} (env : Env σ) (b : benchmark_data_t σ ε) (i : Nat)
    (st st1 : HState σ ε) (h : run_entry env b i st = .ok st1)
    (rest : List (benchmark_data_t σ ε)) (st2 : HState σ ε)
    (h2 : run_entries env rest (i + 1) st1 = .ok st2) :
    (∀ j, j ≠ i → st1.results j = st.results j) ∧
    st1.results i =
      ((List.range b.iterations).map (elapsed env st.clocks)).foldl
        (record env.clock_t_bits) reset ∧
    st2.results i = st1.results i := by
  obtain ⟨_, h3, h4⟩ := run_entry_results env b i st st1 h
  exact ⟨h4, h3, run_entries_frame env rest (i + 1) st1 st2 h2 i (Or.inl (by omega))⟩

theorem results_frame_witness :
    run_entry demo_env ⟨steady, "first", 2⟩ 0 demo_start =
      .ok (end_state (run_entry demo_env ⟨steady, "first", 2⟩ 0 demo_start)) ∧
    run_entries demo_env [⟨steady, "second", 1⟩] 1
        (end_state (run_entry demo_env ⟨steady, "first", 2⟩ 0 demo_start)) =
      .ok (end_state (run_entries demo_env steady_table 0 demo_start)) ∧
    ((end_state (run_entry demo_env ⟨steady, "first", 2⟩ 0 demo_start)).results 0 =
        ⟨6000, 1000, 5000⟩ ∧
      (end_state (run_entries demo_env steady_table 0 demo_start)).results 1 =
        ⟨9000, 9000, 9000⟩) ∧
    (∀ j, j ≠ 0 →
      (end_state (run_entry demo_env ⟨steady, "first", 2⟩ 0 demo_start)).results j =
        demo_start.results j) ∧
    (end_state (run_entries demo_env steady_table 0 demo_start)).results 0 =
      (end_state (run_entry demo_env ⟨steady, "first", 2⟩ 0 demo_start)).results 0 :=
  ⟨by rfl, by rfl, by decide,
   (results_frame demo_env ⟨steady, "first", 2⟩ 0 demo_start
     (end_state (run_entry demo_env ⟨steady, "first", 2⟩ 0 demo_start)) (by rfl)
     [⟨steady, "second", 1⟩] (end_state (run_entries demo_env steady_table 0 demo_start))
     (by rfl)).1,
   (results_frame demo_env ⟨steady, "first", 2⟩ 0 demo_start
     (end_state (run_entry demo_env ⟨steady, "first", 2⟩ 0 demo_start)) (by rfl)
     [⟨steady, "second", 1⟩] (end_state (run_entries demo_env steady_table 0 demo_start))
     (by rfl)).2.2⟩

/-! ## qsort.c: index safety -/

theorem Framed.refl {α : Type} {m m1 : Mem α} (h : Extends m m1) : Framed m m1 m m1 :=
  ⟨h, fun _ _ => rfl, fun _ => Iff.rfl⟩

theorem Framed.trans {α : Type} {m m1 r r1 s s1 : Mem α} (h1 : Framed m m1 r r1)
    (h2 : Framed r r1 s s1) : Framed m m1 s s1 := by
  refine ⟨h2.1, fun k hk => ?_, fun k => ?_⟩
  · rw [h2.2.1 k ((h1.2.2 k).2 hk), h1.2.1 k hk]
  · rw [h2.2.2 k, h1.2.2 k]

theorem rd_extends {α : Type} {m m1 : Mem α} (h : Extends m m1) (i : Int) (x : α)
    (hr : rd m i = .ok x) : rd m1 i = .ok x := by
  unfold rd at hr ⊢
  cases hm : m i with
  | none => rw [hm] at hr; cases hr
  | some y =>
    rw [hm] at hr
    cases hr
    rw [h i _ hm]

theorem wr_framed {α : Type} {m m1 : Mem α} (h : Extends m m1) (i : Int) (v : α) (r : Mem α)
    (hw : wr m i v = .ok r) : ∃ r1, wr m1 i v = .ok r1 ∧ Framed m m1 r r1 := by
  unfold wr at hw ⊢
  cases hm : m i with
  | none => rw [hm] at hw; cases hw
  | some y =>
    rw [hm] at hw
    cases hw
    rw [h i y hm]
    refine ⟨_, rfl, ?_, ?_, ?_⟩
    · intro k x hk
      by_cases e : k = i
      · simpa [e] using hk
      · simp only [e, if_false] at hk ⊢
        exact h k x hk
    · intro k hk
      have e : k ≠ i := by
        intro e
        rw [e, hm] at hk
        cases hk
      simp [e]
    · intro k
      by_cases e : k = i
      · simp [e, hm]
      · simp [e]

theorem swap_framed {α : Type} {m m1 : Mem α} (h : Extends m m1) (a b : Int) (r : Mem α)
    (hs : swap m a b = .ok r) : ∃ r1, swap m1 a b = .ok r1 ∧ Framed m m1 r r1 := by
  unfold swap at hs ⊢
  simp only [bind, Except.bind] at hs ⊢
  cases ha : rd m a with
  | error e => rw [ha] at hs; cases hs
  | ok c =>
    rw [ha] at hs
    cases hb : rd m b with
    | error e => rw [hb] at hs; cases hs
    | ok vb =>
      rw [hb] at hs
      simp only at hs
      cases hw : wr m a vb with
      | error e => rw [hw] at hs; cases hs
      | ok m2 =>
        rw [hw] at hs
        obtain ⟨n2, e2, f2⟩ := wr_framed h a vb m2 hw
        obtain ⟨n3, e3, f3⟩ := wr_framed f2.1 b c r hs
        rw [rd_extends h a c ha, rd_extends h b vb hb]
        simp only
        rw [e2]
        exact ⟨n3, e3, f2.trans f3⟩

theorem scan_framed {α : Type} (gt : α → α → Bool) (left right : Int) (fuel : Nat) :
    ∀ (i last : Int) (m m1 : Mem α) (last1 : Int) (r : Mem α), Extends m m1 →
      scan gt left right fuel i last m = .ok (last1, r) →
      ∃ r1, scan gt left right fuel i last m1 = .ok (last1, r1) ∧ Framed m m1 r r1 := by
  induction fuel with
  | zero =>
    intro i last m m1 last1 r he h
    rw [scan] at h ⊢
    by_cases hir : i ≤ right
    · simp [hir] at h
    · simp only [hir, if_false] at h ⊢
      cases h
      exact ⟨m1, rfl, Framed.refl he⟩
  | succ n ih =>
    intro i last m m1 last1 r he h
    rw [scan] at h ⊢
    by_cases hir : i ≤ right
    · simp only [hir, if_true, bind, Except.bind] at h ⊢
      cases hp : rd m left with
      | error e => rw [hp] at h; cases h
      | ok p =>
        rw [hp] at h
        cases hx : rd m i with
        | error e => rw [hx] at h; cases h
        | ok x =>
          rw [hx] at h
          simp only at h
          rw [rd_extends he left p hp, rd_extends he i x hx]
          simp only
          cases hg : gt p x
          · simp only [hg, Bool.false_eq_true, if_false] at h ⊢
            exact ih _ _ _ _ _ _ he h
          · simp only [hg, if_true] at h ⊢
            cases hs : swap m i (last + 1) with
            | error e => rw [hs] at h; cases h
            | ok m2 =>
              rw [hs] at h
              obtain ⟨n2, e2, f2⟩ := swap_framed he i (last + 1) m2 hs
              rw [e2]
              obtain ⟨r1, e3, f3⟩ := ih _ _ _ _ _ _ f2.1 h
              exact ⟨r1, e3, f2.trans f3⟩
    · simp only [hir, if_false] at h ⊢
      cases h
      exact ⟨m1, rfl, Framed.refl he⟩

theorem partition_framed {α : Type} (gt : α → α → Bool) {m m1 : Mem α} (he : Extends m m1)
    (left right last : Int) (r : Mem α) (h : partition gt m left right = .ok (last, r)) :
    ∃ r1, partition gt m1 left right = .ok (last, r1) ∧ Framed m m1 r r1 := by
  unfold partition at h ⊢
  simp only [bind, Except.bind] at h ⊢
  cases hs : swap m left (Int.tdiv (left + right) 2) with
  | error e => rw [hs] at h; cases h
  | ok m2 =>
    rw [hs] at h
    simp only at h
    obtain ⟨n2, e2, f2⟩ := swap_framed he _ _ m2 hs
    rw [e2]
    simp only
    cases hc : scan gt left right (right - left).toNat (left + 1) left m2 with
    | error e => rw [hc] at h; cases h
    | ok q =>
      obtain ⟨last2, m3⟩ := q
      rw [hc] at h
      simp only at h
      obtain ⟨n3, e3, f3⟩ := scan_framed gt left right _ _ _ _ _ _ _ f2.1 hc
      rw [e3]
      simp only
      cases hw : swap m3 left last2 with
      | error e => rw [hw] at h; cases h
      | ok m4 =>
        rw [hw] at h
        obtain ⟨n4, e4, f4⟩ := swap_framed f3.1 _ _ m4 hw
        rw [e4]
        simp only [pure, Except.pure] at h ⊢
        cases h
        exact ⟨n4, rfl, (f2.trans f3).trans f4⟩

theorem qsort_fuel_framed {α : Type} (gt : α → α → Bool) (fuel : Nat) :
    ∀ (m m1 : Mem α) (left right : Int) (r : Mem α), Extends m m1 →
      qsort_impl_fuel gt fuel m left right = .ok r →
      ∃ r1, qsort_impl_fuel gt fuel m1 left right = .ok r1 ∧ Framed m m1 r r1 := by
  induction fuel with
  | zero =>
    intro m m1 left right r he h
    rw [qsort_impl_fuel] at h ⊢
    by_cases hlr : left ≥ right
    · simp only [hlr, if_true] at h ⊢
      cases h
      exact ⟨m1, rfl, Framed.refl he⟩
    · simp [hlr] at h
  | succ n ih =>
    intro m m1 left right r he h
    by_cases hlr : left ≥ right
    · rw [qsort_impl_fuel] at h ⊢
      simp only [hlr, if_true] at h ⊢
      cases h
      exact ⟨m1, rfl, Framed.refl he⟩
    · rw [qsort_impl_fuel_succ gt n _ left right hlr] at h ⊢
      simp only [bind, Except.bind] at h ⊢
      cases hp : partition gt m left right with
      | error e => rw [hp] at h; cases h
      | ok q =>
        obtain ⟨last, m2⟩ := q
        rw [hp] at h
        simp only at h
        obtain ⟨n2, e2, f2⟩ := partition_framed gt he left right last m2 hp
        rw [e2]
        simp only
        cases h3 : qsort_impl_fuel gt n m2 left (last - 1) with
        | error e => rw [h3] at h; cases h
        | ok m3 =>
          rw [h3] at h
          simp only at h
          obtain ⟨n3, e3, f3⟩ := ih _ _ _ _ _ f2.1 h3
          rw [e3]
          simp only
          obtain ⟨n4, e4, f4⟩ := ih _ _ _ _ _ f3.1 h
          exact ⟨n4, e4, (f2.trans f3).trans f4⟩

theorem window_extends {α : Type} (m : Mem α) (a b : Int) : Extends (window m a b) m := by
  intro k x h
  unfold window at h
  by_cases hk : a ≤ k ∧ k ≤ b
  · simpa [hk] using h
  · simp [hk] at h

theorem window_cell {α : Type} (m : Mem α) (a b : Int) (hv : ValidOn m a b) (k : Int) :
    (window m a b k).isSome = true ↔ a ≤ k ∧ k ≤ b := by
  unfold window
  by_cases hk : a ≤ k ∧ k ≤ b
  · simp only [hk, and_self, if_true, iff_true]
    exact hv k hk.1 hk.2
  · simp [hk]

theorem tdiv_two_mem_le {left right : Int} (h : left ≤ right) :
    left ≤ Int.tdiv (left + right) 2 ∧ Int.tdiv (left + right) 2 ≤ right := by
  rcases lt_or_eq_of_le h with h1 | h1
  · exact tdiv_two_mem h1
  · subst h1
    have e : left + left = left * 2 := by ring
    rw [e, Int.mul_tdiv_cancel left (by decide)]
    exact ⟨le_refl _, le_refl _⟩

theorem validOn_ofList_range {α : Type} (l : List α) (left right : Int) (h0 : 0 ≤ left)
    (hn : right < l.length) : ValidOn (Mem.ofList l) left right := by
  intro k hk1 hk2
  exact validOn_ofList l k (by omega) (by omega)

/-- C22: index safety of the sort. For an array of length `n` and a call
`qsort_impl(left, right)` with `0 <= left` and `right < n` (so also `qsort_impl(0, n-1)`,
and `n = 0`), the call runs to its end on the array cut down to the cells
`left .. right`, where every access to another index is a fault: the call and all its
recursive calls read and write cells of `[left, right]` only, which lies in `[0, n-1]`.
On any array that has these cells, the whole array among them, the call returns the same
cells in `[left, right]` and leaves every other cell as it was. `(left + right) / 2`
lies in `[left, right]` whenever the range is not empty, and the sum `left + right` is
an `int` for every array of at most `QSORT_ITEMS` cells. -/
theorem qsort_impl_index_safe {α : Type} (gt : α → α → Bool) (l : List α) (left right : Int)
    (h0 : 0 ≤ left) (hn : right < l.length) :
    (∀ k, (window (Mem.ofList l) left right k).isSome = true ↔ left ≤ k ∧ k ≤ right) ∧
    (∀ k, left ≤ k → k ≤ right → 0 ≤ k ∧ k ≤ (l.length : Int) - 1) ∧
    Extends (window (Mem.ofList l) left right) (Mem.ofList l) ∧
    (∃ w, qsort_impl gt (window (Mem.ofList l) left right) left right = .ok w ∧
      ∀ m1, Extends (window (Mem.ofList l) left right) m1 →
        ∃ r1, qsort_impl gt m1 left right = .ok r1 ∧
          (∀ k, left ≤ k → k ≤ right → r1 k = w k) ∧
          (∀ k, (k < left ∨ right < k) → r1 k = m1 k)) ∧
    (left ≤ right →
      left ≤ Int.tdiv (left + right) 2 ∧ Int.tdiv (left + right) 2 ≤ right) ∧
    (l.length ≤ QSORT_ITEMS → left ≤ right →
      0 ≤ left + right ∧ left + right ≤ 2147483647) := by
  have hv := validOn_ofList_range l left right h0 hn
  have hc := window_cell (Mem.ofList l) left right hv
  have hw : ValidOn (window (Mem.ofList l) left right) left right :=
    fun k hk1 hk2 => (hc k).2 ⟨hk1, hk2⟩
  refine ⟨hc, fun k hk1 hk2 => ⟨by omega, by omega⟩, window_extends _ _ _, ?_,
    tdiv_two_mem_le, fun hq hlr => by unfold QSORT_ITEMS at hq; omega⟩
  obtain ⟨w, hq⟩ :
      ∃ w, qsort_impl gt (window (Mem.ofList l) left right) left right = .ok w := by
    obtain ⟨σ, hq, _, _⟩ := qsort_impl_spec gt _ left right hw
    exact ⟨_, hq⟩
  refine ⟨w, hq, fun m1 he => ?_⟩
  obtain ⟨r1, e1, f1, f2, f3⟩ := qsort_fuel_framed gt _ _ m1 left right _ he hq
  refine ⟨r1, e1, fun k hk1 hk2 => ?_, fun k hk => ?_⟩
  · cases hx : w k with
    | none =>
      have h4 := (f3 k).1 hx
      have h5 := (hc k).2 ⟨hk1, hk2⟩
      rw [h4] at h5
      cases h5
    | some x => exact f1 k x hx
  · apply f2
    have : ¬ (left ≤ k ∧ k ≤ right) := by omega
    simp [window, this]

theorem qsort_impl_index_safe_witness :
    (0 : Int) ≤ 1 ∧ (2 : Int) < ([5, 4, 2, 1] : List Int).length ∧
    (qsort_impl (fun a b : Int => decide (a > b)) (window (Mem.ofList [5, 4, 2, 1]) 1 2)
      1 2).map (fun m => m.dump 4) = .ok [none, some 2, some 4, none] ∧
    (qsort_impl (fun a b : Int => decide (a > b)) (Mem.ofList [5, 4, 2, 1]) 1 2).map
      (fun m => m.dump 4) = .ok [some 5, some 2, some 4, some 1] ∧
    (qsort_impl (fun a b : Int => decide (a > b)) (window (Mem.ofList [5, 4, 2, 1]) 1 2)
      0 3).map (fun m => m.dump 4) = .error .outOfBounds ∧
    ((1 : Int) ≤ 2 → (1 : Int) ≤ Int.tdiv (1 + 2) 2 ∧ Int.tdiv (1 + 2) 2 ≤ (2 : Int)) ∧
    ∃ w, qsort_impl (fun a b : Int => decide (a > b)) (window (Mem.ofList [5, 4, 2, 1]) 1 2)
        1 2 = .ok w ∧
      ∀ m1, Extends (window (Mem.ofList [5, 4, 2, 1]) 1 2) m1 →
        ∃ r1, qsort_impl (fun a b : Int => decide (a > b)) m1 1 2 = .ok r1 ∧
          (∀ k, 1 ≤ k → k ≤ 2 → r1 k = w k) ∧
          (∀ k, (k < 1 ∨ 2 < k) → r1 k = m1 k) :=
  ⟨by decide, by decide, by decide, by decide, by decide,
   (qsort_impl_index_safe (fun a b : Int => decide (a > b)) [5, 4, 2, 1] 1 2 (by decide)
     (by decide)).2.2.2.2.1,
   (qsort_impl_index_safe (fun a b : Int => decide (a > b)) [5, 4, 2, 1] 1 2 (by decide)
     (by decide)).2.2.2.1⟩

/-! ## main.c: a kernel that fails -/

theorem run_entries_append {σ ε : Type} (env : Env σ) (l1 l2 : List (benchmark_data_t σ ε)) :
    ∀ (i : Nat) (st : HState σ ε),
      run_entries env (l1 ++ l2) i st =
        (run_entries env l1 i st >>= fun st1 => run_entries env l2 (i + l1.length) st1) := by
  induction l1 with
  | nil =>
    intro i st
    simp [run_entries, bind, Except.bind]
  | cons b rest ih =>
    intro i st
    rw [List.cons_append, run_entries, run_entries]
    simp only [bind, Except.bind, List.length_cons]
    cases h : run_entry env b i st with
    | error r => rfl
    | ok st1 =>
      simp only
      have := ih (i + 1) st1
      simp only [bind, Except.bind] at this
      rw [this]
      have e : i + 1 + rest.length = i + (rest.length + 1) := by omega
      rw [e]

theorem trial_fails {σ ε : Type} (env : Env σ) (b : benchmark_data_t σ ε) (i j : Nat)
    (st : HState σ ε) (kevs : List KernelEvent) (f : ε)
    (hfail : b.benchmark (env.fseek st.input (env.rand st.rands % 134217728)) =
      (kevs, .error f)) :
    trial env b i j st = .error
      { out := st.out ++ [.fseek (env.rand st.rands % 134217728), .progress j b.iterations,
          .clock (env.clock st.clocks), .call i j] ++ kevs.map Event.kernel ++ [.fatal f],
        status := .exited f } := by
  unfold trial
  simp only [hfail]

theorem run_trials_fails {σ ε : Type} (env : Env σ) (b : benchmark_data_t σ ε) (i : Nat)
    (st st2 : HState σ ε) (t : Nat) (ht : t < b.iterations)
    (htr : run_trials env b i t 0 st = .ok st2) (r : Run ε)
    (hfail : trial env b i t st2 = .error r) :
    run_trials env b i b.iterations 0 st = .error r := by
  obtain ⟨n, hn⟩ : ∃ n, b.iterations = t + (n + 1) := ⟨b.iterations - t - 1, by omega⟩
  rw [hn, run_trials_add, htr]
  simp only [bind, Except.bind, Nat.zero_add]
  rw [run_trials, hfail]
  rfl

/-- C10: fail-fast. When the run has completed the entries before entry `e` and the
trials of `e` before trial `t`, and the kernel of `e` fails its self-check in trial `t`,
then `main` ends with that failure: what it did is what was done before the trial, the
seek, the progress line, the start time and the call of trial `t`, what the kernel did,
and the failure, which is the last event; the calls made are the trials before `(e, t)`
and `(e, t)` once, so that no trial is run again and none after it is run; and no
result line is printed. -/
theorem fail_fast {σ ε : Type} (env : Env σ) (pre : List (benchmark_data_t σ ε))
    (b : benchmark_data_t σ ε) (post : List (benchmark_data_t σ ε)) (input : σ)
    (hopen : env.fopen = some input) (st1 : HState σ ε)
    (hpre : run_entries env pre 0
      { input := input, rands := 0, clocks := 0,
        out := [.running (pre ++ b :: post).length], results := fun _ => ⟨0, 0, 0⟩ } = .ok st1)
    (t : Nat) (ht : t < b.iterations) (st2 : HState σ ε)
    (htr : run_trials env b pre.length t 0 (start_entry b pre.length st1) = .ok st2)
    (kevs : List KernelEvent) (f : ε)
    (hfail : b.benchmark (env.fseek st2.input (env.rand st2.rands % 134217728)) =
      (kevs, .error f)) :
    main env (pre ++ b :: post) =
      { out := st2.out ++ [.fseek (env.rand st2.rands % 134217728), .progress t b.iterations,
          .clock (env.clock st2.clocks), .call pre.length t] ++ kevs.map Event.kernel ++
          [.fatal f],
        status := .exited f } ∧
    (main env (pre ++ b :: post)).status = .exited f ∧
    (main env (pre ++ b :: post)).out.getLast? = some (.fatal f) ∧
    calls (main env (pre ++ b :: post)).out =
      trial_ids pre 0 ++ (List.range (t + 1)).map (fun j => (pre.length, j)) ∧
    NoResult (main env (pre ++ b :: post)).out := by
  have hrun : run_entries env (pre ++ b :: post) 0
      { input := input, rands := 0, clocks := 0,
        out := [.running (pre ++ b :: post).length], results := fun _ => ⟨0, 0, 0⟩ } =
      .error { out := st2.out ++ [.fseek (env.rand st2.rands % 134217728),
          .progress t b.iterations, .clock (env.clock st2.clocks), .call pre.length t] ++
          kevs.map Event.kernel ++ [.fatal f], status := .exited f } := by
    rw [run_entries_append, hpre]
    simp only [bind, Except.bind, Nat.zero_add, run_entries]
    unfold run_entry
    rw [run_trials_fails env b pre.length _ st2 t ht htr _
      (trial_fails env b pre.length t st2 kevs f hfail)]
  have hmain : main env (pre ++ b :: post) =
      { out := st2.out ++ [.fseek (env.rand st2.rands % 134217728), .progress t b.iterations,
          .clock (env.clock st2.clocks), .call pre.length t] ++ kevs.map Event.kernel ++
          [.fatal f],
        status := .exited f } := by
    simp only [main, hopen, hrun]
  obtain ⟨evs0, h0, q0⟩ : ∃ evs, st1.out = [.running (pre ++ b :: post).length] ++ evs ∧
      Quiet evs (trial_ids pre 0) := by
    rcases run_entries_spec env pre 0
      { input := input, rands := 0, clocks := 0,
        out := [.running (pre ++ b :: post).length], results := fun _ => ⟨0, 0, 0⟩ } with
      ⟨s, evs, h1, h2, h3⟩ | ⟨r, h1, _⟩
    · rw [hpre] at h1
      cases h1
      exact ⟨evs, h2, h3⟩
    · rw [hpre] at h1
      cases h1
  obtain ⟨evs1, h1, q1⟩ : ∃ evs, st2.out = st1.out ++ [.running_benchmark b.name] ++ evs ∧
      Quiet evs ((List.range t).map (fun j => (pre.length, j))) := by
    rcases run_trials_spec env b pre.length t 0 (start_entry b pre.length st1) with
      ⟨s, evs, h1, h2, h3⟩ | ⟨r, h1, _⟩
    · rw [htr] at h1
      cases h1
      refine ⟨evs, h2, ?_⟩
      simpa using h3
    · rw [htr] at h1
      cases h1
  refine ⟨hmain, by rw [hmain], by rw [hmain]; exact List.getLast?_concat _, ?_, ?_⟩
  · rw [hmain]
    simp only [h1, h0, calls_append, calls_kernel, q0.2.2, q1.2.2, List.range_succ,
      List.map_append]
    simp [calls]
  · rw [hmain]
    have hs : NoResult st2.out := by
      rw [h1, h0]
      refine noResult_append.2 ⟨noResult_append.2 ⟨noResult_append.2 ⟨?_, q0.2.1⟩, ?_⟩,
        q1.2.1⟩
      · intro n k r h
        simp at h
      · intro n k r h
        simp at h
    refine noResult_append.2 ⟨noResult_append.2 ⟨noResult_append.2 ⟨hs, ?_⟩,
      noResult_kernel kevs⟩, ?_⟩
    · intro n k r h
      simp at h
    · intro n k r h
      simp at h

theorem fail_fast_witness :
    demo_env.fopen = some 0 ∧
    (main demo_env
      ([⟨steady, "first", 1⟩] ++ ⟨flaky, "second", 2⟩ :: [⟨steady, "third", 1⟩])).out =
      [.running 3, .running_benchmark "first",
        .fseek 7, .progress 0 1, .clock 0, .call 0 0, .kernel (.fread 8), .clock 1,
        .running_benchmark "second",
        .fseek 1007, .progress 0 2, .clock 4, .call 1 0, .kernel (.fread 8), .clock 9,
        .fseek 2007, .progress 1 2, .clock 16, .call 1 1, .kernel (.fread 8), .fatal ()] ∧
    (main demo_env
      ([⟨steady, "first", 1⟩] ++ ⟨flaky, "second", 2⟩ :: [⟨steady, "third", 1⟩])).status =
      .exited () ∧
    calls (main demo_env
      ([⟨steady, "first", 1⟩] ++ ⟨flaky, "second", 2⟩ :: [⟨steady, "third", 1⟩])).out =
      [(0, 0), (1, 0), (1, 1)] ∧
    NoResult (main demo_env
      ([⟨steady, "first", 1⟩] ++ ⟨flaky, "second", 2⟩ :: [⟨steady, "third", 1⟩])).out :=
  have h := fail_fast demo_env [⟨steady, "first", 1⟩] ⟨flaky, "second", 2⟩
    [⟨steady, "third", 1⟩] 0 rfl
    (end_state (run_entries demo_env [⟨steady, "first", 1⟩] 0
      { input := 0, rands := 0, clocks := 0, out := [.running 3],
        results := fun _ => ⟨0, 0, 0⟩ }))
    (by rfl) 1 (by decide)
    (end_state (run_trials demo_env ⟨flaky, "second", 2⟩ 1 1 0
      (start_entry ⟨flaky, "second", 2⟩ 1
        (end_state (run_entries demo_env [⟨steady, "first", 1⟩] 0
          { input := 0, rands := 0, clocks := 0, out := [.running 3],
            results := fun _ => ⟨0, 0, 0⟩ })))))
    (by rfl) [.fread 8] () (by rfl)
  ⟨rfl, by decide, h.2.1, h.2.2.2.1, h.2.2.2.2⟩

end Syntaxbench
